import Mathlib

/-!
Verification of the rust-macro competitive-programming library.

Each Rust data structure or engine used by the claims is shallowly embedded
below as executable Lean definitions translated from the source:

* `src/cumulative_sum.rs`   → `RM.CumulativeSum`
* `src/bit_vec.rs`          → `RM.BitVecR`, `RM.BitVecRange`
* `src/dp/push_dp.rs`       → `RM.PushDPRules`, `RM.PushDpEngine`, `RM.PushDpEngineEnhanced`
* `src/dp/pull_dp.rs`       → `RM.PullDPRules`, `RM.PullDpEngine`
* `src/dp/digit_dp.rs`      → `RM.DigitDPRules`, `RM.DigitDP`
* `src/union_find.rs`       → `RM.UnionFind`
* `src/all_direction_tree_dp.rs` → `RM.AllDirectionTreeDP`

Rust `FxHashMap`/`FxHashSet` values are modelled as association lists /
membership lists over a `DecidableEq` key type (the code only uses insert,
lookup and entry-or-insert, all keyed by `Eq`), `BTreeMap` as an association
list kept sorted by key, and `Vec` as `List`.  Loops whose termination
depends on caller-supplied data (worklist discovery, union-find pointer
chasing, DFS over a caller-supplied graph) take an explicit fuel argument
and return `none`, or return a sentinel, when fuel runs out; theorems either
quantify over the fuel or show a concrete fuel suffices.  A Rust `panic!`
(`expect`, failed `assert!`) is modelled as `none`.
-/

namespace RM

/-! ## Association-list model of FxHashMap -/

/-- Lookup in an association list (models `HashMap::get`). -/
def assocGet {S A : Type} [DecidableEq S] : List (S × A) → S → Option A
  | [], _ => none
  | (k, v) :: rest, s => if k = s then some v else assocGet rest s

/-- Insert/overwrite in an association list (models `HashMap::insert` and
writing through `entry`). -/
def assocInsert {S A : Type} [DecidableEq S] : List (S × A) → S → A → List (S × A)
  | [], s, a => [(s, a)]
  | (k, v) :: rest, s, a =>
    if k = s then (k, a) :: rest else (k, v) :: assocInsert rest s a

/-! ## Cumulative sum (src/cumulative_sum.rs) -/

/-- Embeds `CumulativeSum` from src/cumulative_sum.rs: the prefix table. -/
structure CumulativeSum where
  data : List Int

/-- Embeds `CumulativeSum::new`: `data` starts with `T::default()` (0) and for
each input value appends `last + val`; `data.last().unwrap()` is modelled as
`getLastD 0` (the list begins with `[0]`, so it is never empty). -/
def CumulativeSum.new (arr : List Int) : CumulativeSum :=
  ⟨arr.foldl (fun data val => data ++ [data.getLastD 0 + val]) [0]⟩

/-- Embeds `CumulativeSum::sum`: `assert!(l <= r && r < self.data.len())`
then `data[r] - data[l]`; a failed assert (panic) is `none`. -/
def CumulativeSum.sum (c : CumulativeSum) (l r : Nat) : Option Int :=
  if l ≤ r ∧ r < c.data.length then some (c.data.getD r 0 - c.data.getD l 0)
  else none

/-! ## Bit vectors (src/bit_vec.rs) -/

/-- Embeds `BitVec` from src/bit_vec.rs (named `BitVecR` to avoid the core
`BitVec`): an n-bit value stored in a machine word. -/
structure BitVecR where
  data : Nat
  n : Nat
deriving DecidableEq, Repr

/-- Embeds `BitVec::from_usize`: mask `data` to the low `n` bits. -/
def BitVecR.from_usize (data n : Nat) : BitVecR :=
  ⟨data &&& ((1 <<< n) - 1), n⟩

/-- Embeds `BitVec::to_usize`. -/
def BitVecR.to_usize (bv : BitVecR) : Nat := bv.data

/-- Embeds `BitVecRange` from src/bit_vec.rs; field `end` is a Lean keyword,
renamed `endv`. -/
structure BitVecRange where
  n : Nat
  curr : Nat
  endv : Nat
deriving DecidableEq, Repr

/-- Embeds `BitVecRange::new`. -/
def BitVecRange.new (n : Nat) : BitVecRange :=
  ⟨n, 0, 1 <<< n⟩

/-- Embeds `Iterator::next` for `BitVecRange`. -/
def BitVecRange.next (r : BitVecRange) : Option (BitVecR × BitVecRange) :=
  if r.curr < r.endv then
    some (BitVecR.from_usize r.curr r.n, ⟨r.n, r.curr + 1, r.endv⟩)
  else none

/-- Repeatedly calling `next`, collecting the yielded items; `fuel` bounds the
number of calls (each call increases `curr` by one, so `endv - curr` steps
drain the iterator). -/
def BitVecRange.drain (fuel : Nat) (r : BitVecRange) : List BitVecR :=
  match fuel with
  | 0 => []
  | fuel + 1 =>
    match r.next with
    | none => []
    | some (bv, r2) => bv :: BitVecRange.drain fuel r2

/-- The full sequence of items the iterator yields. -/
def BitVecRange.toList (r : BitVecRange) : List BitVecR :=
  BitVecRange.drain (r.endv - r.curr) r

/-- Running prefix sums continuing from `x`: specification-side helper used to
describe the table `CumulativeSum::new` builds. -/
def partialSums (x : Int) : List Int → List Int
  | [] => []
  | a :: l => (x + a) :: partialSums (x + a) l

/-! ## Push-style DAG DP (src/dp/push_dp.rs)

The discovery stack (`Vec`, pushed/popped at the back) is modelled as a list
whose head is the top of the stack; the initial stack holding the collected
sources in `Vec` order is therefore `sources.reverse`.  The `BTreeMap` of
rank buckets is an association list kept sorted by key. -/

/-- Embeds the `PushDPRules` trait: rank, successor, monoid, seed and
transition functions supplied by the caller. -/
structure PushDPRules (S V C : Type) where
  rank : C → S → Nat
  succs : C → S → List S
  identity : C → V
  op : C → V → V → V
  init : C → S → Option V
  trans : C → S → S → V → V

/-- Discovery state of `PushDpEngine::propagate`: the seen-set, the rank
buckets (`BTreeMap<usize, Vec<S>>` as a sorted association list) and the
adjacency map. -/
structure PushDisc (S : Type) where
  seen : List S
  buckets : List (Nat × List S)
  adj : List (S × List S)

/-- Embeds `buckets.entry(r).or_default().push(s)` on a `BTreeMap`: insert `s`
at the back of the bucket for key `r`, keeping keys sorted. -/
def btAdd {S : Type} : List (Nat × List S) → Nat → S → List (Nat × List S)
  | [], r, s => [(r, [s])]
  | (k, vs) :: rest, r, s =>
    if r < k then (r, [s]) :: (k, vs) :: rest
    else if r = k then (k, vs ++ [s]) :: rest
    else (k, vs) :: btAdd rest r s

/-- Embeds the initial `for s in &stack { if seen.insert(s) { bucket push } }`
loop of `propagate`, iterating the collected sources in `Vec` order. -/
def pushSeed {S V C : Type} [DecidableEq S] (R : PushDPRules S V C) (c : C) :
    List S → PushDisc S → PushDisc S
  | [], d => d
  | s :: ss, d =>
    if s ∈ d.seen then pushSeed R c ss d
    else pushSeed R c ss ⟨s :: d.seen, btAdd d.buckets (R.rank c s) s, d.adj⟩

/-- Embeds the inner `for t in ns` loop of the discovery `while`: each
newly-seen successor is recorded in its rank bucket and pushed on the stack. -/
def pushNbrs {S V C : Type} [DecidableEq S] (R : PushDPRules S V C) (c : C) :
    List S → List S → PushDisc S → List S × PushDisc S
  | [], stack, d => (stack, d)
  | t :: ts, stack, d =>
    if t ∈ d.seen then pushNbrs R c ts stack d
    else pushNbrs R c ts (t :: stack) ⟨t :: d.seen, btAdd d.buckets (R.rank c t) t, d.adj⟩

/-- Embeds the discovery `while let Some(s) = stack.pop()` loop of
`propagate` (the `debug_assert!` is compiled out in release builds and has no
effect on the result).  `fuel` bounds the number of pops; `none` models
non-termination within the given fuel. -/
def pushDiscLoop {S V C : Type} [DecidableEq S] (R : PushDPRules S V C) (c : C) :
    Nat → List S → PushDisc S → Option (PushDisc S)
  | _, [], d => some d
  | 0, _ :: _, _ => none
  | fuel + 1, s :: stack, d =>
    let ns := R.succs c s
    let p := pushNbrs R c ns stack ⟨d.seen, d.buckets, assocInsert d.adj s ns⟩
    pushDiscLoop R c fuel p.1 p.2

/-- Embeds the first `for (_r, states) in buckets.iter()` pass of `propagate`
over one bucket: seed `val` with `init` values. -/
def initBucket {S V C : Type} [DecidableEq S] (R : PushDPRules S V C) (c : C) :
    List S → List (S × V) → List (S × V)
  | [], val => val
  | s :: ss, val =>
    match R.init c s with
    | some v0 => initBucket R c ss (assocInsert val s v0)
    | none => initBucket R c ss val

/-- The full init pass, ascending over the sorted buckets. -/
def initPass {S V C : Type} [DecidableEq S] (R : PushDPRules S V C) (c : C) :
    List (Nat × List S) → List (S × V) → List (S × V)
  | [], val => val
  | (_, ss) :: bs, val => initPass R c bs (initBucket R c ss val)

/-- Embeds the inner `for t in succs` loop of the propagation pass: fold the
contribution `trans(s, t, vs)` into `t`'s accumulator
(`val.entry(t).or_insert(identity)` then `op`). -/
def pushEdges {S V C : Type} [DecidableEq S] (R : PushDPRules S V C) (c : C)
    (s : S) (vs : V) : List S → List (S × V) → List (S × V)
  | [], val => val
  | t :: ts, val =>
    let inc := R.trans c s t vs
    let entry := (assocGet val t).getD (R.identity c)
    pushEdges R c s vs ts (assocInsert val t (R.op c entry inc))

/-- One bucket of the propagation pass: for each state `s`, read
`val.get(s).cloned().unwrap_or_else(identity)` and distribute along
`adj.get(s)` if present. -/
def propBucket {S V C : Type} [DecidableEq S] (R : PushDPRules S V C) (c : C)
    (adj : List (S × List S)) : List S → List (S × V) → List (S × V)
  | [], val => val
  | s :: ss, val =>
    let vs := (assocGet val s).getD (R.identity c)
    match assocGet adj s with
    | some ns => propBucket R c adj ss (pushEdges R c s vs ns val)
    | none => propBucket R c adj ss val

/-- The full propagation pass, ascending over the sorted buckets. -/
def propPass {S V C : Type} [DecidableEq S] (R : PushDPRules S V C) (c : C)
    (adj : List (S × List S)) : List (Nat × List S) → List (S × V) → List (S × V)
  | [], val => val
  | (_, ss) :: bs, val => propPass R c adj bs (propBucket R c adj ss val)

/-- Embeds `PushDpEngine::propagate`: discovery (stack DFS with seen-set and
rank buckets), init pass, then the rank-ascending distribution pass. -/
def PushDpEngine.propagate {S V C : Type} [DecidableEq S] (R : PushDPRules S V C)
    (c : C) (sources : List S) (fuel : Nat) : Option (List (S × V)) :=
  match pushDiscLoop R c fuel sources.reverse (pushSeed R c sources ⟨[], [], []⟩) with
  | none => none
  | some d => some (propPass R c d.adj d.buckets (initPass R c d.buckets []))

/-- Embeds `PushDpEngineEnhanced::propagate` (src/dp/push_dp.rs lines
214-270).  Its body in the source is textually identical to
`PushDpEngine::propagate`, so the embedding repeats the same phases. -/
def PushDpEngineEnhanced.propagate {S V C : Type} [DecidableEq S] (R : PushDPRules S V C)
    (c : C) (sources : List S) (fuel : Nat) : Option (List (S × V)) :=
  match pushDiscLoop R c fuel sources.reverse (pushSeed R c sources ⟨[], [], []⟩) with
  | none => none
  | some d => some (propPass R c d.adj d.buckets (initPass R c d.buckets []))

/-- The contributions pushed into accumulator `x` while distributing from `s`
with value `vs` along successor list `ts`: one `trans(s, x, vs)` per
occurrence of `x` in `ts` (specification-side helper for the push engine). -/
def incsOf {S V C : Type} [DecidableEq S] (R : PushDPRules S V C) (c : C)
    (s : S) (vs : V) (ts : List S) (x : S) : List V :=
  ts.filterMap (fun t => if t = x then some (R.trans c s t vs) else none)

/-- Folding a list of contributions into an optional accumulator entry: no
contribution leaves the entry untouched; otherwise the entry starts at
`identity` if absent and the contributions are folded in order
(specification-side helper for the push engine). -/
def foldInto {V : Type} (idv : V) (op2 : V → V → V) (incs : List V) (cur : Option V) :
    Option V :=
  match incs with
  | [] => cur
  | _ :: _ => some (incs.foldl op2 (cur.getD idv))

/-! ## Digit DP (src/dp/digit_dp.rs) -/

/-- The fixed modulus `MOD: usize = 1_000_000_007`. -/
def MOD : Nat := 1000000007

/-- Embeds the `DigitDPRules` trait. -/
structure DigitDPRules (σ : Type) where
  init : σ
  transition : Nat → Bool → σ → Nat → List (Nat × σ)
  isAccept : σ → Bool

/-- The memo table `HashMap<(usize, bool, P::State), usize>` of `dfs`. -/
abbrev DigitMemo (σ : Type) : Type := List ((Nat × Bool × σ) × Nat)

/-- The `for (d, next_state) in problem.transition(..)` loop of `dfs`,
accumulating `res = (res + dfs(i + 1, tight && d == lim, next_state)) % MOD`;
the recursive call into `dfs` at position `i + 1` is supplied as `step`. -/
def digitDfsList {σ : Type}
    (step : Bool → σ → DigitMemo σ → Option (Nat × DigitMemo σ))
    (tight : Bool) (lim : Nat) :
    List (Nat × σ) → Nat → DigitMemo σ → Option (Nat × DigitMemo σ)
  | [], res, memo => some (res, memo)
  | (dg, ns) :: rest, res, memo =>
    match step (tight && dg == lim) ns memo with
    | none => none
    | some (sub, memo2) => digitDfsList step tight lim rest ((res + sub) % MOD) memo2

/-- Embeds the recursive `dfs` of `DigitDP::solve`.  Rust recursion depth is
bounded by `n - i`; `fuel` makes that explicit (`solve` passes `n + 1`, which
never exhausts), `none` marking exhaustion. -/
def digitDfs {σ : Type} [DecidableEq σ] (P : DigitDPRules σ) (digits : List Nat) :
    Nat → Nat → Bool → σ → DigitMemo σ → Option (Nat × DigitMemo σ)
  | 0, _, _, _, _ => none
  | fuel + 1, i, tight, state, memo =>
    if i = digits.length then
      some (if P.isAccept state then 1 else 0, memo)
    else
      match assocGet memo (i, tight, state) with
      | some res => some (res, memo)
      | none =>
        let lim := if tight then digits.getD i 0 else 9
        match digitDfsList (fun t2 s2 m2 => digitDfs P digits fuel (i + 1) t2 s2 m2)
            tight lim (P.transition i tight state lim) 0 memo with
        | none => none
        | some (res, memo2) => some (res, assocInsert memo2 (i, tight, state) res)

/-- Embeds `c.to_digit(10)`. -/
def charToDigit (ch : Char) : Option Nat :=
  if '0' ≤ ch ∧ ch ≤ '9' then some (ch.toNat - '0'.toNat) else none

/-- Embeds `upper.chars().map(|c| c.to_digit(10).unwrap()).collect()`; a
non-digit character panics (`none`). -/
def parseDigits : List Char → Option (List Nat)
  | [] => some []
  | ch :: rest =>
    match charToDigit ch with
    | none => none
    | some dg => (parseDigits rest).map (fun ds => dg :: ds)

/-- Embeds `DigitDP::solve`: parse the numeral, then run the memoized dfs from
`(0, true, problem.init())`. -/
def DigitDP.solve {σ : Type} [DecidableEq σ] (upper : String) (P : DigitDPRules σ) :
    Option Nat :=
  match parseDigits upper.toList with
  | none => none
  | some digits =>
    match digitDfs P digits (digits.length + 1) 0 true P.init [] with
    | none => none
    | some (res, _) => some res

/-- The numeric value of a digit string (most significant first). -/
def digitsVal (ds : List Nat) : Nat :=
  ds.foldl (fun a dg => 10 * a + dg) 0

/-- The value of the digit suffix starting at position `i`. -/
def sufVal (ds : List Nat) (i : Nat) : Nat :=
  digitsVal (ds.drop i)

/-- Specification of the all-accepting digit dfs: with `tight` it counts the
numerals up to the remaining suffix, without it all digit strings of the
remaining length, both modulo `MOD`. -/
def countTF (ds : List Nat) (i : Nat) (tight : Bool) : Nat :=
  if tight then (sufVal ds i + 1) % MOD else (10 ^ (ds.length - i)) % MOD

/-- Memo-table coherence: every stored entry equals the specification count
(which does not depend on the stored state). -/
def GoodMemo {σ : Type} [DecidableEq σ] (ds : List Nat)
    (memo : List ((Nat × Bool × σ) × Nat)) : Prop :=
  ∀ i tight s r, assocGet memo (i, tight, s) = some r → r = countTF ds i tight

/-- The all-accepting rules of the claim, with the trivial state. -/
def allRules : DigitDPRules Unit where
  init := ()
  transition := fun _ _ s lim => (List.range (lim + 1)).map (fun dg => (dg, s))
  isAccept := fun _ => true

/-- States discovered by the push engine: the sources and everything reachable
from them through `succs`. -/
inductive PushReach {S V C : Type} (R : PushDPRules S V C) (c : C) (sources : List S) : S → Prop
  | source : ∀ {s : S}, s ∈ sources → PushReach R c sources s
  | step : ∀ {s t : S}, PushReach R c sources s → t ∈ R.succs c s → PushReach R c sources t

/-- Lookup of the bucket stored for rank `r` (empty if the key is absent). -/
def btGet {S : Type} : List (Nat × List S) → Nat → List S
  | [], _ => []
  | (k, vs) :: rest, r => if k = r then vs else btGet rest r

/-- Structural invariant of the push-engine discovery data: the seen-list has
no duplicates, each rank bucket holds (a permutation of) the seen states of
that rank, bucket keys are strictly ascending, and no bucket is empty. -/
def DiscCore {S V C : Type} (R : PushDPRules S V C) (c : C) (d : PushDisc S) : Prop :=
  d.seen.Nodup ∧
  (∀ r, List.Perm (btGet d.buckets r) (d.seen.filter (fun s => decide (R.rank c s = r)))) ∧
  (d.buckets.map Prod.fst).Sorted (· < ·) ∧
  (∀ p ∈ d.buckets, p.2 ≠ [])

/-- Full invariant of the push-engine discovery loop, relating the pending
stack to the discovery state. -/
def PushInv {S V C : Type} [DecidableEq S] (R : PushDPRules S V C) (c : C)
    (sources : List S) (stack : List S) (d : PushDisc S) : Prop :=
  (∀ s ∈ d.seen, PushReach R c sources s) ∧
  (∀ s ∈ stack, s ∈ d.seen) ∧
  (∀ s ∈ sources, s ∈ d.seen) ∧
  (∀ s, s ∈ d.seen → s ∉ stack →
    assocGet d.adj s = some (R.succs c s) ∧ ∀ t ∈ R.succs c s, t ∈ d.seen) ∧
  DiscCore R c d

/-! ## Pull-style DAG DP (src/dp/pull_dp.rs)

Same stack/hash-map modelling conventions as the push engine.  The rank
buckets here are a `Vec<Vec<S>>` grown by `resize`, modelled as a
`List (List S)`.  Discovery is instrumented with a `log` recording each state
on which `D::neighbors` is invoked (one invocation per pop of the `while`
loop), used to state the calls-once-per-state property. -/

/-- Embeds the `PullDPRules` trait; `combine` receives the `(state, value)`
pairs of the children in the order `neighbors` returned them. -/
structure PullDPRules (S V C : Type) where
  rank : C → S → Nat
  neighbors : C → S → List S
  combine : C → S → List (S × V) → V
  base : C → S → Option V

/-- Embeds `Plan`: rank-ascending buckets and the child adjacency map. -/
structure Plan (S : Type) where
  buckets : List (List S)
  adj : List (S × List S)

/-- Embeds the `push_bucket` closure of `prepare`: resize the bucket vector to
`r + 1` if needed, then push `s` onto bucket `r`. -/
def pushBucket {S : Type} (r : Nat) (s : S) (b : List (List S)) : List (List S) :=
  let b2 := if b.length ≤ r then b ++ List.replicate (r + 1 - b.length) [] else b
  b2.set r (b2.getD r [] ++ [s])

/-- Discovery state of `prepare`, instrumented with the invocation log. -/
structure PullDisc (S : Type) where
  seen : List S
  buckets : List (List S)
  adj : List (S × List S)
  log : List S

/-- Embeds the initial `for s in &stack { if seen.insert(s) { push_bucket } }`
loop of `prepare`, iterating the collected roots in `Vec` order. -/
def pullSeed {S V C : Type} [DecidableEq S] (R : PullDPRules S V C) (c : C) :
    List S → PullDisc S → PullDisc S
  | [], d => d
  | s :: ss, d =>
    if s ∈ d.seen then pullSeed R c ss d
    else pullSeed R c ss ⟨s :: d.seen, pushBucket (R.rank c s) s d.buckets, d.adj, d.log⟩

/-- Embeds the inner `for t in ns` loop of the discovery `while`. -/
def pullNbrs {S V C : Type} [DecidableEq S] (R : PullDPRules S V C) (c : C) :
    List S → List S → PullDisc S → List S × PullDisc S
  | [], stack, d => (stack, d)
  | t :: ts, stack, d =>
    if t ∈ d.seen then pullNbrs R c ts stack d
    else pullNbrs R c ts (t :: stack)
      ⟨t :: d.seen, pushBucket (R.rank c t) t d.buckets, d.adj, d.log⟩

/-- Embeds the discovery `while let Some(s) = stack.pop()` loop of `prepare`;
each pop invokes `D::neighbors` once (recorded in the log). -/
def pullLoop {S V C : Type} [DecidableEq S] (R : PullDPRules S V C) (c : C) :
    Nat → List S → PullDisc S → Option (PullDisc S)
  | _, [], d => some d
  | 0, _ :: _, _ => none
  | fuel + 1, s :: stack, d =>
    let ns := R.neighbors c s
    let p := pullNbrs R c ns stack ⟨d.seen, d.buckets, assocInsert d.adj s ns, d.log ++ [s]⟩
    pullLoop R c fuel p.1 p.2

/-- Embeds `PullDpEngine::prepare`, keeping the full discovery state. -/
def PullDpEngine.prepareAux {S V C : Type} [DecidableEq S] (R : PullDPRules S V C)
    (c : C) (roots : List S) (fuel : Nat) : Option (PullDisc S) :=
  pullLoop R c fuel roots.reverse (pullSeed R c roots ⟨[], [], [], []⟩)

/-- Embeds `PullDpEngine::prepare`: the returned `Plan`. -/
def PullDpEngine.prepare {S V C : Type} [DecidableEq S] (R : PullDPRules S V C)
    (c : C) (roots : List S) (fuel : Nat) : Option (Plan S) :=
  (PullDpEngine.prepareAux R c roots fuel).map (fun d => ⟨d.buckets, d.adj⟩)

/-- Embeds the child iterator of `solve_with_plan`:
`childs.iter().map(|c| ChildRef { state: c, value: val.get(c).expect(...) })`.
A missing child value — the panic branch `child DP value must exist before
parent` — is `none`. -/
def childVals {S V : Type} [DecidableEq S] (val : List (S × V)) :
    List S → Option (List (S × V))
  | [] => some []
  | ch :: cs =>
    match assocGet val ch with
    | none => none
    | some v => (childVals val cs).map (fun rest => (ch, v) :: rest)

/-- Embeds the inner `for s in states` loop of `solve_with_plan` over one
bucket: `base` short-circuit, otherwise look up the children and `combine`. -/
def solveStates {S V C : Type} [DecidableEq S] (R : PullDPRules S V C) (c : C)
    (adj : List (S × List S)) : List S → List (S × V) → Option (List (S × V))
  | [], val => some val
  | s :: ss, val =>
    match R.base c s with
    | some b => solveStates R c adj ss (assocInsert val s b)
    | none =>
      let childs := (assocGet adj s).getD []
      match childVals val childs with
      | none => none
      | some pairs => solveStates R c adj ss (assocInsert val s (R.combine c s pairs))

/-- The outer `for states in plan.buckets.iter()` loop of `solve_with_plan`. -/
def solveBuckets {S V C : Type} [DecidableEq S] (R : PullDPRules S V C) (c : C)
    (adj : List (S × List S)) : List (List S) → List (S × V) → Option (List (S × V))
  | [], val => some val
  | ss :: bs, val =>
    match solveStates R c adj ss val with
    | none => none
    | some val2 => solveBuckets R c adj bs val2

/-- Embeds `PullDpEngine::solve_with_plan`. -/
def PullDpEngine.solveWithPlan {S V C : Type} [DecidableEq S] (R : PullDPRules S V C)
    (c : C) (plan : Plan S) : Option (List (S × V)) :=
  solveBuckets R c plan.adj plan.buckets []

/-- States discovered by the pull engine: the roots and everything reachable
through `neighbors`. -/
inductive PullReach {S V C : Type} (R : PullDPRules S V C) (c : C) (roots : List S) : S → Prop
  | root : ∀ {s : S}, s ∈ roots → PullReach R c roots s
  | step : ∀ {s t : S}, PullReach R c roots s → t ∈ R.neighbors c s → PullReach R c roots t

/-- Structural invariant of the pull-engine discovery buckets. -/
def PullCore {S V C : Type} (R : PullDPRules S V C) (c : C) (d : PullDisc S) : Prop :=
  d.seen.Nodup ∧
  (∀ s ∈ d.seen, s ∈ d.buckets.getD (R.rank c s) []) ∧
  (∀ r, ∀ s ∈ d.buckets.getD r [], s ∈ d.seen ∧ R.rank c s = r)

/-- Full invariant of the pull-engine discovery loop. -/
def PullInv {S V C : Type} [DecidableEq S] (R : PullDPRules S V C) (c : C)
    (roots : List S) (stack : List S) (d : PullDisc S) : Prop :=
  (∀ s ∈ d.seen, PullReach R c roots s) ∧
  (∀ s ∈ stack, s ∈ d.seen) ∧
  (∀ s ∈ roots, s ∈ d.seen) ∧
  (∀ s, s ∈ d.seen → s ∉ stack →
    assocGet d.adj s = some (R.neighbors c s) ∧ ∀ t ∈ R.neighbors c s, t ∈ d.seen) ∧
  PullCore R c d

/-- Log invariant of the pull-engine discovery loop: every discovered state is
either pending on the stack or has had `neighbors` invoked exactly once. -/
def PullLogInv {S : Type} (stack : List S) (d : PullDisc S) : Prop :=
  (stack ++ d.log).Nodup ∧
  (∀ s, s ∈ d.seen ↔ (s ∈ stack ∨ s ∈ d.log)) ∧
  (∀ s ∈ stack, s ∈ d.seen) ∧ (∀ s ∈ d.log, s ∈ d.seen)

/-- A concrete `PullDPRules` instance: a chain `s → s-1 → ... → 0` with base
value at `0`; `combine` adds one to the child value. -/
def chainRules : PullDPRules Nat Nat Unit where
  rank := fun _ s => s
  neighbors := fun _ s => if s = 0 then [] else [s - 1]
  combine := fun _ _ pairs => (pairs.map Prod.snd).foldl (· + ·) 0 + 1
  base := fun _ s => if s = 0 then some 0 else none

/-- A concrete `PushDPRules` instance: one source, no successors, no `init`
value.  Used to exhibit a discovered state that receives no entry in the
result mapping. -/
def noInitRules : PushDPRules Nat Nat Unit where
  rank := fun _ _ => 0
  succs := fun _ _ => []
  identity := fun _ => 0
  op := fun _ a b => a + b
  init := fun _ _ => none
  trans := fun _ _ _ v => v

/-- A concrete `PushDPRules` instance with a single edge `0 → 1` and a seeded
source, used as a witness for entry coverage. -/
def edgeRules : PushDPRules Nat Nat Unit where
  rank := fun _ s => s
  succs := fun _ s => if s = 0 then [1] else []
  identity := fun _ => 0
  op := fun _ a b => a + b
  init := fun _ s => if s = 0 then some 5 else none
  trans := fun _ _ _ v => v + 1

/-- A concrete `PushDPRules` instance on the diamond-free DAG
`0 → 1, 0 → 2, 1 → 2` with counting semantics (`op = +`, `trans = id`,
`init 0 = 1`): path counts.  Successor lists in ascending order. -/
def permRulesA : PushDPRules Nat Nat Unit where
  rank := fun _ s => s
  succs := fun _ s => match s with | 0 => [1, 2] | 1 => [2] | _ => []
  identity := fun _ => 0
  op := fun _ a b => a + b
  init := fun _ s => match s with | 0 => some 1 | _ => none
  trans := fun _ _ _ v => v

/-- The same rules as `permRulesA` except that the successor list of `0` is
returned in the opposite order. -/
def permRulesB : PushDPRules Nat Nat Unit where
  rank := fun _ s => s
  succs := fun _ s => match s with | 0 => [2, 1] | 1 => [2] | _ => []
  identity := fun _ => 0
  op := fun _ a b => a + b
  init := fun _ s => match s with | 0 => some 1 | _ => none
  trans := fun _ _ _ v => v

/-! ## All-direction tree DP (src/all_direction_tree_dp.rs)

`Vec<Vec<usize>>` becomes `List (List Nat)`; `graph[u].push(v)` panics when
`u` is out of range, modelled by `none` through a bounds check.  The
recursive `dfs1`/`dfs2` walk the tree (no structural termination for an
arbitrary graph), so both take `fuel`; a fuel of `n` suffices on a tree.
The `usize::MAX` parent sentinel of `solve` is modelled by `n`: both are
distinct from every node index, which is all the code compares them
against. -/

/-- Embeds `graph[u].push(v)` (panics out of range → `none`). -/
def vecPush (g : List (List Nat)) (u v : Nat) : Option (List (List Nat)) :=
  if u < g.length then some (g.set u (g.getD u [] ++ [v])) else none

/-- Embeds the edge loop of `AllDirectionTreeDP::new`: for each `(u, v)`,
push `v` onto `graph[u]` and `u` onto `graph[v]`. -/
def buildGraph : List (Nat × Nat) → List (List Nat) → Option (List (List Nat))
  | [], g => some g
  | (u, v) :: rest, g =>
    match vecPush g u v with
    | none => none
    | some g1 =>
      match vecPush g1 v u with
      | none => none
      | some g2 => buildGraph rest g2

/-- Embeds the `AllDirectionTreeDP` struct. -/
structure AllDirectionTreeDP (T : Type) where
  n : Nat
  graph : List (List Nat)
  identity : T
  merge : T → T → T
  add_root : T → T

/-- Embeds `AllDirectionTreeDP::new`. -/
def AllDirectionTreeDP.new {T : Type} (n : Nat) (edges : List (Nat × Nat))
    (identity : T) (merge : T → T → T) (add_root : T → T) :
    Option (AllDirectionTreeDP T) :=
  match buildGraph edges (List.replicate n []) with
  | none => none
  | some g => some ⟨n, g, identity, merge, add_root⟩

/-- Embeds the child loop of `dfs1`: fold `merge` over the recursive results
for every neighbour other than the parent, threading `down` through the
recursion (`step` is the recursive `dfs1` call at one unit less fuel). -/
def dfs1List {T : Type} (step : Nat → List T → Option (T × List T))
    (merge : T → T → T) (p : Nat) : List Nat → T → List T → Option (T × List T)
  | [], acc, down => some (acc, down)
  | t2 :: rest, acc, down =>
    if t2 = p then dfs1List step merge p rest acc down
    else
      match step t2 down with
      | none => none
      | some (child, down1) => dfs1List step merge p rest (merge acc child) down1

/-- Embeds `dfs1`: merge the children, apply `add_root`, store into `down[v]`
and return the value. -/
def AllDirectionTreeDP.dfs1 {T : Type} (self : AllDirectionTreeDP T) :
    Nat → Nat → Nat → List T → Option (T × List T)
  | 0, _, _, _ => none
  | fuel + 1, v, p, down =>
    match self.graph[v]? with
    | none => none
    | some adj =>
      match dfs1List (fun t2 down1 => AllDirectionTreeDP.dfs1 self fuel t2 v down1)
          self.merge p adj self.identity down with
      | none => none
      | some (acc, down1) => some (self.add_root acc, down1.set v (self.add_root acc))

/-- Embeds the value reads of `dfs2`'s prefix/suffix passes: the neighbour
value is `from_parent` for the parent and `down[to]` otherwise. -/
def treeVals {T : Type} (down : List T) (p : Nat) (fp : T) :
    List Nat → Option (List T)
  | [] => some []
  | t2 :: rest =>
    match (if t2 = p then some fp else down[t2]?) with
    | none => none
    | some val =>
      match treeVals down p fp rest with
      | none => none
      | some vs => some (val :: vs)

/-- Embeds the recursion loop of `dfs2` over neighbour index `i`: `pre` is
`prefix[i]` (the left-assoc merge of the first `i` values), the suffix
`suffix[i+1]` is the right-assoc merge of the remaining values, and `step`
is the recursive `dfs2` call at one unit less fuel. -/
def dfs2Go {T : Type} (step : Nat → T → List T → Option (List T))
    (merge : T → T → T) (add_root : T → T) (identity : T) (p : Nat) :
    List Nat → List T → T → List T → Option (List T)
  | [], [], _, ans => some ans
  | t2 :: adjRest, val :: valRest, pre, ans =>
    if t2 = p then dfs2Go step merge add_root identity p adjRest valRest (merge pre val) ans
    else
      match step t2 (add_root (merge pre (valRest.foldr merge identity))) ans with
      | none => none
      | some ans1 =>
        dfs2Go step merge add_root identity p adjRest valRest (merge pre val) ans1
  | _, _, _, _ => none

/-- Embeds `dfs2`: write `add_root(prefix[deg])` into `ans[v]`, then recurse
into every non-parent neighbour with its complementary value. -/
def AllDirectionTreeDP.dfs2 {T : Type} (self : AllDirectionTreeDP T) :
    Nat → Nat → Nat → T → List T → List T → Option (List T)
  | 0, _, _, _, _, _ => none
  | fuel + 1, v, p, fp, down, ans =>
    match self.graph[v]? with
    | none => none
    | some adj =>
      match treeVals down p fp adj with
      | none => none
      | some vals =>
        dfs2Go (fun t2 next ansx => AllDirectionTreeDP.dfs2 self fuel t2 v next down ansx)
          self.merge self.add_root self.identity p adj vals self.identity
          (ans.set v (self.add_root (vals.foldl self.merge self.identity)))

/-- Embeds `AllDirectionTreeDP::solve` (parent sentinel `usize::MAX`
modelled as `n`). -/
def AllDirectionTreeDP.solve {T : Type} (self : AllDirectionTreeDP T)
    (fuel : Nat) : Option (List T) :=
  match self.dfs1 fuel 0 self.n (List.replicate self.n self.identity) with
  | none => none
  | some (_, down) =>
    match self.dfs2 fuel 0 self.n self.identity down (List.replicate self.n self.identity) with
    | none => none
    | some ans => some ans

/-- Iterated parent function (specification-side). -/
def parIter (par : Nat → Nat) : Nat → Nat → Nat
  | 0, u => u
  | k + 1, u => parIter par k (par u)

/-- `Desc par depth v u`: `v` is the ancestor of `u` at depth `depth v`
(ancestor-or-self, specification-side). -/
def Desc (par depth : Nat → Nat) (v u : Nat) : Prop :=
  depth v ≤ depth u ∧ parIter par (depth u - depth v) u = v

instance {par depth : Nat → Nat} {v u : Nat} : Decidable (Desc par depth v u) :=
  inferInstanceAs (Decidable (_ ∧ _))

/-- Subtree size of `v` in the rooted tree described by `par`/`depth`
(specification-side). -/
def subtreeSize (n : Nat) (par depth : Nat → Nat) (v : Nat) : Nat :=
  ((Finset.range n).filter (fun u => Desc par depth v u)).card

/-- The neighbour entries contributed to `graph[v]` by the edge loop of
`AllDirectionTreeDP::new`, in insertion order (specification-side). -/
def adjContrib (v : Nat) (edges : List (Nat × Nat)) : List Nat :=
  edges.flatMap (fun e => (if e.1 = v then [e.2] else []) ++ (if e.2 = v then [e.1] else []))

/-- The children of `v` in the rooted tree (specification-side). -/
def childrenL (n : Nat) (par : Nat → Nat) (v : Nat) : List Nat :=
  (List.range n).filter (fun w => decide (0 < w ∧ par w = v))

/-- The claim's concrete instance: subtree-size rules (`identity = 0`,
`merge = +`, `add_root = (· + 1)`) over a prebuilt adjacency list. -/
def sizeTreeDP (n : Nat) (g : List (List Nat)) : AllDirectionTreeDP Nat :=
  ⟨n, g, 0, fun a b => a + b, fun a => a + 1⟩

/-! ## Union-Find (src/union_find.rs)

`Vec<usize>` becomes `List Nat`; `self.parent[x]` out-of-bounds indexing
panics in Rust and is modelled by `none` through `getElem?`.  `find` mutates
`self` (path compression), so it threads the structure and is bounded by
`fuel` (the Rust recursion does not structurally terminate for an arbitrary
parent array; from `new`/`unite` states a fuel of `n` always suffices, which
the invariant proof establishes). -/

/-- Embeds `struct UnionFind { parent: Vec<usize>, size: Vec<usize> }`. -/
structure UnionFind where
  parent : List Nat
  size : List Nat

/-- Embeds `UnionFind::new(n)`: `parent = (0..n).collect()`, `size = vec![1; n]`. -/
def UnionFind.new (n : Nat) : UnionFind :=
  ⟨List.range n, List.replicate n 1⟩

/-- Embeds `UnionFind::find(x)` with path compression: the recursive call
runs on the current structure, then `parent[x]` is set to the returned root. -/
def UnionFind.find : Nat → UnionFind → Nat → Option (UnionFind × Nat)
  | 0, _, _ => none
  | fuel + 1, uf, x =>
    match uf.parent[x]? with
    | none => none
    | some p =>
      if p = x then some (uf, x)
      else
        match UnionFind.find fuel uf p with
        | none => none
        | some (uf1, r) => some (⟨uf1.parent.set x r, uf1.size⟩, r)

/-- Embeds `UnionFind::unite(x, y)`: two finds, then union by size (the
smaller root is attached below the larger, sizes are added). -/
def UnionFind.unite (fuel : Nat) (uf : UnionFind) (x y : Nat) : Option UnionFind :=
  match UnionFind.find fuel uf x with
  | none => none
  | some (uf1, x_root) =>
    match UnionFind.find fuel uf1 y with
    | none => none
    | some (uf2, y_root) =>
      if x_root = y_root then some uf2
      else
        match uf2.size[x_root]?, uf2.size[y_root]? with
        | some sx, some sy =>
          if sx < sy then
            some ⟨uf2.parent.set x_root y_root, uf2.size.set y_root (sy + sx)⟩
          else
            some ⟨uf2.parent.set y_root x_root, uf2.size.set x_root (sx + sy)⟩
        | _, _ => none

/-- Embeds `UnionFind::same(x, y) = (self.find(x) == self.find(y))`. -/
def UnionFind.same (fuel : Nat) (uf : UnionFind) (x y : Nat) : Option (UnionFind × Bool) :=
  match UnionFind.find fuel uf x with
  | none => none
  | some (uf1, xr) =>
    match UnionFind.find fuel uf1 y with
    | none => none
    | some (uf2, yr) => some (uf2, xr == yr)

/-- Embeds `UnionFind::size(x) = self.size[self.find(x)]` (named `sizeQuery`
because the structure field is already called `size`). -/
def UnionFind.sizeQuery (fuel : Nat) (uf : UnionFind) (x : Nat) : Option (UnionFind × Nat) :=
  match UnionFind.find fuel uf x with
  | none => none
  | some (uf1, root) =>
    match uf1.size[root]? with
    | none => none
    | some s => some (uf1, s)

/-- Runs a sequence of `unite` calls left to right. -/
def runUnites (fuel : Nat) : List (Nat × Nat) → UnionFind → Option UnionFind
  | [], uf => some uf
  | (a, b) :: ops, uf =>
    match UnionFind.unite fuel uf a b with
    | none => none
    | some uf2 => runUnites fuel ops uf2

/-- Specification-side parent-chain relation: `ChainLen p x r k` says that
following `parent` pointers from `x` reaches the fixpoint (root) `r` in
exactly `k` steps, with every index read in bounds. -/
inductive ChainLen (p : List Nat) : Nat → Nat → Nat → Prop
  | root {x : Nat} : p[x]? = some x → ChainLen p x x 0
  | step {x q r k : Nat} : p[x]? = some q → q ≠ x → ChainLen p q r k →
      ChainLen p x r (k + 1)

/-- Specification-side invariant of a union-find state against an abstract
pair relation `E`: some root assignment `ρ` has in-bounds parent chains whose
lengths stay below the root's stored size, `ρ`-equality coincides with the
equivalence closure of `E` on `0..n`, and each root's stored size counts its
class. -/
def UFInv (n : Nat) (E : Nat → Nat → Prop) (uf : UnionFind) : Prop :=
  ∃ ρ : Nat → Nat,
    uf.parent.length = n ∧
    uf.size.length = n ∧
    (∀ i, i < n → ∃ k, ChainLen uf.parent i (ρ i) k ∧ k + 1 ≤ uf.size.getD (ρ i) 0) ∧
    (∀ i j, i < n → j < n → (ρ i = ρ j ↔ Relation.EqvGen E i j)) ∧
    (∀ i, i < n →
      uf.size.getD (ρ i) 0 = ((Finset.range n).filter (fun j => ρ j = ρ i)).card)

end RM

namespace RM

/-! ## Lemmas: cumulative sum -/

theorem foldl_add_shift (l : List Int) : ∀ x : Int, l.foldl (· + ·) x = x + l.foldl (· + ·) 0 := by
  induction l with
  | nil => intro x; simp
  | cons a l ih =>
    intro x
    simp only [List.foldl_cons]
    rw [ih (x + a), ih (0 + a)]
    ring

theorem partialSums_length (l : List Int) : ∀ x, (partialSums x l).length = l.length := by
  induction l with
  | nil => intro x; rfl
  | cons a l ih => intro x; simp [partialSums, ih]

theorem partialSums_getD (l : List Int) :
    ∀ x i, i < l.length →
      (partialSums x l).getD i 0 = x + (l.take (i + 1)).foldl (· + ·) 0 := by
  induction l with
  | nil => intro x i h; simp at h
  | cons a l ih =>
    intro x i h
    cases i with
    | zero => simp [partialSums]
    | succ i =>
      have hi : i < l.length := by simpa using h
      simp only [partialSums, List.getD_cons_succ, List.take_succ_cons, List.foldl_cons]
      rw [ih (x + a) i hi, foldl_add_shift (l.take (i + 1)) (0 + a)]
      ring

theorem cumData_eq (arr : List Int) :
    ∀ acc : List Int, acc ≠ [] →
      arr.foldl (fun data val => data ++ [data.getLastD 0 + val]) acc =
        acc ++ partialSums (acc.getLastD 0) arr := by
  induction arr with
  | nil => intro acc _; simp [partialSums]
  | cons a l ih =>
    intro acc hacc
    simp only [List.foldl_cons, partialSums]
    rw [ih (acc ++ [acc.getLastD 0 + a]) (by simp)]
    have hlast : (acc ++ [acc.getLastD 0 + a]).getLastD 0 = acc.getLastD 0 + a := by
      simp [List.getLastD_concat]
    rw [hlast, List.append_assoc]
    rfl

theorem cumulativeSum_data (arr : List Int) :
    (CumulativeSum.new arr).data = 0 :: partialSums 0 arr := by
  show arr.foldl (fun data val => data ++ [data.getLastD 0 + val]) [0] = 0 :: partialSums 0 arr
  rw [cumData_eq arr [0] (by simp)]
  rfl

theorem cumulativeSum_data_getD (arr : List Int) (j : Nat) (hj : j ≤ arr.length) :
    (CumulativeSum.new arr).data.getD j 0 = (arr.take j).foldl (· + ·) 0 := by
  rw [cumulativeSum_data]
  cases j with
  | zero => simp
  | succ j =>
    have hj2 : j < arr.length := by omega
    simp only [List.getD_cons_succ]
    rw [partialSums_getD arr 0 j hj2]
    simp

/-- C8: for every integer array `arr` and every `l ≤ r ≤ arr.len()`,
`CumulativeSum::new(arr).sum(l, r)` succeeds (no assertion failure) and equals
the fold of `+` over `arr[l], ..., arr[r-1]` starting from the default value 0. -/
theorem C8_cumulative_sum_correct (arr : List Int) (l r : Nat)
    (hlr : l ≤ r) (hr : r ≤ arr.length) :
    (CumulativeSum.new arr).sum l r =
      some (((arr.drop l).take (r - l)).foldl (· + ·) 0) := by
  have hlen : (CumulativeSum.new arr).data.length = arr.length + 1 := by
    rw [cumulativeSum_data]; simp [partialSums_length]
  unfold CumulativeSum.sum
  have hcond : l ≤ r ∧ r < (CumulativeSum.new arr).data.length := ⟨hlr, by omega⟩
  rw [if_pos hcond]
  congr 1
  rw [cumulativeSum_data_getD arr r hr, cumulativeSum_data_getD arr l (le_trans hlr hr)]
  have hsplit : arr.take r = arr.take l ++ (arr.drop l).take (r - l) := by
    have h1 : r = l + (r - l) := by omega
    rw [h1, List.take_add]
    simp
  rw [hsplit, List.foldl_append, foldl_add_shift]
  ring

/-- C8 witness: over `[1,2,3,4,5]`, `sum(1,3) = 5` and `sum(0,5) = 15`. -/
theorem C8_cumulative_sum_correct_witness :
    (CumulativeSum.new [1, 2, 3, 4, 5]).sum 1 3 = some 5 ∧
      (CumulativeSum.new [1, 2, 3, 4, 5]).sum 0 5 = some 15 := by
  constructor
  · have h := C8_cumulative_sum_correct [1, 2, 3, 4, 5] 1 3 (by decide) (by decide)
    rw [h]; decide
  · have h := C8_cumulative_sum_correct [1, 2, 3, 4, 5] 0 5 (by decide) (by decide)
    rw [h]; decide

/-! ## Lemmas: bit-vector enumeration -/

theorem from_usize_eq_mod (data n : Nat) :
    BitVecR.from_usize data n = ⟨data % 2 ^ n, n⟩ := by
  unfold BitVecR.from_usize
  congr 1
  rw [Nat.shiftLeft_eq, one_mul]
  exact Nat.and_pow_two_sub_one_eq_mod data n

theorem drain_spec (n : Nat) :
    ∀ fuel curr endv, endv - curr ≤ fuel → endv ≤ 2 ^ n →
      BitVecRange.drain fuel ⟨n, curr, endv⟩ =
        (List.range' curr (endv - curr)).map (fun i => ⟨i, n⟩) := by
  intro fuel
  induction fuel with
  | zero =>
    intro curr endv hf _
    have : endv - curr = 0 := by omega
    simp [BitVecRange.drain, this]
  | succ fuel ih =>
    intro curr endv hf hlt
    by_cases h : curr < endv
    · have hnext : (⟨n, curr, endv⟩ : BitVecRange).next =
          some (BitVecR.from_usize curr n, ⟨n, curr + 1, endv⟩) := by
        simp [BitVecRange.next, h]
      have hk : endv - curr = (endv - (curr + 1)) + 1 := by omega
      rw [BitVecRange.drain, hnext]
      show BitVecR.from_usize curr n :: BitVecRange.drain fuel ⟨n, curr + 1, endv⟩ = _
      rw [ih (curr + 1) endv (by omega) hlt, hk, List.range'_succ]
      have hmask : BitVecR.from_usize curr n = ⟨curr, n⟩ := by
        rw [from_usize_eq_mod]
        congr 1
        exact Nat.mod_eq_of_lt (by omega)
      rw [hmask]
      simp
    · have hnext : (⟨n, curr, endv⟩ : BitVecRange).next = none := by
        simp [BitVecRange.next, h]
      have : endv - curr = 0 := by omega
      rw [BitVecRange.drain, hnext, this]
      simp

theorem bitVecRange_toList (n : Nat) :
    (BitVecRange.new n).toList = (List.range (2 ^ n)).map (fun i => ⟨i, n⟩) := by
  show BitVecRange.drain (1 <<< n - 0) ⟨n, 0, 1 <<< n⟩ = _
  rw [Nat.sub_zero, drain_spec n (1 <<< n) 0 (1 <<< n) le_rfl
      (by rw [Nat.shiftLeft_eq, one_mul]), Nat.sub_zero, Nat.shiftLeft_eq, one_mul,
    List.range_eq_range']

/-- C9: for every `n` with `2^n` representable in `usize`, `BitVecRange::new(n)`
yields exactly `2^n` pairwise-distinct bit vectors whose numeric values
`to_usize()` are `0, 1, ..., 2^n - 1` in ascending order (their `to_usize`
sequence is `List.range (2^n)`), and each yielded `v` round-trips:
`BitVec::from_usize(v.to_usize(), n).to_usize() == v.to_usize()`. -/
theorem C9_bitvec_range_enumeration (n : Nat) (_hn : n ≤ 63) :
    ((BitVecRange.new n).toList.map BitVecR.to_usize = List.range (2 ^ n)) ∧
      (BitVecRange.new n).toList.Nodup ∧
      ∀ v ∈ (BitVecRange.new n).toList,
        (BitVecR.from_usize v.to_usize n).to_usize = v.to_usize := by
  have hL := bitVecRange_toList n
  have hmap : (BitVecRange.new n).toList.map BitVecR.to_usize = List.range (2 ^ n) := by
    rw [hL, List.map_map]
    have : (BitVecR.to_usize ∘ fun i => (⟨i, n⟩ : BitVecR)) = id := rfl
    rw [this, List.map_id]
  refine ⟨hmap, ?_, ?_⟩
  · have := List.nodup_range (2 ^ n)
    rw [← hmap] at this
    exact this.of_map _
  · intro v hv
    rw [hL] at hv
    rcases List.mem_map.mp hv with ⟨i, hi, hvi⟩
    rw [List.mem_range] at hi
    subst hvi
    rw [from_usize_eq_mod]
    show i % 2 ^ n = i
    exact Nat.mod_eq_of_lt hi

/-- C9 witness: at `n = 2` the enumeration is `00, 01, 10, 11`. -/
theorem C9_bitvec_range_enumeration_witness :
    ((BitVecRange.new 2).toList.map BitVecR.to_usize = List.range (2 ^ 2)) ∧
      (BitVecRange.new 2).toList.Nodup ∧
      ∀ v ∈ (BitVecRange.new 2).toList,
        (BitVecR.from_usize v.to_usize 2).to_usize = v.to_usize :=
  C9_bitvec_range_enumeration 2 (by decide)

/-! ## Lemmas: association lists and rank buckets -/

section AssocLemmas

variable {S A : Type} [DecidableEq S]

theorem assocGet_insert (m : List (S × A)) (k : S) (v : A) (x : S) :
    assocGet (assocInsert m k v) x = if k = x then some v else assocGet m x := by
  induction m with
  | nil => simp [assocInsert, assocGet]
  | cons p rest ih =>
    obtain ⟨pk, pv⟩ := p
    by_cases hpk : pk = k
    · subst hpk
      simp only [assocInsert, if_pos rfl, assocGet]
      by_cases hx : pk = x <;> simp [hx]
    · simp only [assocInsert, if_neg hpk, assocGet]
      by_cases hx : pk = x
      · subst hx
        have : ¬ k = pk := fun h => hpk h.symm
        simp [this]
      · simp [hx, ih]

theorem assocGet_insert_isSome (m : List (S × A)) (k : S) (v : A) (x : S)
    (h : (assocGet m x).isSome) : (assocGet (assocInsert m k v) x).isSome := by
  rw [assocGet_insert]
  by_cases hk : k = x <;> simp [hk, h]

end AssocLemmas

section BucketLemmas

variable {S : Type}

theorem btGet_not_mem (b : List (Nat × List S)) (r : Nat)
    (h : r ∉ b.map Prod.fst) : btGet b r = [] := by
  induction b with
  | nil => rfl
  | cons p rest ih =>
    obtain ⟨pk, pvs⟩ := p
    simp only [List.map_cons, List.mem_cons] at h
    push_neg at h
    have hne : pk ≠ r := fun he => h.1 he.symm
    simp only [btGet, if_neg hne]
    exact ih h.2

theorem btAdd_keys (b : List (Nat × List S)) (r : Nat) (s : S) :
    ∀ q ∈ btAdd b r s, q.1 = r ∨ q.1 ∈ b.map Prod.fst := by
  induction b with
  | nil =>
    intro q hq
    simp only [btAdd, List.mem_singleton] at hq
    subst hq; left; rfl
  | cons p rest ih =>
    obtain ⟨pk, pvs⟩ := p
    intro q hq
    by_cases h1 : r < pk
    · simp only [btAdd, if_pos h1] at hq
      rcases List.mem_cons.mp hq with hq | hq
      · subst hq; left; rfl
      · right; exact List.mem_map_of_mem Prod.fst hq
    · by_cases h2 : r = pk
      · simp only [btAdd, if_neg h1, if_pos h2] at hq
        rcases List.mem_cons.mp hq with hq | hq
        · subst hq; left; exact h2.symm
        · right; simp only [List.map_cons, List.mem_cons]
          right; exact List.mem_map_of_mem Prod.fst hq
      · simp only [btAdd, if_neg h1, if_neg h2] at hq
        rcases List.mem_cons.mp hq with hq | hq
        · subst hq; right; simp
        · rcases ih q hq with h | h
          · left; exact h
          · right; simp only [List.map_cons, List.mem_cons]; right; exact h

theorem btAdd_keys_sorted (b : List (Nat × List S)) (r : Nat) (s : S)
    (h : (b.map Prod.fst).Sorted (· < ·)) :
    ((btAdd b r s).map Prod.fst).Sorted (· < ·) := by
  induction b with
  | nil => simp [btAdd]
  | cons p rest ih =>
    obtain ⟨pk, pvs⟩ := p
    simp only [List.map_cons, List.sorted_cons] at h
    obtain ⟨hall, hrest⟩ := h
    by_cases h1 : r < pk
    · simp only [btAdd, if_pos h1, List.map_cons, List.sorted_cons]
      refine ⟨?_, hall, hrest⟩
      intro x hx
      rcases List.mem_cons.mp hx with hx | hx
      · omega
      · have := hall x hx; omega
    · by_cases h2 : r = pk
      · simp only [btAdd, if_neg h1, if_pos h2, List.map_cons, List.sorted_cons]
        exact ⟨hall, hrest⟩
      · simp only [btAdd, if_neg h1, if_neg h2, List.map_cons, List.sorted_cons]
        refine ⟨?_, ih hrest⟩
        intro x hx
        rcases List.mem_map.mp hx with ⟨q, hq, hqx⟩
        subst hqx
        rcases btAdd_keys rest r s q hq with h | h
        · omega
        · have := hall q.1 h; omega

theorem btGet_btAdd (b : List (Nat × List S)) (r : Nat) (s : S) (k : Nat)
    (hsorted : (b.map Prod.fst).Sorted (· < ·)) :
    btGet (btAdd b r s) k = if r = k then btGet b k ++ [s] else btGet b k := by
  induction b with
  | nil =>
    by_cases hk : r = k <;> simp [btAdd, btGet, hk]
  | cons p rest ih =>
    obtain ⟨pk, pvs⟩ := p
    simp only [List.map_cons, List.sorted_cons] at hsorted
    obtain ⟨hall, hrest⟩ := hsorted
    by_cases h1 : r < pk
    · have hpkr : pk ≠ r := by omega
      have hrrest : btGet rest r = [] := by
        apply btGet_not_mem
        intro hmem
        have := hall r hmem; omega
      by_cases hk : r = k
      · subst hk
        simp [btAdd, btGet, h1, hpkr, hrrest]
      · simp [btAdd, btGet, h1, hk]
    · by_cases h2 : r = pk
      · subst h2
        by_cases hk : r = k
        · subst hk
          simp [btAdd, btGet, h1]
        · simp [btAdd, btGet, h1, hk]
      · by_cases hk : pk = k
        · subst hk
          simp [btAdd, btGet, h1, h2]
        · by_cases hk2 : r = k
          · subst hk2
            simp only [btAdd, if_neg h1, if_neg h2, btGet, if_neg hk, if_pos rfl]
            rw [ih hrest]
            simp
          · simp only [btAdd, if_neg h1, if_neg h2, btGet, if_neg hk]
            rw [ih hrest, if_neg hk2]

theorem btAdd_nonempty (b : List (Nat × List S)) (r : Nat) (s : S)
    (h : ∀ p ∈ b, p.2 ≠ []) : ∀ p ∈ btAdd b r s, p.2 ≠ [] := by
  induction b with
  | nil =>
    intro p hp
    simp only [btAdd, List.mem_singleton] at hp
    subst hp; simp
  | cons q rest ih =>
    obtain ⟨qk, qvs⟩ := q
    intro p hp
    simp only [btAdd] at hp
    split at hp
    · rcases List.mem_cons.mp hp with hp | hp
      · subst hp; simp
      · exact h p hp
    · split at hp
      · rcases List.mem_cons.mp hp with hp | hp
        · subst hp
          have := h (qk, qvs) (by simp)
          simp only [ne_eq] at this ⊢
          intro hcon
          exact this (List.append_eq_nil.mp hcon).1
        · exact h p (List.mem_cons_of_mem _ hp)
      · rcases List.mem_cons.mp hp with hp | hp
        · subst hp; exact h (qk, qvs) (by simp)
        · exact ih (fun q hq => h q (List.mem_cons_of_mem _ hq)) p hp

theorem btGet_mem_pair {b : List (Nat × List S)} {r : Nat} {s : S}
    (h : s ∈ btGet b r) : ∃ vs, (r, vs) ∈ b ∧ s ∈ vs := by
  induction b with
  | nil => simp [btGet] at h
  | cons p rest ih =>
    obtain ⟨pk, pvs⟩ := p
    by_cases hk : pk = r
    · subst hk
      simp only [btGet, if_pos rfl] at h
      exact ⟨pvs, by simp, h⟩
    · simp only [btGet, if_neg hk] at h
      rcases ih h with ⟨vs, hvs, hs⟩
      exact ⟨vs, List.mem_cons_of_mem _ hvs, hs⟩

theorem btGet_of_mem_pair {b : List (Nat × List S)} {r : Nat} {vs : List S}
    (hsorted : (b.map Prod.fst).Sorted (· < ·)) (h : (r, vs) ∈ b) :
    btGet b r = vs := by
  induction b with
  | nil => simp at h
  | cons p rest ih =>
    obtain ⟨pk, pvs⟩ := p
    simp only [List.map_cons, List.sorted_cons] at hsorted
    obtain ⟨hall, hrest⟩ := hsorted
    rcases List.mem_cons.mp h with h | h
    · injection h with h1 h2
      subst h1; subst h2
      simp [btGet]
    · have hne : pk ≠ r := by
        have := hall r (List.mem_map_of_mem Prod.fst h)
        omega
      simp only [btGet, if_neg hne]
      exact ih hrest h

end BucketLemmas

/-! ## Lemmas: push-engine discovery -/

section PushDiscLemmas

variable {S V C : Type} [DecidableEq S] (R : PushDPRules S V C) (c : C)

theorem discCore_insert (d : PushDisc S) (t : S) (ht : t ∉ d.seen)
    (hc : DiscCore R c d) :
    DiscCore R c ⟨t :: d.seen, btAdd d.buckets (R.rank c t) t, d.adj⟩ := by
  obtain ⟨hnodup, hperm, hsorted, hne⟩ := hc
  refine ⟨List.nodup_cons.mpr ⟨ht, hnodup⟩, ?_, btAdd_keys_sorted _ _ _ hsorted,
    btAdd_nonempty _ _ _ hne⟩
  intro r
  show List.Perm (btGet (btAdd d.buckets (R.rank c t) t) r) (List.filter _ (t :: d.seen))
  rw [btGet_btAdd _ _ _ _ hsorted]
  by_cases hr : R.rank c t = r
  · rw [if_pos hr, List.filter_cons_of_pos (by simp [hr])]
    exact (List.perm_append_singleton t _).trans ((hperm r).cons t)
  · rw [if_neg hr, List.filter_cons_of_neg (by simp [hr])]
    exact hperm r

theorem pushNbrs_spec :
    ∀ (ts stack : List S) (d : PushDisc S), DiscCore R c d →
      (∀ x ∈ stack, x ∈ d.seen) →
      (pushNbrs R c ts stack d).2.adj = d.adj ∧
      (∀ x ∈ d.seen, x ∈ (pushNbrs R c ts stack d).2.seen) ∧
      (∀ x ∈ (pushNbrs R c ts stack d).2.seen, x ∈ d.seen ∨ x ∈ ts) ∧
      (∀ x ∈ ts, x ∈ (pushNbrs R c ts stack d).2.seen) ∧
      (∀ x ∈ stack, x ∈ (pushNbrs R c ts stack d).1) ∧
      (∀ x, x ∈ (pushNbrs R c ts stack d).2.seen → x ∉ (pushNbrs R c ts stack d).1 →
        x ∈ d.seen ∧ x ∉ stack) ∧
      (∀ x ∈ (pushNbrs R c ts stack d).1, x ∈ (pushNbrs R c ts stack d).2.seen) ∧
      DiscCore R c (pushNbrs R c ts stack d).2 := by
  intro ts
  induction ts with
  | nil =>
    intro stack d hc hstack
    refine ⟨rfl, ?_, ?_, ?_, ?_, ?_, ?_, hc⟩
    · intro x hx; exact hx
    · intro x hx; exact Or.inl hx
    · intro x hx; cases hx
    · intro x hx; exact hx
    · intro x hx hnx; exact ⟨hx, hnx⟩
    · intro x hx; exact hstack x hx
  | cons t ts ih =>
    intro stack d hc hstack
    by_cases ht : t ∈ d.seen
    · simp only [pushNbrs, if_pos ht]
      obtain ⟨hadj, hmono, hfrom, hts, hstk, hproc, hstkseen, hcore⟩ :=
        ih stack d hc hstack
      refine ⟨hadj, hmono, ?_, ?_, hstk, ?_, hstkseen, hcore⟩
      · intro x hx
        rcases hfrom x hx with h | h
        · exact Or.inl h
        · exact Or.inr (List.mem_cons_of_mem _ h)
      · intro x hx
        rcases List.mem_cons.mp hx with hx | hx
        · subst hx; exact hmono x ht
        · exact hts x hx
      · intro x hx hnx
        exact hproc x hx hnx
    · set d1 : PushDisc S := ⟨t :: d.seen, btAdd d.buckets (R.rank c t) t, d.adj⟩ with hd1
      have hc1 : DiscCore R c d1 := discCore_insert R c d t ht hc
      have hstack1 : ∀ x ∈ t :: stack, x ∈ d1.seen := by
        intro x hx
        rcases List.mem_cons.mp hx with hx | hx
        · subst hx; exact List.mem_cons_self _ _
        · exact List.mem_cons_of_mem _ (hstack x hx)
      simp only [pushNbrs, if_neg ht]
      obtain ⟨hadj, hmono, hfrom, hts, hstk, hproc, hstkseen, hcore⟩ :=
        ih (t :: stack) d1 hc1 hstack1
      refine ⟨hadj, ?_, ?_, ?_, ?_, ?_, hstkseen, hcore⟩
      · intro x hx
        exact hmono x (List.mem_cons_of_mem _ hx)
      · intro x hx
        rcases hfrom x hx with h | h
        · rcases List.mem_cons.mp h with h | h
          · subst h; exact Or.inr (List.mem_cons_self _ _)
          · exact Or.inl h
        · exact Or.inr (List.mem_cons_of_mem _ h)
      · intro x hx
        rcases List.mem_cons.mp hx with hx | hx
        · subst hx; exact hmono x (List.mem_cons_self _ _)
        · exact hts x hx
      · intro x hx
        exact hstk x (List.mem_cons_of_mem _ hx)
      · intro x hx hnx
        have := hproc x hx hnx
        refine ⟨?_, ?_⟩
        · rcases List.mem_cons.mp this.1 with h | h
          · exfalso; subst h
            exact hnx (hstk x (List.mem_cons_self _ _))
          · exact h
        · intro hs
          exact this.2 (List.mem_cons_of_mem _ hs)

theorem pushSeed_spec :
    ∀ (ss : List S) (d : PushDisc S), DiscCore R c d →
      (pushSeed R c ss d).adj = d.adj ∧
      (∀ x, x ∈ (pushSeed R c ss d).seen ↔ x ∈ d.seen ∨ x ∈ ss) ∧
      DiscCore R c (pushSeed R c ss d) := by
  intro ss
  induction ss with
  | nil =>
    intro d hc
    refine ⟨rfl, ?_, hc⟩
    intro x
    constructor
    · intro h; exact Or.inl h
    · rintro (h | h)
      · exact h
      · cases h
  | cons s ss ih =>
    intro d hc
    by_cases hs : s ∈ d.seen
    · simp only [pushSeed, if_pos hs]
      obtain ⟨hadj, hmem, hcore⟩ := ih d hc
      refine ⟨hadj, ?_, hcore⟩
      intro x
      rw [hmem x]
      constructor
      · rintro (h | h)
        · exact Or.inl h
        · exact Or.inr (List.mem_cons_of_mem _ h)
      · rintro (h | h)
        · exact Or.inl h
        · rcases List.mem_cons.mp h with h | h
          · subst h; exact Or.inl hs
          · exact Or.inr h
    · set d1 : PushDisc S := ⟨s :: d.seen, btAdd d.buckets (R.rank c s) s, d.adj⟩ with hd1
      have hc1 : DiscCore R c d1 := discCore_insert R c d s hs hc
      simp only [pushSeed, if_neg hs]
      obtain ⟨hadj, hmem, hcore⟩ := ih d1 hc1
      refine ⟨hadj, ?_, hcore⟩
      intro x
      rw [hmem x]
      constructor
      · rintro (h | h)
        · rcases List.mem_cons.mp h with h | h
          · subst h; exact Or.inr (List.mem_cons_self _ _)
          · exact Or.inl h
        · exact Or.inr (List.mem_cons_of_mem _ h)
      · rintro (h | h)
        · exact Or.inl (List.mem_cons_of_mem _ h)
        · rcases List.mem_cons.mp h with h | h
          · subst h; exact Or.inl (List.mem_cons_self _ _)
          · exact Or.inr h

theorem pushDiscLoop_inv (sources : List S) :
    ∀ (fuel : Nat) (stack : List S) (d d2 : PushDisc S),
      PushInv R c sources stack d →
      pushDiscLoop R c fuel stack d = some d2 →
      PushInv R c sources [] d2 := by
  intro fuel
  induction fuel with
  | zero =>
    intro stack d d2 hinv hrun
    cases stack with
    | nil =>
      simp only [pushDiscLoop, Option.some.injEq] at hrun
      subst hrun
      obtain ⟨h1, _, h3, h4, h5⟩ := hinv
      exact ⟨h1, by simp, h3, h4, h5⟩
    | cons s st => simp [pushDiscLoop] at hrun
  | succ fuel ih =>
    intro stack d d2 hinv hrun
    cases stack with
    | nil =>
      simp only [pushDiscLoop, Option.some.injEq] at hrun
      subst hrun
      obtain ⟨h1, _, h3, h4, h5⟩ := hinv
      exact ⟨h1, by simp, h3, h4, h5⟩
    | cons s st =>
      obtain ⟨hreach, hstack, hsrc, hdone, hcore⟩ := hinv
      simp only [pushDiscLoop] at hrun
      set ns := R.succs c s with hns
      set d1 : PushDisc S := ⟨d.seen, d.buckets, assocInsert d.adj s ns⟩ with hd1
      have hc1 : DiscCore R c d1 := hcore
      have hstack1 : ∀ x ∈ st, x ∈ d1.seen := by
        intro x hx
        exact hstack x (List.mem_cons_of_mem _ hx)
      obtain ⟨hadj, hmono, hfrom, hts, hstk, hproc, hstkseen, hcore2⟩ :=
        pushNbrs_spec R c ns st d1 hc1 hstack1
      apply ih (pushNbrs R c ns st d1).1 (pushNbrs R c ns st d1).2 d2 ?_ hrun
      have hsSeen : s ∈ d.seen := hstack s (List.mem_cons_self _ _)
      have hreach2 : ∀ x ∈ (pushNbrs R c ns st d1).2.seen, PushReach R c sources x := by
        intro x hx
        rcases hfrom x hx with h | h
        · exact hreach x h
        · exact PushReach.step (hreach s hsSeen) h
      refine ⟨hreach2, hstkseen, ?_, ?_, hcore2⟩
      · intro x hx
        exact hmono x (hsrc x hx)
      · intro x hx hnx
        obtain ⟨hxseen, hxstack⟩ := hproc x hx hnx
        by_cases hxs : x = s
        · subst hxs
          constructor
          · rw [hadj]
            show assocGet (assocInsert d.adj x ns) x = some (R.succs c x)
            rw [assocGet_insert]
            simp [hns]
          · intro t htns
            exact hts t htns
        · have hxold : x ∉ s :: st := by
            intro hmem
            rcases List.mem_cons.mp hmem with h | h
            · exact hxs h
            · exact hxstack h
          obtain ⟨hget, hsub⟩ := hdone x hxseen hxold
          constructor
          · rw [hadj]
            show assocGet (assocInsert d.adj s ns) x = some (R.succs c x)
            rw [assocGet_insert, if_neg (fun h : s = x => hxs h.symm)]
            exact hget
          · intro t htx
            exact hmono t (hsub t htx)

theorem pushDisc_initial (sources : List S) :
    PushInv R c sources sources.reverse (pushSeed R c sources ⟨[], [], []⟩) := by
  have hc0 : DiscCore R c (⟨[], [], []⟩ : PushDisc S) := by
    refine ⟨List.nodup_nil, ?_, by simp, by simp⟩
    intro r
    simp [btGet]
  obtain ⟨hadj, hmem, hcore⟩ := pushSeed_spec R c sources ⟨[], [], []⟩ hc0
  have hseen : ∀ x, x ∈ (pushSeed R c sources ⟨[], [], []⟩).seen ↔ x ∈ sources := by
    intro x
    rw [hmem x]
    simp
  refine ⟨?_, ?_, ?_, ?_, hcore⟩
  · intro s hs
    exact PushReach.source ((hseen s).mp hs)
  · intro s hs
    rw [hseen]
    exact List.mem_reverse.mp hs
  · intro s hs
    exact (hseen s).mpr hs
  · intro s hs hns
    exfalso
    exact hns (List.mem_reverse.mpr ((hseen s).mp hs))

theorem pushReach_mem_seen (sources : List S) (d : PushDisc S)
    (hinv : PushInv R c sources [] d) :
    ∀ s, PushReach R c sources s → s ∈ d.seen := by
  intro s hs
  induction hs with
  | source h => exact hinv.2.2.1 _ h
  | step hr hmem ih =>
    obtain ⟨_, hsub⟩ := hinv.2.2.2.1 _ ih (by simp)
    exact hsub _ hmem

end PushDiscLemmas

/-! ## Lemmas: push-engine value passes -/

section PushValueLemmas

variable {S V C : Type} [DecidableEq S] (R : PushDPRules S V C) (c : C)

theorem initBucket_mono : ∀ (ss : List S) (val : List (S × V)) (x : S),
    (assocGet val x).isSome → (assocGet (initBucket R c ss val) x).isSome := by
  intro ss
  induction ss with
  | nil => intro val x h; exact h
  | cons s ss ih =>
    intro val x h
    simp only [initBucket]
    cases hinit : R.init c s with
    | some v0 => exact ih _ x (assocGet_insert_isSome _ _ _ _ h)
    | none => exact ih _ x h

theorem initPass_mono : ∀ (bs : List (Nat × List S)) (val : List (S × V)) (x : S),
    (assocGet val x).isSome → (assocGet (initPass R c bs val) x).isSome := by
  intro bs
  induction bs with
  | nil => intro val x h; exact h
  | cons p bs ih =>
    intro val x h
    obtain ⟨r, ss⟩ := p
    exact ih _ x (initBucket_mono R c ss val x h)

theorem pushEdges_mono (s : S) (vs : V) : ∀ (ts : List S) (val : List (S × V)) (x : S),
    (assocGet val x).isSome → (assocGet (pushEdges R c s vs ts val) x).isSome := by
  intro ts
  induction ts with
  | nil => intro val x h; exact h
  | cons t ts ih =>
    intro val x h
    exact ih _ x (assocGet_insert_isSome _ _ _ _ h)

theorem propBucket_mono (adj : List (S × List S)) :
    ∀ (ss : List S) (val : List (S × V)) (x : S),
      (assocGet val x).isSome → (assocGet (propBucket R c adj ss val) x).isSome := by
  intro ss
  induction ss with
  | nil => intro val x h; exact h
  | cons s ss ih =>
    intro val x h
    simp only [propBucket]
    cases hadj : assocGet adj s with
    | some ns => exact ih _ x (pushEdges_mono R c s _ ns val x h)
    | none => exact ih _ x h

theorem propPass_mono (adj : List (S × List S)) :
    ∀ (bs : List (Nat × List S)) (val : List (S × V)) (x : S),
      (assocGet val x).isSome → (assocGet (propPass R c adj bs val) x).isSome := by
  intro bs
  induction bs with
  | nil => intro val x h; exact h
  | cons p bs ih =>
    intro val x h
    obtain ⟨r, ss⟩ := p
    exact ih _ x (propBucket_mono R c adj ss val x h)

theorem initBucket_inserts : ∀ (ss : List S) (val : List (S × V)) (s : S),
    s ∈ ss → (R.init c s).isSome → (assocGet (initBucket R c ss val) s).isSome := by
  intro ss
  induction ss with
  | nil => intro val s h; cases h
  | cons s0 ss ih =>
    intro val s hmem hinit
    rcases List.mem_cons.mp hmem with h | h
    · subst h
      simp only [initBucket]
      cases hi : R.init c s with
      | some v0 =>
        apply initBucket_mono
        rw [assocGet_insert]
        simp
      | none => rw [hi] at hinit; simp at hinit
    · simp only [initBucket]
      cases hi : R.init c s0 with
      | some v0 => exact ih _ s h hinit
      | none => exact ih _ s h hinit

theorem initPass_inserts : ∀ (bs : List (Nat × List S)) (val : List (S × V)) (s : S),
    (∃ p ∈ bs, s ∈ p.2) → (R.init c s).isSome →
    (assocGet (initPass R c bs val) s).isSome := by
  intro bs
  induction bs with
  | nil => intro val s h; rcases h with ⟨p, hp, _⟩; cases hp
  | cons q bs ih =>
    intro val s hmem hinit
    obtain ⟨r, ss⟩ := q
    rcases hmem with ⟨p, hp, hs⟩
    rcases List.mem_cons.mp hp with h | h
    · subst h
      exact initPass_mono R c bs _ s (initBucket_inserts R c ss val s hs hinit)
    · exact ih _ s ⟨p, h, hs⟩ hinit

theorem pushEdges_inserts (s : S) (vs : V) : ∀ (ts : List S) (val : List (S × V)) (t : S),
    t ∈ ts → (assocGet (pushEdges R c s vs ts val) t).isSome := by
  intro ts
  induction ts with
  | nil => intro val t h; cases h
  | cons t0 ts ih =>
    intro val t hmem
    rcases List.mem_cons.mp hmem with h | h
    · subst h
      simp only [pushEdges]
      apply pushEdges_mono
      rw [assocGet_insert]
      simp
    · exact ih _ t h

theorem propBucket_hits (adj : List (S × List S)) :
    ∀ (ss : List S) (val : List (S × V)) (s t : S) (ns : List S),
      s ∈ ss → assocGet adj s = some ns → t ∈ ns →
      (assocGet (propBucket R c adj ss val) t).isSome := by
  intro ss
  induction ss with
  | nil => intro val s t ns h; cases h
  | cons s0 ss ih =>
    intro val s t ns hmem hadj htn
    rcases List.mem_cons.mp hmem with h | h
    · subst h
      simp only [propBucket, hadj]
      exact propBucket_mono R c adj ss _ t (pushEdges_inserts R c s _ ns val t htn)
    · simp only [propBucket]
      cases hadj0 : assocGet adj s0 with
      | some ns0 => exact ih _ s t ns h hadj htn
      | none => exact ih _ s t ns h hadj htn

theorem propPass_hits (adj : List (S × List S)) :
    ∀ (bs : List (Nat × List S)) (val : List (S × V)) (s t : S) (ns : List S),
      (∃ p ∈ bs, s ∈ p.2) → assocGet adj s = some ns → t ∈ ns →
      (assocGet (propPass R c adj bs val) t).isSome := by
  intro bs
  induction bs with
  | nil => intro val s t ns h; rcases h with ⟨p, hp, _⟩; cases hp
  | cons q bs ih =>
    intro val s t ns hmem hadj htn
    obtain ⟨r, ss⟩ := q
    rcases hmem with ⟨p, hp, hs⟩
    rcases List.mem_cons.mp hp with h | h
    · subst h
      exact propPass_mono R c adj bs _ t (propBucket_hits R c adj ss val s t ns hs hadj htn)
    · exact ih _ s t ns ⟨p, h, hs⟩ hadj htn

theorem seen_mem_bucket_pair {R : PushDPRules S V C} {c : C} {d : PushDisc S}
    (hcore : DiscCore R c d) {s : S} (hs : s ∈ d.seen) :
    ∃ vs, (R.rank c s, vs) ∈ d.buckets ∧ s ∈ vs := by
  obtain ⟨_, hperm, _, _⟩ := hcore
  have hfil : s ∈ d.seen.filter (fun x => decide (R.rank c x = R.rank c s)) := by
    rw [List.mem_filter]
    exact ⟨hs, by simp⟩
  have hmem : s ∈ btGet d.buckets (R.rank c s) := ((hperm (R.rank c s)).mem_iff).mpr hfil
  exact btGet_mem_pair hmem

end PushValueLemmas

/-! ## Lemmas: pull-engine discovery -/

section PullDiscLemmas

variable {S V C : Type} [DecidableEq S] (R : PullDPRules S V C) (c : C)

theorem pushBucket_getD (r : Nat) (s : S) (b : List (List S)) (i : Nat) :
    (pushBucket r s b).getD i [] =
      if i = r then b.getD r [] ++ [s] else b.getD i [] := by
  unfold pushBucket
  set b2 := if b.length ≤ r then b ++ List.replicate (r + 1 - b.length) [] else b with hb2
  have hlen : r < b2.length := by
    rw [hb2]; split
    · rename_i h
      rw [List.length_append, List.length_replicate]
      omega
    · rename_i h
      omega
  have hb2get : ∀ j, b2.getD j [] = b.getD j [] := by
    intro j
    rw [hb2]; split
    · rename_i h
      simp only [List.getD_eq_getElem?_getD]
      rcases Nat.lt_or_ge j b.length with hj | hj
      · rw [List.getElem?_append_left hj]
      · rw [List.getElem?_append_right hj, List.getElem?_replicate,
          List.getElem?_eq_none hj]
        split <;> rfl
    · rfl
  by_cases hi : i = r
  · subst hi
    simp only [List.getD_eq_getElem?_getD]
    rw [List.getElem?_set_self hlen]
    simp only [Option.getD_some]
    rw [← List.getD_eq_getElem?_getD _ _ ([] : List S), hb2get]
    simp [List.getD_eq_getElem?_getD]
  · simp only [List.getD_eq_getElem?_getD]
    rw [List.getElem?_set_ne (fun h : r = i => hi h.symm)]
    rw [← List.getD_eq_getElem?_getD _ _ ([] : List S), hb2get]
    simp [List.getD_eq_getElem?_getD, hi]

theorem pullCore_insert (d : PullDisc S) (t : S) (ht : t ∉ d.seen)
    (hc : PullCore R c d) :
    PullCore R c ⟨t :: d.seen, pushBucket (R.rank c t) t d.buckets, d.adj, d.log⟩ := by
  obtain ⟨hnodup, hmem, hconv⟩ := hc
  refine ⟨List.nodup_cons.mpr ⟨ht, hnodup⟩, ?_, ?_⟩
  · intro s hs
    show s ∈ (pushBucket (R.rank c t) t d.buckets).getD (R.rank c s) []
    rw [pushBucket_getD]
    rcases List.mem_cons.mp hs with h | h
    · subst h
      rw [if_pos rfl]
      exact List.mem_append_right _ (List.mem_singleton.mpr rfl)
    · by_cases hr : R.rank c s = R.rank c t
      · rw [if_pos hr]
        exact List.mem_append_left _ (hr ▸ hmem s h)
      · rw [if_neg hr]
        exact hmem s h
  · intro r s hs
    rw [pushBucket_getD] at hs
    by_cases hr : r = R.rank c t
    · rw [if_pos hr] at hs
      rcases List.mem_append.mp hs with h | h
      · obtain ⟨h1, h2⟩ := hconv (R.rank c t) s (hr ▸ h)
        exact ⟨List.mem_cons_of_mem _ h1, hr ▸ h2⟩
      · rcases List.mem_singleton.mp h with rfl
        exact ⟨List.mem_cons_self _ _, hr.symm ▸ rfl⟩
    · rw [if_neg hr] at hs
      obtain ⟨h1, h2⟩ := hconv r s hs
      exact ⟨List.mem_cons_of_mem _ h1, h2⟩

theorem pullNbrs_spec :
    ∀ (ts stack : List S) (d : PullDisc S), PullCore R c d →
      (∀ x ∈ stack, x ∈ d.seen) →
      (pullNbrs R c ts stack d).2.adj = d.adj ∧
      (pullNbrs R c ts stack d).2.log = d.log ∧
      (∀ x ∈ d.seen, x ∈ (pullNbrs R c ts stack d).2.seen) ∧
      (∀ x ∈ (pullNbrs R c ts stack d).2.seen, x ∈ d.seen ∨ x ∈ ts) ∧
      (∀ x ∈ ts, x ∈ (pullNbrs R c ts stack d).2.seen) ∧
      (∀ x ∈ stack, x ∈ (pullNbrs R c ts stack d).1) ∧
      (∀ x, x ∈ (pullNbrs R c ts stack d).2.seen → x ∉ (pullNbrs R c ts stack d).1 →
        x ∈ d.seen ∧ x ∉ stack) ∧
      (∀ x ∈ (pullNbrs R c ts stack d).1, x ∈ (pullNbrs R c ts stack d).2.seen) ∧
      PullCore R c (pullNbrs R c ts stack d).2 := by
  intro ts
  induction ts with
  | nil =>
    intro stack d hc hstack
    refine ⟨rfl, rfl, ?_, ?_, ?_, ?_, ?_, ?_, hc⟩
    · intro x hx; exact hx
    · intro x hx; exact Or.inl hx
    · intro x hx; cases hx
    · intro x hx; exact hx
    · intro x hx hnx; exact ⟨hx, hnx⟩
    · intro x hx; exact hstack x hx
  | cons t ts ih =>
    intro stack d hc hstack
    by_cases ht : t ∈ d.seen
    · simp only [pullNbrs, if_pos ht]
      obtain ⟨hadj, hlog, hmono, hfrom, hts, hstk, hproc, hstkseen, hcore⟩ :=
        ih stack d hc hstack
      refine ⟨hadj, hlog, hmono, ?_, ?_, hstk, hproc, hstkseen, hcore⟩
      · intro x hx
        rcases hfrom x hx with h | h
        · exact Or.inl h
        · exact Or.inr (List.mem_cons_of_mem _ h)
      · intro x hx
        rcases List.mem_cons.mp hx with hx | hx
        · subst hx; exact hmono x ht
        · exact hts x hx
    · set d1 : PullDisc S :=
        ⟨t :: d.seen, pushBucket (R.rank c t) t d.buckets, d.adj, d.log⟩ with hd1
      have hc1 : PullCore R c d1 := pullCore_insert R c d t ht hc
      have hstack1 : ∀ x ∈ t :: stack, x ∈ d1.seen := by
        intro x hx
        rcases List.mem_cons.mp hx with hx | hx
        · subst hx; exact List.mem_cons_self _ _
        · exact List.mem_cons_of_mem _ (hstack x hx)
      simp only [pullNbrs, if_neg ht]
      obtain ⟨hadj, hlog, hmono, hfrom, hts, hstk, hproc, hstkseen, hcore⟩ :=
        ih (t :: stack) d1 hc1 hstack1
      refine ⟨hadj, hlog, ?_, ?_, ?_, ?_, ?_, hstkseen, hcore⟩
      · intro x hx
        exact hmono x (List.mem_cons_of_mem _ hx)
      · intro x hx
        rcases hfrom x hx with h | h
        · rcases List.mem_cons.mp h with h | h
          · subst h; exact Or.inr (List.mem_cons_self _ _)
          · exact Or.inl h
        · exact Or.inr (List.mem_cons_of_mem _ h)
      · intro x hx
        rcases List.mem_cons.mp hx with hx | hx
        · subst hx; exact hmono x (List.mem_cons_self _ _)
        · exact hts x hx
      · intro x hx
        exact hstk x (List.mem_cons_of_mem _ hx)
      · intro x hx hnx
        have := hproc x hx hnx
        refine ⟨?_, ?_⟩
        · rcases List.mem_cons.mp this.1 with h | h
          · exfalso; subst h
            exact hnx (hstk x (List.mem_cons_self _ _))
          · exact h
        · intro hs
          exact this.2 (List.mem_cons_of_mem _ hs)

theorem pullSeed_spec :
    ∀ (ss : List S) (d : PullDisc S), PullCore R c d →
      (pullSeed R c ss d).adj = d.adj ∧
      (pullSeed R c ss d).log = d.log ∧
      (∀ x, x ∈ (pullSeed R c ss d).seen ↔ x ∈ d.seen ∨ x ∈ ss) ∧
      PullCore R c (pullSeed R c ss d) := by
  intro ss
  induction ss with
  | nil =>
    intro d hc
    refine ⟨rfl, rfl, ?_, hc⟩
    intro x
    constructor
    · intro h; exact Or.inl h
    · rintro (h | h)
      · exact h
      · cases h
  | cons s ss ih =>
    intro d hc
    by_cases hs : s ∈ d.seen
    · simp only [pullSeed, if_pos hs]
      obtain ⟨hadj, hlog, hmem, hcore⟩ := ih d hc
      refine ⟨hadj, hlog, ?_, hcore⟩
      intro x
      rw [hmem x]
      constructor
      · rintro (h | h)
        · exact Or.inl h
        · exact Or.inr (List.mem_cons_of_mem _ h)
      · rintro (h | h)
        · exact Or.inl h
        · rcases List.mem_cons.mp h with h | h
          · subst h; exact Or.inl hs
          · exact Or.inr h
    · set d1 : PullDisc S :=
        ⟨s :: d.seen, pushBucket (R.rank c s) s d.buckets, d.adj, d.log⟩ with hd1
      have hc1 : PullCore R c d1 := pullCore_insert R c d s hs hc
      simp only [pullSeed, if_neg hs]
      obtain ⟨hadj, hlog, hmem, hcore⟩ := ih d1 hc1
      refine ⟨hadj, hlog, ?_, hcore⟩
      intro x
      rw [hmem x]
      constructor
      · rintro (h | h)
        · rcases List.mem_cons.mp h with h | h
          · subst h; exact Or.inr (List.mem_cons_self _ _)
          · exact Or.inl h
        · exact Or.inr (List.mem_cons_of_mem _ h)
      · rintro (h | h)
        · exact Or.inl (List.mem_cons_of_mem _ h)
        · rcases List.mem_cons.mp h with h | h
          · subst h; exact Or.inl (List.mem_cons_self _ _)
          · exact Or.inr h

theorem pullLoop_inv (roots : List S) :
    ∀ (fuel : Nat) (stack : List S) (d d2 : PullDisc S),
      PullInv R c roots stack d →
      pullLoop R c fuel stack d = some d2 →
      PullInv R c roots [] d2 := by
  intro fuel
  induction fuel with
  | zero =>
    intro stack d d2 hinv hrun
    cases stack with
    | nil =>
      simp only [pullLoop, Option.some.injEq] at hrun
      subst hrun
      obtain ⟨h1, _, h3, h4, h5⟩ := hinv
      exact ⟨h1, by simp, h3, h4, h5⟩
    | cons s st => simp [pullLoop] at hrun
  | succ fuel ih =>
    intro stack d d2 hinv hrun
    cases stack with
    | nil =>
      simp only [pullLoop, Option.some.injEq] at hrun
      subst hrun
      obtain ⟨h1, _, h3, h4, h5⟩ := hinv
      exact ⟨h1, by simp, h3, h4, h5⟩
    | cons s st =>
      obtain ⟨hreach, hstack, hsrc, hdone, hcore⟩ := hinv
      simp only [pullLoop] at hrun
      set ns := R.neighbors c s with hns
      set d1 : PullDisc S := ⟨d.seen, d.buckets, assocInsert d.adj s ns, d.log ++ [s]⟩ with hd1
      have hc1 : PullCore R c d1 := hcore
      have hstack1 : ∀ x ∈ st, x ∈ d1.seen := by
        intro x hx
        exact hstack x (List.mem_cons_of_mem _ hx)
      obtain ⟨hadj, _, hmono, hfrom, hts, hstk, hproc, hstkseen, hcore2⟩ :=
        pullNbrs_spec R c ns st d1 hc1 hstack1
      apply ih (pullNbrs R c ns st d1).1 (pullNbrs R c ns st d1).2 d2 ?_ hrun
      have hsSeen : s ∈ d.seen := hstack s (List.mem_cons_self _ _)
      have hreach2 : ∀ x ∈ (pullNbrs R c ns st d1).2.seen, PullReach R c roots x := by
        intro x hx
        rcases hfrom x hx with h | h
        · exact hreach x h
        · exact PullReach.step (hreach s hsSeen) h
      refine ⟨hreach2, hstkseen, ?_, ?_, hcore2⟩
      · intro x hx
        exact hmono x (hsrc x hx)
      · intro x hx hnx
        obtain ⟨hxseen, hxstack⟩ := hproc x hx hnx
        by_cases hxs : x = s
        · subst hxs
          constructor
          · rw [hadj]
            show assocGet (assocInsert d.adj x ns) x = some (R.neighbors c x)
            rw [assocGet_insert]
            simp [hns]
          · intro t htns
            exact hts t htns
        · have hxold : x ∉ s :: st := by
            intro hmem
            rcases List.mem_cons.mp hmem with h | h
            · exact hxs h
            · exact hxstack h
          obtain ⟨hget, hsub⟩ := hdone x hxseen hxold
          constructor
          · rw [hadj]
            show assocGet (assocInsert d.adj s ns) x = some (R.neighbors c x)
            rw [assocGet_insert, if_neg (fun h : s = x => hxs h.symm)]
            exact hget
          · intro t htx
            exact hmono t (hsub t htx)

theorem pullDisc_initial (roots : List S) :
    PullInv R c roots roots.reverse (pullSeed R c roots ⟨[], [], [], []⟩) := by
  have hc0 : PullCore R c (⟨[], [], [], []⟩ : PullDisc S) := by
    refine ⟨List.nodup_nil, by simp, ?_⟩
    intro r s hs
    simp [List.getD] at hs
  obtain ⟨hadj, hlog, hmem, hcore⟩ := pullSeed_spec R c roots ⟨[], [], [], []⟩ hc0
  have hseen : ∀ x, x ∈ (pullSeed R c roots ⟨[], [], [], []⟩).seen ↔ x ∈ roots := by
    intro x
    rw [hmem x]
    simp
  refine ⟨?_, ?_, ?_, ?_, hcore⟩
  · intro s hs
    exact PullReach.root ((hseen s).mp hs)
  · intro s hs
    rw [hseen]
    exact List.mem_reverse.mp hs
  · intro s hs
    exact (hseen s).mpr hs
  · intro s hs hns
    exfalso
    exact hns (List.mem_reverse.mpr ((hseen s).mp hs))

theorem pullReach_mem_seen (roots : List S) (d : PullDisc S)
    (hinv : PullInv R c roots [] d) :
    ∀ s, PullReach R c roots s → s ∈ d.seen := by
  intro s hs
  induction hs with
  | root h => exact hinv.2.2.1 _ h
  | step hr hmem ih =>
    obtain ⟨_, hsub⟩ := hinv.2.2.2.1 _ ih (by simp)
    exact hsub _ hmem

theorem pullNbrs_logInv :
    ∀ (ts stack : List S) (d : PullDisc S), PullLogInv stack d →
      PullLogInv (pullNbrs R c ts stack d).1 (pullNbrs R c ts stack d).2 := by
  intro ts
  induction ts with
  | nil => intro stack d h; exact h
  | cons t ts ih =>
    intro stack d hinv
    obtain ⟨hnd, hiff, hstk, hlog⟩ := hinv
    by_cases ht : t ∈ d.seen
    · simp only [pullNbrs, if_pos ht]
      exact ih stack d ⟨hnd, hiff, hstk, hlog⟩
    · simp only [pullNbrs, if_neg ht]
      apply ih
      have htns : t ∉ stack ++ d.log := by
        intro hmem
        rcases List.mem_append.mp hmem with h | h
        · exact ht ((hiff t).mpr (Or.inl h))
        · exact ht ((hiff t).mpr (Or.inr h))
      refine ⟨?_, ?_, ?_, ?_⟩
      · exact List.nodup_cons.mpr ⟨htns, hnd⟩
      · intro s
        show s ∈ t :: d.seen ↔ s ∈ t :: stack ∨ s ∈ d.log
        constructor
        · intro h
          rcases List.mem_cons.mp h with h | h
          · subst h; exact Or.inl (List.mem_cons_self _ _)
          · rcases (hiff s).mp h with h | h
            · exact Or.inl (List.mem_cons_of_mem _ h)
            · exact Or.inr h
        · rintro (h | h)
          · rcases List.mem_cons.mp h with h | h
            · subst h; exact List.mem_cons_self _ _
            · exact List.mem_cons_of_mem _ ((hiff s).mpr (Or.inl h))
          · exact List.mem_cons_of_mem _ ((hiff s).mpr (Or.inr h))
      · intro s hs
        rcases List.mem_cons.mp hs with h | h
        · subst h; exact List.mem_cons_self _ _
        · exact List.mem_cons_of_mem _ (hstk s h)
      · intro s hs
        exact List.mem_cons_of_mem _ (hlog s hs)

theorem pullLoop_logInv :
    ∀ (fuel : Nat) (stack : List S) (d d2 : PullDisc S),
      PullLogInv stack d →
      pullLoop R c fuel stack d = some d2 →
      PullLogInv [] d2 := by
  intro fuel
  induction fuel with
  | zero =>
    intro stack d d2 hinv hrun
    cases stack with
    | nil =>
      simp only [pullLoop, Option.some.injEq] at hrun
      subst hrun
      obtain ⟨h1, h2, _, h4⟩ := hinv
      exact ⟨by simpa using h1, by simpa using h2, by simp, h4⟩
    | cons s st => simp [pullLoop] at hrun
  | succ fuel ih =>
    intro stack d d2 hinv hrun
    cases stack with
    | nil =>
      simp only [pullLoop, Option.some.injEq] at hrun
      subst hrun
      obtain ⟨h1, h2, _, h4⟩ := hinv
      exact ⟨by simpa using h1, by simpa using h2, by simp, h4⟩
    | cons s st =>
      obtain ⟨hnd, hiff, hstk, hlog⟩ := hinv
      simp only [pullLoop] at hrun
      set ns := R.neighbors c s with hns
      set d1 : PullDisc S := ⟨d.seen, d.buckets, assocInsert d.adj s ns, d.log ++ [s]⟩ with hd1
      have hnd2 : (s :: (st ++ d.log)).Nodup := by
        rw [List.cons_append] at hnd
        exact hnd
      have hinv1 : PullLogInv st d1 := by
        refine ⟨?_, ?_, ?_, ?_⟩
        · show (st ++ (d.log ++ [s])).Nodup
          have he : st ++ (d.log ++ [s]) = (st ++ d.log) ++ [s] := by
            rw [List.append_assoc]
          rw [he]
          exact ((List.perm_append_singleton s (st ++ d.log)).symm).nodup hnd2
        · intro x
          show x ∈ d.seen ↔ x ∈ st ∨ x ∈ d.log ++ [s]
          rw [hiff x]
          constructor
          · rintro (h | h)
            · rcases List.mem_cons.mp h with h | h
              · subst h
                exact Or.inr (List.mem_append_right _ (List.mem_singleton.mpr rfl))
              · exact Or.inl h
            · exact Or.inr (List.mem_append_left _ h)
          · rintro (h | h)
            · exact Or.inl (List.mem_cons_of_mem _ h)
            · rcases List.mem_append.mp h with h | h
              · exact Or.inr h
              · rcases List.mem_singleton.mp h with rfl
                exact Or.inl (List.mem_cons_self _ _)
        · intro x hx
          exact hstk x (List.mem_cons_of_mem _ hx)
        · intro x hx
          show x ∈ d.seen
          rcases List.mem_append.mp hx with h | h
          · exact hlog x h
          · rcases List.mem_singleton.mp h with rfl
            exact hstk x (List.mem_cons_self _ _)
      exact ih (pullNbrs R c ns st d1).1 (pullNbrs R c ns st d1).2 d2
        (pullNbrs_logInv R c ns st d1 hinv1) hrun

theorem pullLogInv_initial (roots : List S) (hnd : roots.Nodup) :
    PullLogInv roots.reverse (pullSeed R c roots ⟨[], [], [], []⟩) := by
  have hc0 : PullCore R c (⟨[], [], [], []⟩ : PullDisc S) := by
    refine ⟨List.nodup_nil, by simp, ?_⟩
    intro r s hs
    simp [List.getD] at hs
  obtain ⟨_, hlog, hmem, _⟩ := pullSeed_spec R c roots ⟨[], [], [], []⟩ hc0
  refine ⟨?_, ?_, ?_, ?_⟩
  · rw [hlog]
    show (roots.reverse ++ []).Nodup
    rw [List.append_nil]
    exact List.nodup_reverse.mpr hnd
  · intro s
    rw [hmem s, hlog]
    show (s ∈ ([] : List S) ∨ s ∈ roots) ↔ s ∈ roots.reverse ∨ s ∈ ([] : List S)
    constructor
    · rintro (h | h)
      · cases h
      · exact Or.inl (List.mem_reverse.mpr h)
    · rintro (h | h)
      · exact Or.inr (List.mem_reverse.mp h)
      · cases h
  · intro s hs
    rw [hmem s]
    exact Or.inr (List.mem_reverse.mp hs)
  · intro s hs
    rw [hlog] at hs
    cases hs

end PullDiscLemmas

/-! ## Lemmas: digit DP -/

section DigitLemmas

theorem foldl_digits_shift (l : List Nat) :
    ∀ a : Nat, l.foldl (fun x dg => 10 * x + dg) a =
      a * 10 ^ l.length + l.foldl (fun x dg => 10 * x + dg) 0 := by
  induction l with
  | nil => intro a; simp
  | cons dg l ih =>
    intro a
    simp only [List.foldl_cons, List.length_cons]
    rw [ih (10 * a + dg), ih (10 * 0 + dg)]
    ring

theorem sufVal_succ (ds : List Nat) (i : Nat) (hi : i < ds.length) :
    sufVal ds i = ds.getD i 0 * 10 ^ (ds.length - i - 1) + sufVal ds (i + 1) := by
  unfold sufVal digitsVal
  have hdrop : ds.drop i = ds.getD i 0 :: ds.drop (i + 1) := by
    rw [List.getD_eq_getElem?_getD, List.getElem?_eq_getElem hi]
    exact List.drop_eq_getElem_cons hi
  rw [hdrop]
  simp only [List.foldl_cons]
  rw [foldl_digits_shift (ds.drop (i + 1)) (10 * 0 + ds.getD i 0)]
  rw [List.length_drop]
  have : ds.length - (i + 1) = ds.length - i - 1 := by omega
  rw [this]
  ring

theorem sum_map_const {α : Type} (l : List α) (f : α → Nat) (cv : Nat)
    (h : ∀ x ∈ l, f x = cv) : (l.map f).sum = l.length * cv := by
  induction l with
  | nil => simp
  | cons x l ih =>
    simp only [List.map_cons, List.sum_cons, List.length_cons]
    rw [h x (List.mem_cons_self _ _), ih (fun y hy => h y (List.mem_cons_of_mem _ hy))]
    ring

theorem countTF_base (ds : List Nat) (tight : Bool) : countTF ds ds.length tight = 1 := by
  unfold countTF sufVal digitsVal
  cases tight with
  | false =>
    simp only [Bool.false_eq_true, if_false, Nat.sub_self, pow_zero]
    decide
  | true =>
    simp only [if_true, List.drop_length, List.foldl_nil]
    decide

theorem digitDfsList_spec {σ : Type} [DecidableEq σ] (ds : List Nat)
    (step : Bool → σ → DigitMemo σ → Option (Nat × DigitMemo σ))
    (i : Nat) (tight : Bool) (lim : Nat)
    (hstep : ∀ (t2 : Bool) (s2 : σ) (m2 : DigitMemo σ), GoodMemo ds m2 →
      ∃ r m3, step t2 s2 m2 = some (r, m3) ∧ r = countTF ds (i + 1) t2 ∧ GoodMemo ds m3) :
    ∀ (l : List (Nat × σ)) (res : Nat) (memo : DigitMemo σ), GoodMemo ds memo →
      res < MOD →
      ∃ r memo2, digitDfsList step tight lim l res memo = some (r, memo2) ∧
        r = (res + (l.map (fun p => countTF ds (i + 1) (tight && p.1 == lim))).sum) % MOD ∧
        GoodMemo ds memo2 := by
  intro l
  induction l with
  | nil =>
    intro res memo hmemo hres
    refine ⟨res, memo, rfl, ?_, hmemo⟩
    simp only [List.map_nil, List.sum_nil, Nat.add_zero]
    exact (Nat.mod_eq_of_lt hres).symm
  | cons p rest ihl =>
    obtain ⟨dg, ns⟩ := p
    intro res memo hmemo hres
    obtain ⟨sub, memo2, hrun1, hsub, hg2⟩ := hstep (tight && dg == lim) ns memo hmemo
    obtain ⟨r, memo3, hrun2, hr, hg3⟩ := ihl ((res + sub) % MOD) memo2 hg2
      (Nat.mod_lt _ (by decide))
    refine ⟨r, memo3, ?_, ?_, hg3⟩
    · show (match step (tight && dg == lim) ns memo with
        | none => none
        | some (sub, memo2) =>
          digitDfsList step tight lim rest ((res + sub) % MOD) memo2) = some (r, memo3)
      rw [hrun1]
      exact hrun2
    · rw [hr, hsub, Nat.mod_add_mod]
      simp only [List.map_cons, List.sum_cons]
      congr 1
      ring

theorem digitDfs_spec {σ : Type} [DecidableEq σ] (P : DigitDPRules σ) (ds : List Nat)
    (htrans : ∀ i tight s lim, P.transition i tight s lim =
      (List.range (lim + 1)).map (fun dg => (dg, s)))
    (hacc : ∀ s, P.isAccept s = true) :
    ∀ (fuel i : Nat) (tight : Bool) (s : σ) (memo : DigitMemo σ),
      GoodMemo ds memo → i ≤ ds.length → ds.length - i + 1 ≤ fuel →
      ∃ r memo2, digitDfs P ds fuel i tight s memo = some (r, memo2) ∧
        r = countTF ds i tight ∧ GoodMemo ds memo2 := by
  intro fuel
  induction fuel with
  | zero =>
    intro i tight s memo _ _ hf
    omega
  | succ fuel ih =>
    intro i tight s memo hmemo hi hf
    by_cases hin : i = ds.length
    · subst hin
      refine ⟨1, memo, ?_, (countTF_base ds tight).symm, hmemo⟩
      simp [digitDfs, hacc s]
    · have hilt : i < ds.length := by omega
      cases hget : assocGet memo (i, tight, s) with
      | some res =>
        refine ⟨res, memo, ?_, hmemo i tight s res hget, hmemo⟩
        simp only [digitDfs, if_neg hin, hget]
      | none =>
        set lim := if tight then ds.getD i 0 else 9 with hlim
        have hstep : ∀ (t2 : Bool) (s2 : σ) (m2 : DigitMemo σ), GoodMemo ds m2 →
            ∃ r m3, digitDfs P ds fuel (i + 1) t2 s2 m2 = some (r, m3) ∧
              r = countTF ds (i + 1) t2 ∧ GoodMemo ds m3 := by
          intro t2 s2 m2 hm2
          exact ih (i + 1) t2 s2 m2 hm2 (by omega) (by omega)
        obtain ⟨r0, memo2, hrun, hr0, hg2⟩ :=
          digitDfsList_spec ds _ i tight lim hstep (P.transition i tight s lim) 0 memo hmemo
            (by decide)
        have hval : r0 = countTF ds i tight := by
          rw [hr0, htrans, Nat.zero_add, List.map_map]
          cases tight with
          | false =>
            have hconst : ∀ dg ∈ List.range (lim + 1),
                ((fun p : Nat × σ => countTF ds (i + 1) (false && p.1 == lim)) ∘
                  fun dg => (dg, s)) dg = (10 ^ (ds.length - (i + 1))) % MOD := by
              intro dg _
              simp [countTF]
            rw [sum_map_const _ _ _ hconst, List.length_range]
            have hlim9 : lim = 9 := by rw [hlim]; rfl
            have hmeq : (lim + 1) * (10 ^ (ds.length - (i + 1)) % MOD) ≡
                (lim + 1) * 10 ^ (ds.length - (i + 1)) [MOD MOD] :=
              (Nat.mod_modEq _ MOD).mul_left (lim + 1)
            show ((lim + 1) * (10 ^ (ds.length - (i + 1)) % MOD)) % MOD = countTF ds i false
            unfold countTF
            simp only [Bool.false_eq_true, if_false]
            rw [hmeq]
            congr 1
            rw [hlim9]
            have : ds.length - i = (ds.length - (i + 1)) + 1 := by omega
            rw [this, pow_succ]
            ring
          | true =>
            have hlimi : lim = ds.getD i 0 := by rw [hlim]; rfl
            rw [List.range_succ, List.map_append, List.sum_append]
            have hconst : ∀ dg ∈ List.range lim,
                ((fun p : Nat × σ => countTF ds (i + 1) (true && p.1 == lim)) ∘
                  fun dg => (dg, s)) dg = (10 ^ (ds.length - (i + 1))) % MOD := by
              intro dg hdg
              rw [List.mem_range] at hdg
              have hne : (dg == lim) = false := by
                rw [beq_eq_false_iff_ne]
                omega
              show countTF ds (i + 1) (true && dg == lim) = _
              rw [Bool.true_and, hne]
              simp [countTF]
            rw [sum_map_const _ _ _ hconst, List.length_range]
            have hlast : ((fun p : Nat × σ => countTF ds (i + 1) (true && p.1 == lim)) ∘
                fun dg => (dg, s)) lim = (sufVal ds (i + 1) + 1) % MOD := by
              simp [countTF]
            simp only [List.map_cons, List.map_nil, List.sum_cons, List.sum_nil]
            rw [hlast]
            have hmeq : lim * (10 ^ (ds.length - (i + 1)) % MOD) +
                (((sufVal ds (i + 1) + 1) % MOD) + 0) ≡
                lim * 10 ^ (ds.length - (i + 1)) + (sufVal ds (i + 1) + 1) [MOD MOD] := by
              apply Nat.ModEq.add
              · exact (Nat.mod_modEq _ MOD).mul_left lim
              · rw [Nat.add_zero]
                exact Nat.mod_modEq _ MOD
            show (lim * (10 ^ (ds.length - (i + 1)) % MOD) +
                (((sufVal ds (i + 1) + 1) % MOD) + 0)) % MOD = countTF ds i true
            unfold countTF
            simp only [if_true]
            rw [hmeq]
            congr 1
            rw [sufVal_succ ds i hilt, hlimi]
            have : ds.length - (i + 1) = ds.length - i - 1 := by omega
            rw [this]
            ring
        refine ⟨r0, assocInsert memo2 (i, tight, s) r0, ?_, hval, ?_⟩
        · simp only [digitDfs, if_neg hin, hget, ← hlim, hrun]
        · intro i2 t2 s2 r2 hget2
          rw [assocGet_insert] at hget2
          by_cases hkey : ((i, tight, s) : Nat × Bool × σ) = (i2, t2, s2)
          · rw [if_pos hkey] at hget2
            injection hget2 with hr2
            injection hkey with hk1 hk2
            injection hk2 with hk2 hk3
            subst hk1; subst hk2
            rw [← hr2]
            exact hval
          · rw [if_neg hkey] at hget2
            exact hg2 i2 t2 s2 r2 hget2

/-- C6: for every decimal numeral `upper` denoting `N` (parsing to digit list
`ds`, first digit nonzero or the single digit 0), and every `DigitDPRules`
implementation whose transition returns `(d, state)` for every digit
`0 ≤ d ≤ lim` and whose acceptance is always true, `DigitDP::solve` returns
`(N + 1) % 1_000_000_007`. -/
theorem C6_digit_dp_count {σ : Type} [DecidableEq σ] (upper : String) (P : DigitDPRules σ)
    (ds : List Nat)
    (htrans : ∀ i tight s lim, P.transition i tight s lim =
      (List.range (lim + 1)).map (fun dg => (dg, s)))
    (hacc : ∀ s, P.isAccept s = true)
    (hparse : parseDigits upper.toList = some ds)
    (hlead : ds = [0] ∨ (ds ≠ [] ∧ ds.headD 0 ≠ 0)) :
    DigitDP.solve upper P = some ((digitsVal ds + 1) % MOD) := by
  clear hlead
  have hempty : GoodMemo ds ([] : DigitMemo σ) := by
    intro i tight s r h
    simp [assocGet] at h
  obtain ⟨r, memo2, hrun, hval, _⟩ :=
    digitDfs_spec P ds htrans hacc (ds.length + 1) 0 true P.init [] hempty
      (by omega) (by omega)
  unfold DigitDP.solve
  rw [hparse]
  show (match digitDfs P ds (ds.length + 1) 0 true P.init [] with
    | none => none
    | some (res, _) => some res) = some ((digitsVal ds + 1) % MOD)
  rw [hrun]
  show some r = some ((digitsVal ds + 1) % MOD)
  rw [hval]
  unfold countTF
  simp [sufVal]

/-- C6 witness: `upper = "99"` with the all-accepting rules gives 100. -/
theorem C6_digit_dp_count_witness : DigitDP.solve "99" allRules = some 100 := by
  have h := C6_digit_dp_count "99" allRules [9, 9] (fun i tight s lim => rfl)
    (fun s => rfl) (by rfl) (Or.inr ⟨by decide, by decide⟩)
  rw [h]
  rfl

end DigitLemmas

/-! ## Lemmas: pull-engine evaluation -/

section PullSolveLemmas

variable {S V C : Type} [DecidableEq S] (R : PullDPRules S V C) (c : C)

theorem childVals_isSome (val : List (S × V)) :
    ∀ (cs : List S), (∀ t ∈ cs, (assocGet val t).isSome) →
      ∃ pairs, childVals val cs = some pairs := by
  intro cs
  induction cs with
  | nil => intro _; exact ⟨[], rfl⟩
  | cons ch cs ih =>
    intro h
    have hch := h ch (List.mem_cons_self _ _)
    cases hget : assocGet val ch with
    | none => rw [hget] at hch; simp at hch
    | some v =>
      obtain ⟨pairs, hp⟩ := ih (fun t ht => h t (List.mem_cons_of_mem _ ht))
      exact ⟨(ch, v) :: pairs, by simp [childVals, hget, hp]⟩

theorem solveStates_run (adj : List (S × List S)) :
    ∀ (ss : List S) (val : List (S × V)),
      (∀ s ∈ ss, ∀ t ∈ (assocGet adj s).getD [], (assocGet val t).isSome) →
      ∃ val2, solveStates R c adj ss val = some val2 ∧
        (∀ x, (assocGet val x).isSome → (assocGet val2 x).isSome) ∧
        (∀ s ∈ ss, (assocGet val2 s).isSome) := by
  intro ss
  induction ss with
  | nil =>
    intro val _
    exact ⟨val, rfl, fun x h => h, fun s h => absurd h (by simp)⟩
  | cons s ss ih =>
    intro val h
    have hmono_ins : ∀ (b : V) (x : S), (assocGet val x).isSome →
        (assocGet (assocInsert val s b) x).isSome := fun b x hx =>
      assocGet_insert_isSome val s b x hx
    cases hbase : R.base c s with
    | some b =>
      obtain ⟨val2, hrun, hmono, hcov⟩ := ih (assocInsert val s b)
        (fun s2 hs2 t ht => hmono_ins b t (h s2 (List.mem_cons_of_mem _ hs2) t ht))
      refine ⟨val2, ?_, ?_, ?_⟩
      · simp only [solveStates, hbase]
        exact hrun
      · intro x hx
        exact hmono x (hmono_ins b x hx)
      · intro s2 hs2
        rcases List.mem_cons.mp hs2 with h2 | h2
        · subst h2
          apply hmono
          rw [assocGet_insert]
          simp
        · exact hcov s2 h2
    | none =>
      obtain ⟨pairs, hpairs⟩ := childVals_isSome val ((assocGet adj s).getD [])
        (h s (List.mem_cons_self _ _))
      set b := R.combine c s pairs with hb
      obtain ⟨val2, hrun, hmono, hcov⟩ := ih (assocInsert val s b)
        (fun s2 hs2 t ht => hmono_ins b t (h s2 (List.mem_cons_of_mem _ hs2) t ht))
      refine ⟨val2, ?_, ?_, ?_⟩
      · simp only [solveStates, hbase, hpairs]
        exact hrun
      · intro x hx
        exact hmono x (hmono_ins b x hx)
      · intro s2 hs2
        rcases List.mem_cons.mp hs2 with h2 | h2
        · subst h2
          apply hmono
          rw [assocGet_insert]
          simp
        · exact hcov s2 h2

theorem solveBuckets_run (adj : List (S × List S)) :
    ∀ (bs : List (List S)) (val : List (S × V)),
      (∀ i, i < bs.length → ∀ s ∈ bs.getD i [], ∀ t ∈ (assocGet adj s).getD [],
        (assocGet val t).isSome ∨ ∃ j, j < i ∧ t ∈ bs.getD j []) →
      ∃ m, solveBuckets R c adj bs val = some m := by
  intro bs
  induction bs with
  | nil => intro val _; exact ⟨val, rfl⟩
  | cons ss bs ih =>
    intro val h
    have h0 : ∀ s ∈ ss, ∀ t ∈ (assocGet adj s).getD [], (assocGet val t).isSome := by
      intro s hs t ht
      rcases h 0 (by simp) s hs t ht with h2 | ⟨j, hj, _⟩
      · exact h2
      · omega
    obtain ⟨val2, hrun, hmono, hcov⟩ := solveStates_run R c adj ss val h0
    have h2 : ∀ i, i < bs.length → ∀ s ∈ bs.getD i [], ∀ t ∈ (assocGet adj s).getD [],
        (assocGet val2 t).isSome ∨ ∃ j, j < i ∧ t ∈ bs.getD j [] := by
      intro i hi s hs t ht
      rcases h (i + 1) (by simpa using hi) s hs t ht with h2 | ⟨j, hj, hjt⟩
      · exact Or.inl (hmono t h2)
      · cases j with
        | zero => exact Or.inl (hcov t hjt)
        | succ j => exact Or.inr ⟨j, by omega, hjt⟩
    obtain ⟨m, hm⟩ := ih val2 h2
    refine ⟨m, ?_⟩
    simp only [solveBuckets, hrun]
    exact hm

end PullSolveLemmas

/-! ## C1 and C4 -/

/-- C1: for every `PullDPRules` implementation and root set such that every
reachable state has `rank(neighbor) < rank(state)` for each of its neighbors,
`solve_with_plan` on the plan produced by `prepare` never reaches the panic
branch "child DP value must exist before parent": every child lookup
succeeds, so the whole evaluation returns a mapping (`some`) instead of
hitting the `none` that models the panic. -/
theorem C1_pull_no_panic {S V C : Type} [DecidableEq S] (R : PullDPRules S V C)
    (c : C) (roots : List S) (fuel : Nat) (plan : Plan S)
    (hrank : ∀ s, PullReach R c roots s → ∀ t ∈ R.neighbors c s, R.rank c t < R.rank c s)
    (hprep : PullDpEngine.prepare R c roots fuel = some plan) :
    ∃ m, PullDpEngine.solveWithPlan R c plan = some m := by
  unfold PullDpEngine.prepare at hprep
  cases haux : PullDpEngine.prepareAux R c roots fuel with
  | none => rw [haux] at hprep; cases hprep
  | some d =>
    rw [haux] at hprep
    have hplan : (⟨d.buckets, d.adj⟩ : Plan S) = plan := Option.some.inj hprep
    subst hplan
    have hinv : PullInv R c roots [] d :=
      pullLoop_inv R c roots fuel roots.reverse _ d (pullDisc_initial R c roots) haux
    obtain ⟨hreach, _, _, hdone, _, hbmem, hbconv⟩ := hinv
    show ∃ m, solveBuckets R c d.adj d.buckets [] = some m
    apply solveBuckets_run R c d.adj d.buckets []
    intro i _ s hs t ht
    obtain ⟨hsseen, hsrank⟩ := hbconv i s hs
    obtain ⟨hadj, hsub⟩ := hdone s hsseen (by simp)
    rw [hadj] at ht
    simp only [Option.getD_some] at ht
    have htlt : R.rank c t < i := hsrank ▸ hrank s (hreach s hsseen) t ht
    have htseen : t ∈ d.seen := hsub t ht
    exact Or.inr ⟨R.rank c t, htlt, hbmem t htseen⟩

/-- C1 witness: on the concrete chain instance (rank strictly decreasing
along every edge), preparing from root 2 and evaluating succeeds. -/
theorem C1_pull_no_panic_witness :
    ∃ m, PullDpEngine.solveWithPlan chainRules ()
      ⟨[[0], [1], [2]], [(2, [1]), (1, [0]), (0, [])]⟩ = some m := by
  apply C1_pull_no_panic chainRules () [2] 5
  · intro s _ t ht
    show chainRules.rank () t < chainRules.rank () s
    by_cases hs : s = 0
    · exfalso
      have : t ∈ ([] : List Nat) := by simpa [chainRules, hs] using ht
      cases this
    · have : t ∈ [s - 1] := by simpa [chainRules, hs] using ht
      rcases List.mem_singleton.mp this with rfl
      show s - 1 < s
      omega
  · rfl

/-- C4 (amended): for every `PullDPRules` implementation and every iterator of
pairwise-distinct root states, discovery calls `neighbors` exactly once per
discovered state: the invocation log has no duplicates and covers exactly the
discovered (seen) states. -/
theorem C4_neighbors_called_once {S V C : Type} [DecidableEq S] (R : PullDPRules S V C)
    (c : C) (roots : List S) (fuel : Nat) (d : PullDisc S)
    (hnd : roots.Nodup)
    (hprep : PullDpEngine.prepareAux R c roots fuel = some d) :
    d.log.Nodup ∧ ∀ s, s ∈ d.log ↔ s ∈ d.seen := by
  have hinv := pullLoop_logInv R c fuel roots.reverse _ d
    (pullLogInv_initial R c roots hnd) hprep
  obtain ⟨hnd2, hiff, _, _⟩ := hinv
  constructor
  · simpa using hnd2
  · intro s
    rw [hiff s]
    simp

/-- C4 witness: from the single root 2 of the chain instance, `neighbors` is
invoked once for each of the three discovered states. -/
theorem C4_neighbors_called_once_witness :
    ([2, 1, 0] : List Nat).Nodup ∧
      ∀ s, s ∈ ([2, 1, 0] : List Nat) ↔ s ∈ ([0, 1, 2] : List Nat) :=
  C4_neighbors_called_once chainRules () [2] 5
    ⟨[0, 1, 2], [[0], [1], [2]], [(2, [1]), (1, [0]), (0, [])], [2, 1, 0]⟩
    (by decide) rfl

/-- C4 counterexample: a root iterator that yields the same root twice.  Only
one state is discovered (`seen = [0]`), but the discovery loop pops the
duplicated stack entry twice and therefore invokes `neighbors` twice on state
0 (`log = [0, 0]`), refuting "exactly once per discovered state" as claimed
for duplicate-yielding root iterators. -/
theorem C4_counterexample :
    (PullDpEngine.prepareAux chainRules () [0, 0] 3).map PullDisc.log = some [0, 0] ∧
      (PullDpEngine.prepareAux chainRules () [0, 0] 3).map PullDisc.seen = some [0] :=
  ⟨rfl, rfl⟩

/-! ## C3 and C10 -/

/-- C3 (amended): for every `PushDPRules` implementation with finite reachable
state set satisfying the rank invariant, the mapping returned by
`PushDpEngine::propagate` contains an entry for every discovered state that
has an `init` value or at least one incoming edge from a discovered state.
(A source whose `init` is `None` and which has no incoming edge receives no
entry; see the counterexample.) -/
theorem C3_propagate_entry_coverage {S V C : Type} [DecidableEq S]
    (R : PushDPRules S V C) (c : C) (sources : List S) (fuel : Nat) (m : List (S × V))
    (hrank : ∀ s, PushReach R c sources s → ∀ t ∈ R.succs c s, R.rank c s < R.rank c t)
    (hfin : ∃ L : List S, ∀ s, PushReach R c sources s → s ∈ L)
    (hrun : PushDpEngine.propagate R c sources fuel = some m) :
    ∀ t, PushReach R c sources t →
      ((R.init c t).isSome ∨ ∃ s, PushReach R c sources s ∧ t ∈ R.succs c s) →
      (assocGet m t).isSome := by
  clear hrank hfin
  intro t hreach hsrc
  unfold PushDpEngine.propagate at hrun
  cases hdisc : pushDiscLoop R c fuel sources.reverse (pushSeed R c sources ⟨[], [], []⟩) with
  | none => rw [hdisc] at hrun; cases hrun
  | some d =>
    rw [hdisc] at hrun
    injection hrun with hm
    subst hm
    have hinv : PushInv R c sources [] d :=
      pushDiscLoop_inv R c sources fuel _ _ d (pushDisc_initial R c sources) hdisc
    have hseen := pushReach_mem_seen R c sources d hinv
    obtain ⟨_, _, _, hdone, hcore⟩ := hinv
    rcases hsrc with hinit | ⟨s, hsreach, hts⟩
    · obtain ⟨vs, hpair, htvs⟩ := seen_mem_bucket_pair hcore (hseen t hreach)
      exact propPass_mono R c d.adj d.buckets _ t
        (initPass_inserts R c d.buckets [] t ⟨(R.rank c t, vs), hpair, htvs⟩ hinit)
    · have hsseen := hseen s hsreach
      obtain ⟨hadj, _⟩ := hdone s hsseen (by simp)
      obtain ⟨vs, hpair, hsvs⟩ := seen_mem_bucket_pair hcore hsseen
      exact propPass_hits R c d.adj d.buckets _ s t (R.succs c s)
        ⟨(R.rank c s, vs), hpair, hsvs⟩ hadj hts

/-- C3 counterexample: take the rules with a single source `0`, no successors
and `init = None` everywhere (the rank invariant holds vacuously and the
reachable set is the finite set containing only the discovered source `0`).
`propagate` returns the empty mapping, so the discovered state `0` has no
entry, contradicting the claim that every discovered state gets one. -/
theorem C3_counterexample :
    PushDpEngine.propagate noInitRules () [0] 1 = some [] ∧
      PushReach noInitRules () [0] 0 ∧
      assocGet ([] : List (Nat × Nat)) 0 = none :=
  ⟨rfl, PushReach.source (List.mem_singleton.mpr rfl), rfl⟩

/-- C3 witness: on the concrete single-edge instance, the state `1` reached
through the edge `0 → 1` has an entry in the returned mapping. -/
theorem C3_propagate_entry_coverage_witness :
    (assocGet [((0 : Nat), (5 : Nat)), (1, 6)] 1).isSome := by
  apply C3_propagate_entry_coverage edgeRules () [0] 2 [(0, 5), (1, 6)]
  · intro s _ t ht
    show edgeRules.rank () s < edgeRules.rank () t
    by_cases hs : s = 0
    · subst hs
      have : t ∈ [1] := by
        simpa [edgeRules] using ht
      rcases List.mem_singleton.mp this with rfl
      decide
    · exfalso
      have : t ∈ ([] : List Nat) := by
        simpa [edgeRules, hs] using ht
      cases this
  · refine ⟨[0, 1], ?_⟩
    intro s hs
    induction hs with
    | source h =>
      rcases List.mem_singleton.mp h with rfl
      simp
    | step hr hmem ih =>
      rename_i s0 t0
      rcases List.mem_cons.mp ih with h | h
      · subst h
        have : t0 ∈ [1] := by simpa [edgeRules] using hmem
        rcases List.mem_singleton.mp this with rfl
        simp
      · rcases List.mem_singleton.mp h with rfl
        exfalso
        have : t0 ∈ ([] : List Nat) := by simpa [edgeRules] using hmem
        cases this
  · rfl
  · exact PushReach.step (PushReach.source (List.mem_singleton.mpr rfl))
      (by simp [edgeRules])
  · exact Or.inr ⟨0, PushReach.source (List.mem_singleton.mpr rfl), by simp [edgeRules]⟩

/-- C10: for every `PushDPRules` implementation and every iterator of source
states, `PushDpEngineEnhanced::propagate` returns exactly the same
state-to-value mapping as `PushDpEngine::propagate`: the two engine bodies
are textually identical in the source, and their embeddings are the same
function. -/
theorem C10_enhanced_equals_basic {S V C : Type} [DecidableEq S]
    (R : PushDPRules S V C) (c : C) (sources : List S) (fuel : Nat) :
    PushDpEngineEnhanced.propagate R c sources fuel =
      PushDpEngine.propagate R c sources fuel := rfl

/-! ## Lemmas: push-engine order invariance (C2) -/

section OrderInvLemmas

variable {S V C : Type} [DecidableEq S]

theorem foldl_perm_of_comm (op2 : V → V → V)
    (hassoc : ∀ a b d, op2 (op2 a b) d = op2 a (op2 b d))
    (hcomm : ∀ a b, op2 a b = op2 b a)
    {l₁ l₂ : List V} (hp : List.Perm l₁ l₂) :
    ∀ b, l₁.foldl op2 b = l₂.foldl op2 b := by
  induction hp with
  | nil => intro b; rfl
  | cons x _ ih =>
    intro b
    simp only [List.foldl_cons]
    exact ih (op2 b x)
  | swap x y l =>
    intro b
    simp only [List.foldl_cons]
    have : op2 (op2 b y) x = op2 (op2 b x) y := by
      rw [hassoc, hassoc, hcomm y x]
    rw [this]
  | trans _ _ ih₁ ih₂ =>
    intro b
    rw [ih₁ b, ih₂ b]

theorem foldInto_some (idv : V) (op2 : V → V → V) (incs : List V) (y : V) :
    foldInto idv op2 incs (some y) = some (incs.foldl op2 y) := by
  cases incs with
  | nil => rfl
  | cons a l => rfl

theorem foldInto_perm (idv : V) (op2 : V → V → V)
    (hassoc : ∀ a b d, op2 (op2 a b) d = op2 a (op2 b d))
    (hcomm : ∀ a b, op2 a b = op2 b a)
    {incs₁ incs₂ : List V} (hp : List.Perm incs₁ incs₂) (cur : Option V) :
    foldInto idv op2 incs₁ cur = foldInto idv op2 incs₂ cur := by
  cases incs₁ with
  | nil =>
    have : incs₂ = [] := hp.nil_eq.symm
    rw [this]
  | cons a l =>
    cases h2 : incs₂ with
    | nil =>
      subst h2
      exact absurd hp.symm.nil_eq (by simp)
    | cons b l2 =>
      show some ((a :: l).foldl op2 (cur.getD idv)) = some ((b :: l2).foldl op2 (cur.getD idv))
      rw [foldl_perm_of_comm op2 hassoc hcomm (h2 ▸ hp) (cur.getD idv)]

theorem foldInto_append (idv : V) (op2 : V → V → V) (i₁ i₂ : List V) (cur : Option V) :
    foldInto idv op2 (i₁ ++ i₂) cur = foldInto idv op2 i₂ (foldInto idv op2 i₁ cur) := by
  cases i₁ with
  | nil => simp [foldInto]
  | cons a l =>
    rw [show foldInto idv op2 (a :: l) cur = some ((a :: l).foldl op2 (cur.getD idv)) from rfl]
    rw [foldInto_some]
    show some (((a :: l) ++ i₂).foldl op2 (cur.getD idv)) = _
    rw [List.foldl_append]

theorem incsOf_nil_of_not_mem {R : PushDPRules S V C} {c : C} {s : S} {vs : V}
    {ts : List S} {x : S} (hx : x ∉ ts) : incsOf R c s vs ts x = [] := by
  unfold incsOf
  rw [List.filterMap_eq_nil_iff]
  intro t ht
  rw [if_neg]
  intro he
  exact hx (he ▸ ht)

theorem pushEdges_get (R : PushDPRules S V C) (c : C) (s : S) (vs : V) :
    ∀ (ts : List S) (val : List (S × V)) (x : S),
      assocGet (pushEdges R c s vs ts val) x =
        foldInto (R.identity c) (R.op c) (incsOf R c s vs ts x) (assocGet val x) := by
  intro ts
  induction ts with
  | nil => intro val x; rfl
  | cons t ts ih =>
    intro val x
    simp only [pushEdges]
    by_cases htx : t = x
    · subst htx
      rw [ih _ t]
      have hget : assocGet (assocInsert val t
          (R.op c ((assocGet val t).getD (R.identity c)) (R.trans c s t vs))) t =
          some (R.op c ((assocGet val t).getD (R.identity c)) (R.trans c s t vs)) := by
        rw [assocGet_insert, if_pos rfl]
      rw [hget]
      have hincs : incsOf R c s vs (t :: ts) t =
          R.trans c s t vs :: incsOf R c s vs ts t := by
        unfold incsOf
        rw [List.filterMap_cons]
        simp
      rw [hincs, foldInto_some]
      show some ((incsOf R c s vs ts t).foldl (R.op c)
          (R.op c ((assocGet val t).getD (R.identity c)) (R.trans c s t vs))) = _
      cases hi : incsOf R c s vs ts t with
      | nil => rfl
      | cons a l => rfl
    · rw [ih _ x]
      have hget : assocGet (assocInsert val t
          (R.op c ((assocGet val t).getD (R.identity c)) (R.trans c s t vs))) x =
          assocGet val x := by
        rw [assocGet_insert, if_neg htx]
      rw [hget]
      have hincs : incsOf R c s vs (t :: ts) x = incsOf R c s vs ts x := by
        unfold incsOf
        rw [List.filterMap_cons]
        simp [htx]
      rw [hincs]

theorem pushEdges_get_not_mem (R : PushDPRules S V C) (c : C) (s : S) (vs : V)
    (ts : List S) (val : List (S × V)) (x : S) (hx : x ∉ ts) :
    assocGet (pushEdges R c s vs ts val) x = assocGet val x := by
  rw [pushEdges_get, incsOf_nil_of_not_mem hx]
  rfl

theorem flatMap_congr_mem {α β : Type} {l : List α} {f g : α → List β}
    (h : ∀ a ∈ l, f a = g a) : l.flatMap f = l.flatMap g := by
  induction l with
  | nil => rfl
  | cons a l ih =>
    simp only [List.flatMap_cons]
    rw [h a (List.mem_cons_self _ _), ih (fun a ha => h a (List.mem_cons_of_mem _ ha))]

theorem propBucket_get (R : PushDPRules S V C) (c : C) (adj : List (S × List S)) :
    ∀ (ss : List S) (val : List (S × V)),
      (∀ s2 ∈ ss, ∀ t ∈ (assocGet adj s2).getD [], t ∉ ss) →
      ∀ x, assocGet (propBucket R c adj ss val) x =
        foldInto (R.identity c) (R.op c)
          (ss.flatMap (fun s2 => incsOf R c s2 ((assocGet val s2).getD (R.identity c))
            ((assocGet adj s2).getD []) x))
          (assocGet val x) := by
  intro ss
  induction ss with
  | nil => intro val _ x; rfl
  | cons s ss ih =>
    intro val hside x
    have hstep : propBucket R c adj (s :: ss) val = propBucket R c adj ss
        (pushEdges R c s ((assocGet val s).getD (R.identity c))
          ((assocGet adj s).getD []) val) := by
      simp only [propBucket]
      cases hadj : assocGet adj s with
      | some ns => rfl
      | none => rfl
    rw [hstep]
    set vs := (assocGet val s).getD (R.identity c) with hvs
    set ns := (assocGet adj s).getD [] with hns
    set val2 := pushEdges R c s vs ns val with hval2
    have hnotss : ∀ s2 ∈ ss, s2 ∉ ns := by
      intro s2 hs2 hmem
      exact hside s (List.mem_cons_self _ _) s2 hmem (List.mem_cons_of_mem _ hs2)
    have hside2 : ∀ s2 ∈ ss, ∀ t ∈ (assocGet adj s2).getD [], t ∉ ss := by
      intro s2 hs2 t ht hmem
      exact hside s2 (List.mem_cons_of_mem _ hs2) t ht (List.mem_cons_of_mem _ hmem)
    rw [ih val2 hside2 x]
    have hcongr : ss.flatMap (fun s2 => incsOf R c s2
        ((assocGet val2 s2).getD (R.identity c)) ((assocGet adj s2).getD []) x) =
        ss.flatMap (fun s2 => incsOf R c s2
          ((assocGet val s2).getD (R.identity c)) ((assocGet adj s2).getD []) x) := by
      apply flatMap_congr_mem
      intro s2 hs2
      rw [hval2, pushEdges_get_not_mem R c s vs ns val s2 (hnotss s2 hs2)]
    rw [hcongr]
    have hv2x : assocGet val2 x =
        foldInto (R.identity c) (R.op c) (incsOf R c s vs ns x) (assocGet val x) :=
      pushEdges_get R c s vs ns val x
    rw [hv2x, ← foldInto_append]
    rw [show (s :: ss).flatMap (fun s2 => incsOf R c s2
        ((assocGet val s2).getD (R.identity c)) ((assocGet adj s2).getD []) x) =
      incsOf R c s vs ns x ++ ss.flatMap (fun s2 => incsOf R c s2
        ((assocGet val s2).getD (R.identity c)) ((assocGet adj s2).getD []) x) from by
      rw [List.flatMap_cons]]

theorem initBucket_get (R : PushDPRules S V C) (c : C) :
    ∀ (ss : List S) (val : List (S × V)) (x : S),
      assocGet (initBucket R c ss val) x =
        match R.init c x with
        | some v => if x ∈ ss then some v else assocGet val x
        | none => assocGet val x := by
  intro ss
  induction ss with
  | nil =>
    intro val x
    cases hix : R.init c x with
    | some v => rfl
    | none => rfl
  | cons s ss ih =>
    intro val x
    by_cases hxs : x = s
    · subst hxs
      cases hix : R.init c x with
      | some v =>
        simp only [initBucket, hix]
        rw [ih _ x]
        simp only [hix]
        rw [if_pos (List.mem_cons_self _ _)]
        by_cases hxss : x ∈ ss
        · rw [if_pos hxss]
        · rw [if_neg hxss, assocGet_insert, if_pos rfl]
      | none =>
        simp only [initBucket, hix]
        rw [ih _ x]
        simp only [hix]
    · cases his : R.init c s with
      | some v =>
        simp only [initBucket, his]
        rw [ih _ x]
        cases hix : R.init c x with
        | some w =>
          simp only [hix]
          by_cases hxss : x ∈ ss
          · rw [if_pos hxss, if_pos (List.mem_cons_of_mem _ hxss)]
          · have hxcons : x ∉ s :: ss := by
              intro h
              rcases List.mem_cons.mp h with h | h
              · exact hxs h
              · exact hxss h
            rw [if_neg hxss, if_neg hxcons, assocGet_insert,
              if_neg (fun h : s = x => hxs h.symm)]
        | none =>
          simp only [hix]
          rw [assocGet_insert, if_neg (fun h : s = x => hxs h.symm)]
      | none =>
        simp only [initBucket, his]
        rw [ih _ x]
        cases hix : R.init c x with
        | some w =>
          simp only [hix]
          by_cases hxss : x ∈ ss
          · rw [if_pos hxss, if_pos (List.mem_cons_of_mem _ hxss)]
          · have hxcons : x ∉ s :: ss := by
              intro h
              rcases List.mem_cons.mp h with h | h
              · exact hxs h
              · exact hxss h
            rw [if_neg hxss, if_neg hxcons]
        | none => simp only [hix]

theorem foldInto_congr (idv : V) (op2 op1 : V → V → V)
    (hop : ∀ a b, op2 a b = op1 a b) (l : List V) (cur : Option V) :
    foldInto idv op2 l cur = foldInto idv op1 l cur := by
  have hfun : op2 = op1 := funext fun a => funext fun b => hop a b
  rw [hfun]

theorem incsOf_congr (R₂ R₁ : PushDPRules S V C) (c : C) (s : S) (vs : V)
    (ts : List S) (x : S)
    (htr : ∀ t, R₂.trans c s t vs = R₁.trans c s t vs) :
    incsOf R₂ c s vs ts x = incsOf R₁ c s vs ts x := by
  unfold incsOf
  induction ts with
  | nil => rfl
  | cons t ts ih =>
    rw [List.filterMap_cons, List.filterMap_cons, ih, htr t]

theorem pushReach_iff (R₂ R₁ : PushDPRules S V C) (c : C) (sources : List S)
    (hsucc2 : ∀ s, List.Perm (R₂.succs c s) (R₁.succs c s)) :
    ∀ s, PushReach R₂ c sources s ↔ PushReach R₁ c sources s := by
  intro s
  constructor
  · intro h
    induction h with
    | source h => exact PushReach.source h
    | step _ hmem ih => exact PushReach.step ih ((hsucc2 _).mem_iff.mp hmem)
  · intro h
    induction h with
    | source h => exact PushReach.source h
    | step _ hmem ih => exact PushReach.step ih ((hsucc2 _).mem_iff.mpr hmem)

theorem mem_keys_iff_btGet_ne (b : List (Nat × List S))
    (hne : ∀ p ∈ b, p.2 ≠ []) (k : Nat) :
    k ∈ b.map Prod.fst ↔ btGet b k ≠ [] := by
  induction b with
  | nil => simp [btGet]
  | cons p rest ih =>
    obtain ⟨pk, pvs⟩ := p
    by_cases hk : pk = k
    · subst hk
      simp only [btGet, if_pos rfl, List.map_cons, List.mem_cons]
      constructor
      · intro _; exact hne (pk, pvs) (by simp)
      · intro _; exact Or.inl trivial
    · simp only [btGet, if_neg hk, List.map_cons, List.mem_cons]
      rw [← ih (fun q hq => hne q (List.mem_cons_of_mem _ hq))]
      constructor
      · rintro (h | h)
        · exact absurd h.symm hk
        · exact h
      · intro h; exact Or.inr h

theorem buckets_forall₂ :
    ∀ (b₁ b₂ : List (Nat × List S)),
      (b₁.map Prod.fst).Sorted (· < ·) → (b₂.map Prod.fst).Sorted (· < ·) →
      b₁.map Prod.fst = b₂.map Prod.fst →
      (∀ r, List.Perm (btGet b₁ r) (btGet b₂ r)) →
      List.Forall₂ (fun p q => p.1 = q.1 ∧ List.Perm p.2 q.2) b₁ b₂ := by
  intro b₁
  induction b₁ with
  | nil =>
    intro b₂ _ _ hkeys _
    cases b₂ with
    | nil => exact List.Forall₂.nil
    | cons q r₂ => simp at hkeys
  | cons p r₁ ih =>
    intro b₂ hs₁ hs₂ hkeys hperm
    obtain ⟨pk, pvs⟩ := p
    cases b₂ with
    | nil => simp at hkeys
    | cons q r₂ =>
      obtain ⟨qk, qvs⟩ := q
      simp only [List.map_cons, List.cons.injEq] at hkeys
      obtain ⟨hkk, hkeys2⟩ := hkeys
      subst hkk
      simp only [List.map_cons, List.sorted_cons] at hs₁ hs₂
      obtain ⟨hall₁, hr₁⟩ := hs₁
      obtain ⟨hall₂, hr₂⟩ := hs₂
      have hvperm : List.Perm pvs qvs := by
        have h1 : btGet ((pk, pvs) :: r₁) pk = pvs := by simp [btGet]
        have h2 : btGet ((pk, qvs) :: r₂) pk = qvs := by simp [btGet]
        have := hperm pk
        rw [h1, h2] at this
        exact this
      refine List.Forall₂.cons ⟨rfl, hvperm⟩ ?_
      apply ih r₂ hr₁ hr₂ hkeys2
      intro r
      by_cases hr : pk = r
      · subst hr
        have h1 : btGet r₁ pk = [] := by
          apply btGet_not_mem
          intro hmem
          have := hall₁ pk hmem
          omega
        have h2 : btGet r₂ pk = [] := by
          apply btGet_not_mem
          intro hmem
          rw [← hkeys2] at hmem
          have := hall₁ pk hmem
          omega
        rw [h1, h2]
      · have h1 : btGet ((pk, pvs) :: r₁) r = btGet r₁ r := by
          simp [btGet, hr]
        have h2 : btGet ((pk, qvs) :: r₂) r = btGet r₂ r := by
          simp [btGet, hr]
        have := hperm r
        rw [h1, h2] at this
        exact this

theorem valEq_initBucket (R₂ R₁ : PushDPRules S V C) (c : C)
    (hinit2 : ∀ s, R₂.init c s = R₁.init c s)
    (ss₁ ss₂ : List S) (hm : ∀ x, x ∈ ss₁ ↔ x ∈ ss₂)
    (val₁ val₂ : List (S × V)) (hval : ∀ x, assocGet val₁ x = assocGet val₂ x) :
    ∀ x, assocGet (initBucket R₁ c ss₁ val₁) x = assocGet (initBucket R₂ c ss₂ val₂) x := by
  intro x
  rw [initBucket_get, initBucket_get, hinit2 x]
  split
  · by_cases hxs : x ∈ ss₁
    · rw [if_pos hxs, if_pos ((hm x).mp hxs)]
    · rw [if_neg hxs, if_neg (fun h => hxs ((hm x).mpr h))]
      exact hval x
  · exact hval x

theorem valEq_initPass (R₂ R₁ : PushDPRules S V C) (c : C)
    (hinit2 : ∀ s, R₂.init c s = R₁.init c s) :
    ∀ (b₁ b₂ : List (Nat × List S)),
      List.Forall₂ (fun p q => p.1 = q.1 ∧ List.Perm p.2 q.2) b₁ b₂ →
      ∀ (val₁ val₂ : List (S × V)), (∀ x, assocGet val₁ x = assocGet val₂ x) →
      ∀ x, assocGet (initPass R₁ c b₁ val₁) x = assocGet (initPass R₂ c b₂ val₂) x := by
  intro b₁ b₂ hf
  induction hf with
  | nil => intro val₁ val₂ hval x; exact hval x
  | @cons p q b₁ b₂ hpq htail ih =>
    intro val₁ val₂ hval x
    obtain ⟨r₁c, ss₁⟩ := p
    obtain ⟨r₂c, ss₂⟩ := q
    exact ih _ _ (valEq_initBucket R₂ R₁ c hinit2 ss₁ ss₂
      (fun y => hpq.2.mem_iff) val₁ val₂ hval) x

theorem valEq_propBucket (R₂ R₁ : PushDPRules S V C) (c : C)
    (adj₁ adj₂ : List (S × List S))
    (hid2 : R₂.identity c = R₁.identity c)
    (hop2 : ∀ a b, R₂.op c a b = R₁.op c a b)
    (htrans2 : ∀ s t v, R₂.trans c s t v = R₁.trans c s t v)
    (hassoc : ∀ a b d, R₁.op c (R₁.op c a b) d = R₁.op c a (R₁.op c b d))
    (hcomm : ∀ a b, R₁.op c a b = R₁.op c b a)
    (hsucc2 : ∀ s, List.Perm (R₂.succs c s) (R₁.succs c s))
    (ss₁ ss₂ : List S) (hssperm : List.Perm ss₁ ss₂)
    (hadj₁ : ∀ s ∈ ss₁, assocGet adj₁ s = some (R₁.succs c s))
    (hadj₂ : ∀ s ∈ ss₂, assocGet adj₂ s = some (R₂.succs c s))
    (hside₁ : ∀ s2 ∈ ss₁, ∀ t ∈ (assocGet adj₁ s2).getD [], t ∉ ss₁)
    (hside₂ : ∀ s2 ∈ ss₂, ∀ t ∈ (assocGet adj₂ s2).getD [], t ∉ ss₂)
    (val₁ val₂ : List (S × V)) (hval : ∀ x, assocGet val₁ x = assocGet val₂ x) :
    ∀ x, assocGet (propBucket R₁ c adj₁ ss₁ val₁) x =
      assocGet (propBucket R₂ c adj₂ ss₂ val₂) x := by
  intro x
  rw [propBucket_get R₁ c adj₁ ss₁ val₁ hside₁ x,
    propBucket_get R₂ c adj₂ ss₂ val₂ hside₂ x]
  rw [← hval x]
  rw [foldInto_congr (R₂.identity c) (R₂.op c) (R₁.op c) hop2, hid2]
  apply foldInto_perm (R₁.identity c) (R₁.op c) hassoc hcomm
  -- the two contribution multisets are permutations of each other
  have hstep : ∀ s2 ∈ ss₂,
      List.Perm
        (incsOf R₂ c s2 ((assocGet val₂ s2).getD (R₁.identity c))
          ((assocGet adj₂ s2).getD []) x)
        (incsOf R₁ c s2 ((assocGet val₁ s2).getD (R₁.identity c))
          ((assocGet adj₁ s2).getD []) x) := by
    intro s2 hs2
    have hs2' : s2 ∈ ss₁ := hssperm.mem_iff.mpr hs2
    rw [hadj₂ s2 hs2, hadj₁ s2 hs2']
    simp only [Option.getD_some]
    rw [hval s2]
    set vs := (assocGet val₂ s2).getD (R₁.identity c) with hvs
    rw [incsOf_congr R₂ R₁ c s2 vs _ x (fun t => htrans2 s2 t vs)]
    unfold incsOf
    exact List.Perm.filterMap _ (hsucc2 s2)
  refine List.Perm.trans (hssperm.flatMap_right _) ?_
  exact List.Perm.flatMap_left _ (fun s2 hs2 => (hstep s2 hs2).symm)

theorem valEq_propPass (R₂ R₁ : PushDPRules S V C) (c : C)
    (adj₁ adj₂ : List (S × List S))
    (hid2 : R₂.identity c = R₁.identity c)
    (hop2 : ∀ a b, R₂.op c a b = R₁.op c a b)
    (htrans2 : ∀ s t v, R₂.trans c s t v = R₁.trans c s t v)
    (hassoc : ∀ a b d, R₁.op c (R₁.op c a b) d = R₁.op c a (R₁.op c b d))
    (hcomm : ∀ a b, R₁.op c a b = R₁.op c b a)
    (hsucc2 : ∀ s, List.Perm (R₂.succs c s) (R₁.succs c s)) :
    ∀ (b₁ b₂ : List (Nat × List S)),
      List.Forall₂ (fun p q => p.1 = q.1 ∧ List.Perm p.2 q.2) b₁ b₂ →
      (∀ p ∈ b₁, ∀ s ∈ p.2, assocGet adj₁ s = some (R₁.succs c s) ∧
        R₁.rank c s = p.1 ∧ ∀ t ∈ R₁.succs c s, p.1 < R₁.rank c t) →
      (∀ p ∈ b₂, ∀ s ∈ p.2, assocGet adj₂ s = some (R₂.succs c s) ∧
        R₁.rank c s = p.1) →
      ∀ (val₁ val₂ : List (S × V)), (∀ x, assocGet val₁ x = assocGet val₂ x) →
      ∀ x, assocGet (propPass R₁ c adj₁ b₁ val₁) x =
        assocGet (propPass R₂ c adj₂ b₂ val₂) x := by
  intro b₁ b₂ hf
  induction hf with
  | nil => intro _ _ val₁ val₂ hval x; exact hval x
  | @cons p q b₁ b₂ hpq htail ih =>
    intro hfacts₁ hfacts₂ val₁ val₂ hval x
    obtain ⟨rk₁, ss₁⟩ := p
    obtain ⟨rk₂, ss₂⟩ := q
    obtain ⟨hkk, hssperm⟩ := hpq
    have hkk2 : rk₁ = rk₂ := hkk
    subst hkk2
    have hf₁ := hfacts₁ (rk₁, ss₁) (List.mem_cons_self _ _)
    have hf₂ := hfacts₂ (rk₁, ss₂) (List.mem_cons_self _ _)
    have hadj₁ : ∀ s ∈ ss₁, assocGet adj₁ s = some (R₁.succs c s) :=
      fun s hs => (hf₁ s hs).1
    have hadj₂ : ∀ s ∈ ss₂, assocGet adj₂ s = some (R₂.succs c s) :=
      fun s hs => (hf₂ s hs).1
    have hside₁ : ∀ s2 ∈ ss₁, ∀ t ∈ (assocGet adj₁ s2).getD [], t ∉ ss₁ := by
      intro s2 hs2 t ht hmem
      rw [hadj₁ s2 hs2] at ht
      simp only [Option.getD_some] at ht
      have hlt := (hf₁ s2 hs2).2.2 t ht
      have := (hf₁ t hmem).2.1
      omega
    have hside₂ : ∀ s2 ∈ ss₂, ∀ t ∈ (assocGet adj₂ s2).getD [], t ∉ ss₂ := by
      intro s2 hs2 t ht hmem
      rw [hadj₂ s2 hs2] at ht
      simp only [Option.getD_some] at ht
      have ht1 : t ∈ R₁.succs c s2 := (hsucc2 s2).mem_iff.mp ht
      have hs2' : s2 ∈ ss₁ := hssperm.mem_iff.mpr hs2
      have hlt := (hf₁ s2 hs2').2.2 t ht1
      have := (hf₂ t hmem).2
      omega
    apply ih
    · intro p hp s hs
      exact hfacts₁ p (List.mem_cons_of_mem _ hp) s hs
    · intro p hp s hs
      exact hfacts₂ p (List.mem_cons_of_mem _ hp) s hs
    · exact valEq_propBucket R₂ R₁ c adj₁ adj₂ hid2 hop2 htrans2 hassoc hcomm hsucc2
        ss₁ ss₂ hssperm hadj₁ hadj₂ hside₁ hside₂ val₁ val₂ hval

theorem disc_compare (R₂ R₁ : PushDPRules S V C) (c : C) (sources : List S)
    (hrank2 : ∀ s, R₂.rank c s = R₁.rank c s)
    (hsucc2 : ∀ s, List.Perm (R₂.succs c s) (R₁.succs c s))
    (d₁ d₂ : PushDisc S)
    (h₁ : PushInv R₁ c sources [] d₁) (h₂ : PushInv R₂ c sources [] d₂) :
    List.Forall₂ (fun p q => p.1 = q.1 ∧ List.Perm p.2 q.2) d₁.buckets d₂.buckets := by
  obtain ⟨hnd₁, hperm₁, hsort₁, hne₁⟩ := h₁.2.2.2.2
  obtain ⟨hnd₂, hperm₂, hsort₂, hne₂⟩ := h₂.2.2.2.2
  have hseeniff : ∀ x, x ∈ d₁.seen ↔ x ∈ d₂.seen := by
    intro x
    constructor
    · intro hx
      exact pushReach_mem_seen R₂ c sources d₂ h₂ x
        ((pushReach_iff R₂ R₁ c sources hsucc2 x).mpr (h₁.1 x hx))
    · intro hx
      exact pushReach_mem_seen R₁ c sources d₁ h₁ x
        ((pushReach_iff R₂ R₁ c sources hsucc2 x).mp (h₂.1 x hx))
  have hseenperm : List.Perm d₁.seen d₂.seen :=
    (List.perm_ext_iff_of_nodup hnd₁ hnd₂).mpr hseeniff
  have hbg : ∀ r, List.Perm (btGet d₁.buckets r) (btGet d₂.buckets r) := by
    intro r
    have hfe : List.filter (fun s => decide (R₂.rank c s = r)) d₂.seen
        = List.filter (fun s => decide (R₁.rank c s = r)) d₂.seen := by
      apply List.filter_congr
      intro x _
      rw [hrank2 x]
    refine (hperm₁ r).trans (List.Perm.trans ?_ (hperm₂ r).symm)
    rw [hfe]
    exact hseenperm.filter _
  have hkeys : d₁.buckets.map Prod.fst = d₂.buckets.map Prod.fst := by
    haveI : IsAntisymm Nat (· < ·) := ⟨fun a b h1 h2 => absurd h2 (Nat.lt_asymm h1)⟩
    refine List.eq_of_perm_of_sorted ?_ hsort₁ hsort₂
    refine (List.perm_ext_iff_of_nodup hsort₁.nodup hsort₂.nodup).mpr ?_
    intro k
    rw [mem_keys_iff_btGet_ne _ hne₁ k, mem_keys_iff_btGet_ne _ hne₂ k]
    have hnil : btGet d₁.buckets k = [] ↔ btGet d₂.buckets k = [] := by
      constructor
      · intro h0
        exact (h0 ▸ hbg k).nil_eq.symm
      · intro h0
        exact (h0 ▸ (hbg k).symm).nil_eq.symm
    exact not_congr hnil
  exact buckets_forall₂ d₁.buckets d₂.buckets hsort₁ hsort₂ hkeys hbg

/-- C2: for every `PushDPRules` implementation whose `op` is associative and
commutative with `identity()` as identity element, whose rank strictly
increases along every discovered edge, and whose reachable state set is
finite, two completing runs of `PushDpEngine::propagate` in which `succs`
returns the same successor sets in possibly different orders (and all other
rule methods agree) produce the same mapping: every state receives the same
optional value in both results. -/
theorem C2_propagate_order_invariant {S V C : Type} [DecidableEq S]
    (R₁ R₂ : PushDPRules S V C) (c : C) (sources : List S)
    (hrank2 : ∀ s, R₂.rank c s = R₁.rank c s)
    (hsucc2 : ∀ s, List.Perm (R₂.succs c s) (R₁.succs c s))
    (hid2 : R₂.identity c = R₁.identity c)
    (hop2 : ∀ a b, R₂.op c a b = R₁.op c a b)
    (hinit2 : ∀ s, R₂.init c s = R₁.init c s)
    (htrans2 : ∀ s t v, R₂.trans c s t v = R₁.trans c s t v)
    (hassoc : ∀ a b d, R₁.op c (R₁.op c a b) d = R₁.op c a (R₁.op c b d))
    (hcomm : ∀ a b, R₁.op c a b = R₁.op c b a)
    (hident : ∀ a, R₁.op c (R₁.identity c) a = a ∧ R₁.op c a (R₁.identity c) = a)
    (hrank : ∀ s, PushReach R₁ c sources s → ∀ t ∈ R₁.succs c s, R₁.rank c s < R₁.rank c t)
    (hfin : ∃ L : List S, ∀ s, PushReach R₁ c sources s → s ∈ L)
    (fuel₁ fuel₂ : Nat) (m₁ m₂ : List (S × V))
    (hrun₁ : PushDpEngine.propagate R₁ c sources fuel₁ = some m₁)
    (hrun₂ : PushDpEngine.propagate R₂ c sources fuel₂ = some m₂) :
    ∀ x, assocGet m₁ x = assocGet m₂ x := by
  clear hident hfin
  unfold PushDpEngine.propagate at hrun₁ hrun₂
  cases hdisc₁ : pushDiscLoop R₁ c fuel₁ sources.reverse
      (pushSeed R₁ c sources ⟨[], [], []⟩) with
  | none => rw [hdisc₁] at hrun₁; cases hrun₁
  | some d₁ =>
    rw [hdisc₁] at hrun₁
    injection hrun₁ with hm₁
    cases hdisc₂ : pushDiscLoop R₂ c fuel₂ sources.reverse
        (pushSeed R₂ c sources ⟨[], [], []⟩) with
    | none => rw [hdisc₂] at hrun₂; cases hrun₂
    | some d₂ =>
      rw [hdisc₂] at hrun₂
      injection hrun₂ with hm₂
      subst hm₁
      subst hm₂
      have h₁ : PushInv R₁ c sources [] d₁ :=
        pushDiscLoop_inv R₁ c sources fuel₁ _ _ d₁ (pushDisc_initial R₁ c sources) hdisc₁
      have h₂ : PushInv R₂ c sources [] d₂ :=
        pushDiscLoop_inv R₂ c sources fuel₂ _ _ d₂ (pushDisc_initial R₂ c sources) hdisc₂
      have hforall := disc_compare R₂ R₁ c sources hrank2 hsucc2 d₁ d₂ h₁ h₂
      obtain ⟨hnd₁, hperm₁, hsort₁, hne₁⟩ := h₁.2.2.2.2
      obtain ⟨hnd₂, hperm₂, hsort₂, hne₂⟩ := h₂.2.2.2.2
      have hfacts₁ : ∀ p ∈ d₁.buckets, ∀ s ∈ p.2,
          assocGet d₁.adj s = some (R₁.succs c s) ∧ R₁.rank c s = p.1 ∧
            ∀ t ∈ R₁.succs c s, p.1 < R₁.rank c t := by
        intro p hp s hs
        obtain ⟨pk, vs⟩ := p
        have hbt : btGet d₁.buckets pk = vs := btGet_of_mem_pair hsort₁ hp
        have hsf : s ∈ List.filter (fun s => decide (R₁.rank c s = pk)) d₁.seen :=
          (hperm₁ pk).mem_iff.mp (hbt ▸ hs)
        have hsseen : s ∈ d₁.seen := List.mem_of_mem_filter hsf
        have hrk : R₁.rank c s = pk := by simpa using List.of_mem_filter hsf
        refine ⟨(h₁.2.2.2.1 s hsseen (by simp)).1, hrk, ?_⟩
        intro t ht
        have := hrank s (h₁.1 s hsseen) t ht
        omega
      have hfacts₂ : ∀ p ∈ d₂.buckets, ∀ s ∈ p.2,
          assocGet d₂.adj s = some (R₂.succs c s) ∧ R₁.rank c s = p.1 := by
        intro p hp s hs
        obtain ⟨pk, vs⟩ := p
        have hbt : btGet d₂.buckets pk = vs := btGet_of_mem_pair hsort₂ hp
        have hsf : s ∈ List.filter (fun s => decide (R₂.rank c s = pk)) d₂.seen :=
          (hperm₂ pk).mem_iff.mp (hbt ▸ hs)
        have hsseen : s ∈ d₂.seen := List.mem_of_mem_filter hsf
        have hrk : R₂.rank c s = pk := by simpa using List.of_mem_filter hsf
        refine ⟨(h₂.2.2.2.1 s hsseen (by simp)).1, ?_⟩
        rw [← hrank2 s]
        exact hrk
      have hvalinit := valEq_initPass R₂ R₁ c hinit2 d₁.buckets d₂.buckets hforall
        [] [] (fun _ => rfl)
      exact valEq_propPass R₂ R₁ c d₁.adj d₂.adj hid2 hop2 htrans2 hassoc hcomm hsucc2
        d₁.buckets d₂.buckets hforall hfacts₁ hfacts₂ _ _ hvalinit

/-- C2 witness: on the DAG `0 → \x7b1, 2\x7d, 1 → 2` with counting semantics, the
run with ascending successor lists and the run with the successors of `0`
reversed complete and agree on state `2` (both runs count the two paths from
`0` to `2`), even though the returned association lists differ in order. -/
theorem C2_propagate_order_invariant_witness :
    PushDpEngine.propagate permRulesA () [0] 5 = some [(0, 1), (1, 1), (2, 2)] ∧
    PushDpEngine.propagate permRulesB () [0] 5 = some [(0, 1), (2, 2), (1, 1)] ∧
    assocGet [((0 : Nat), (1 : Nat)), (1, 1), (2, 2)] 2 =
      assocGet [((0 : Nat), (1 : Nat)), (2, 2), (1, 1)] 2 := by
  refine ⟨rfl, rfl, ?_⟩
  have hA : PushDpEngine.propagate permRulesA () [0] 5 =
      some [(0, 1), (1, 1), (2, 2)] := rfl
  have hB : PushDpEngine.propagate permRulesB () [0] 5 =
      some [(0, 1), (2, 2), (1, 1)] := rfl
  apply C2_propagate_order_invariant permRulesA permRulesB () [0]
    (fun s => rfl) ?_ rfl (fun a b => rfl) (fun s => rfl) (fun s t v => rfl)
    (fun a b d => Nat.add_assoc a b d) (fun a b => Nat.add_comm a b)
    (fun a => ⟨Nat.zero_add a, Nat.add_zero a⟩) ?_ ?_ 5 5
    [(0, 1), (1, 1), (2, 2)] [(0, 1), (2, 2), (1, 1)] hA hB
  · intro s
    match s with
    | 0 => decide
    | 1 => exact List.Perm.refl _
    | n + 2 => exact List.Perm.refl _
  · intro s _ t ht
    show s < t
    rcases s with _ | s
    · have h2 : t = 1 ∨ t = 2 := by simpa [permRulesA] using ht
      rcases h2 with rfl | rfl <;> decide
    · rcases s with _ | s
      · have h2 : t = 2 := by simpa [permRulesA] using ht
        subst h2
        decide
      · exact absurd ht (List.not_mem_nil t)
  · refine ⟨[0, 1, 2], ?_⟩
    intro s hs
    induction hs with
    | source h =>
      rcases List.mem_singleton.mp h with rfl
      simp
    | step hr hmem ih =>
      rename_i s0 t0
      have hs0 : s0 = 0 ∨ s0 = 1 ∨ s0 = 2 := by simpa using ih
      rcases hs0 with rfl | rfl | rfl
      · have h2 : t0 = 1 ∨ t0 = 2 := by simpa [permRulesA] using hmem
        rcases h2 with rfl | rfl <;> simp
      · have h2 : t0 = 2 := by simpa [permRulesA] using hmem
        subst h2
        simp
      · exact absurd hmem (List.not_mem_nil t0)

end OrderInvLemmas

/-! ## Lemmas: union-find (C7) -/

section UnionFindLemmas

theorem chainLen_target_fix {p : List Nat} {x r k : Nat} (h : ChainLen p x r k) :
    p[r]? = some r := by
  induction h with
  | root hx => exact hx
  | step _ _ _ ih => exact ih

theorem chainLen_lt {p : List Nat} {x r k : Nat} (h : ChainLen p x r k) :
    x < p.length := by
  cases h with
  | root hx => exact (List.getElem?_eq_some.mp hx).1
  | step hq _ _ => exact (List.getElem?_eq_some.mp hq).1

theorem chainLen_target_lt {p : List Nat} {x r k : Nat} (h : ChainLen p x r k) :
    r < p.length :=
  (List.getElem?_eq_some.mp (chainLen_target_fix h)).1

theorem chainLen_deterministic {p : List Nat} {x r k : Nat} (h : ChainLen p x r k) :
    ∀ {s m : Nat}, ChainLen p x s m → r = s := by
  induction h with
  | root hx =>
    intro s m h2
    cases h2 with
    | root _ => rfl
    | step hq hqx _ =>
      rw [hx] at hq
      exact absurd (Option.some.inj hq).symm hqx
  | step hq hqx _ ih =>
    intro s m h2
    cases h2 with
    | root hx2 =>
      rw [hx2] at hq
      exact absurd (Option.some.inj hq).symm hqx
    | step hq2 _ hrest2 =>
      rw [hq] at hq2
      exact ih ((Option.some.inj hq2) ▸ hrest2)

theorem chainLen_root_ne {p : List Nat} {x q r k : Nat} (hq : p[x]? = some q)
    (hqx : q ≠ x) (h : ChainLen p x r k) : r ≠ x := by
  intro he
  have hfix := chainLen_target_fix h
  rw [he, hq] at hfix
  exact hqx (Option.some.inj hfix)

theorem chainLen_set_compress {p : List Nat} {x q r kx : Nat}
    (hq : p[x]? = some q) (hqx : q ≠ x) (hr : ChainLen p x r kx) :
    ∀ {i s k : Nat}, ChainLen p i s k → ∃ m, m ≤ k ∧ ChainLen (p.set x r) i s m := by
  intro i s k h
  induction h with
  | root hi =>
    rename_i i0
    have hix : i0 ≠ x := by
      intro he
      rw [he, hq] at hi
      exact hqx (Option.some.inj hi)
    refine ⟨0, Nat.le_refl 0, ChainLen.root ?_⟩
    rw [List.getElem?_set_ne (fun he => hix he.symm)]
    exact hi
  | step hqi hqii hrest ih =>
    rename_i i0 qi s0 k0
    obtain ⟨m, hm, hcm⟩ := ih
    by_cases hix : i0 = x
    · have h1 : ChainLen p x s0 (k0 + 1) := hix ▸ ChainLen.step hqi hqii hrest
      have hs0 : s0 = r := chainLen_deterministic h1 hr
      have hrx : r ≠ x := chainLen_root_ne hq hqx hr
      refine ⟨1, by omega, ?_⟩
      rw [hix, hs0]
      refine ChainLen.step ?_ hrx (ChainLen.root ?_)
      · rw [List.getElem?_set_self (chainLen_lt hr)]
      · rw [List.getElem?_set_ne (fun he => hrx he.symm)]
        exact chainLen_target_fix hr
    · refine ⟨m + 1, by omega, ?_⟩
      refine ChainLen.step ?_ hqii hcm
      rw [List.getElem?_set_ne (fun he => hix he.symm)]
      exact hqi

theorem chainLen_set_untouched {p : List Nat} {i r k z w : Nat}
    (h : ChainLen p i r k) (hz : p[z]? = some z) (hrz : r ≠ z) :
    ChainLen (p.set z w) i r k := by
  induction h with
  | root hi =>
    rename_i i0
    refine ChainLen.root ?_
    rw [List.getElem?_set_ne (fun he => hrz he.symm)]
    exact hi
  | step hq hqi hrest ih =>
    rename_i i0 q s0 k0
    have hiz : i0 ≠ z := by
      intro he
      rw [he, hz] at hq
      exact hqi ((Option.some.inj hq).symm.trans he.symm)
    refine ChainLen.step ?_ hqi (ih hrz)
    rw [List.getElem?_set_ne (fun he => hiz he.symm)]
    exact hq

theorem chainLen_set_root {p : List Nat} {i r k w : Nat}
    (h : ChainLen p i r k) (hw : p[w]? = some w) (hwr : w ≠ r) :
    ChainLen (p.set r w) i w (k + 1) := by
  induction h with
  | root hi =>
    rename_i i0
    refine ChainLen.step ?_ hwr (ChainLen.root ?_)
    · rw [List.getElem?_set_self (List.getElem?_eq_some.mp hi).1]
    · rw [List.getElem?_set_ne (fun he => hwr he.symm)]
      exact hw
  | step hq hqi hrest ih =>
    rename_i i0 q s0 k0
    have hir : i0 ≠ s0 := by
      intro he
      have hfix := chainLen_target_fix hrest
      rw [← he, hq] at hfix
      exact hqi (Option.some.inj hfix)
    refine ChainLen.step ?_ hqi (ih hwr)
    rw [List.getElem?_set_ne (fun he => hir he.symm)]
    exact hq

theorem find_ok (uf : UnionFind) (x r k : Nat) (hchain : ChainLen uf.parent x r k) :
    ∀ fuel, k < fuel →
      ∃ uf', UnionFind.find fuel uf x = some (uf', r) ∧
        uf'.size = uf.size ∧ uf'.parent.length = uf.parent.length ∧
        (∀ i s m, ChainLen uf.parent i s m → ∃ m', m' ≤ m ∧ ChainLen uf'.parent i s m') := by
  induction hchain with
  | root hx =>
    rename_i x0
    intro fuel hfuel
    cases fuel with
    | zero => omega
    | succ f =>
      refine ⟨uf, ?_, rfl, rfl, fun i s m h => ⟨m, Nat.le_refl m, h⟩⟩
      simp [UnionFind.find, hx]
  | step hq hqx hrest ih =>
    rename_i x0 q r0 k0
    intro fuel hfuel
    cases fuel with
    | zero => omega
    | succ f =>
      obtain ⟨uf1, hfind, hsz, hlen, hpres⟩ := ih f (by omega)
      refine ⟨⟨uf1.parent.set x0 r0, uf1.size⟩, ?_, hsz, ?_, ?_⟩
      · show UnionFind.find (f + 1) uf x0 = _
        simp only [UnionFind.find, hq]
        rw [if_neg hqx, hfind]
      · simp [hlen]
      · intro i s m hm
        obtain ⟨m₁, hm₁le, hm₁⟩ := hpres i s m hm
        obtain ⟨kx, hkxle, hkx⟩ := hpres x0 r0 (k0 + 1) (ChainLen.step hq hqx hrest)
        have hrx : r0 ≠ x0 := chainLen_root_ne hq hqx (ChainLen.step hq hqx hrest)
        have hxlt : x0 < uf1.parent.length := by
          rw [hlen]
          exact (List.getElem?_eq_some.mp hq).1
        cases hq1 : uf1.parent[x0]? with
        | none =>
          rw [List.getElem?_eq_none_iff] at hq1
          omega
        | some q₁ =>
          have hq1x : q₁ ≠ x0 := by
            intro he
            subst he
            have hroot : ChainLen uf1.parent q₁ q₁ 0 := ChainLen.root hq1
            exact hrx (chainLen_deterministic hkx hroot)
          obtain ⟨m₂, hm₂le, hm₂⟩ := chainLen_set_compress hq1 hq1x hkx hm₁
          exact ⟨m₂, Nat.le_trans hm₂le hm₁le, hm₂⟩

theorem listGetD_set_self (l : List Nat) (i v : Nat) (h : i < l.length) :
    (l.set i v).getD i 0 = v := by
  rw [List.getD_eq_getElem?_getD, List.getElem?_set_self h]
  rfl

theorem listGetD_set_ne (l : List Nat) (i j v : Nat) (h : i ≠ j) :
    (l.set i v).getD j 0 = l.getD j 0 := by
  rw [List.getD_eq_getElem?_getD, List.getElem?_set_ne h, ← List.getD_eq_getElem?_getD]

theorem eqvGen_resp (n : Nat) (F : Nat → Nat → Prop) (σ : Nat → Nat)
    (hF : ∀ a b, F a b → a < n ∧ b < n ∧ σ a = σ b) :
    ∀ i j, Relation.EqvGen F i j → i = j ∨ (i < n ∧ j < n ∧ σ i = σ j) := by
  intro i j h
  induction h with
  | rel a b hab => exact Or.inr (hF a b hab)
  | refl a => exact Or.inl rfl
  | symm a b _ ih =>
    rcases ih with h | ⟨ha, hb, hs⟩
    · exact Or.inl h.symm
    · exact Or.inr ⟨hb, ha, hs.symm⟩
  | trans a b c _ _ ih1 ih2 =>
    rcases ih1 with h1 | ⟨ha, hb, hs1⟩
    · rcases ih2 with h2 | h2
      · exact Or.inl (h1.trans h2)
      · exact Or.inr (h1 ▸ h2)
    · rcases ih2 with h2 | ⟨hb2, hc, hs2⟩
      · exact Or.inr ⟨ha, h2 ▸ hb, h2 ▸ hs1⟩
      · exact Or.inr ⟨ha, hc, hs1.trans hs2⟩

theorem eqvGen_congr_iff {E F : Nat → Nat → Prop} (h : ∀ a b, E a b ↔ F a b) :
    ∀ i j, Relation.EqvGen E i j ↔ Relation.EqvGen F i j :=
  fun _ _ => ⟨Relation.EqvGen.mono (fun a b hab => (h a b).mp hab),
    Relation.EqvGen.mono (fun a b hab => (h a b).mpr hab)⟩

theorem eqvGen_bot : ∀ i j : Nat, Relation.EqvGen (fun _ _ => False) i j → i = j := by
  intro i j h
  induction h with
  | rel a b hab => exact hab.elim
  | refl a => rfl
  | symm a b _ ih => exact ih.symm
  | trans a b c _ _ ih1 ih2 => exact ih1.trans ih2

theorem UFInv_congr {n : Nat} {E F : Nat → Nat → Prop} (hEF : ∀ a b, E a b ↔ F a b)
    {uf : UnionFind} (h : UFInv n E uf) : UFInv n F uf := by
  obtain ⟨ρ, h1, h2, h3, h4, h5⟩ := h
  exact ⟨ρ, h1, h2, h3,
    fun i j hi hj => (h4 i j hi hj).trans (eqvGen_congr_iff hEF i j), h5⟩

theorem UFInv_new (n : Nat) : UFInv n (fun _ _ => False) (UnionFind.new n) := by
  refine ⟨id, by simp [UnionFind.new], by simp [UnionFind.new], ?_, ?_, ?_⟩
  · intro i hi
    refine ⟨0, ChainLen.root ?_, ?_⟩
    · show (List.range n)[i]? = some i
      rw [List.getElem?_range hi]
    · show 0 + 1 ≤ (List.replicate n 1).getD (id i) 0
      simp only [id_eq]
      rw [List.getD_eq_getElem?_getD, List.getElem?_replicate]
      simp [hi]
  · intro i j hi hj
    simp only [id_eq]
    constructor
    · intro h
      subst h
      exact Relation.EqvGen.refl i
    · intro h
      exact eqvGen_bot i j h
  · intro i hi
    simp only [id_eq]
    show (List.replicate n 1).getD i 0 = _
    rw [List.getD_eq_getElem?_getD, List.getElem?_replicate]
    have hset : (Finset.range n).filter (fun j => j = i) = {i} := by
      ext a
      simp only [Finset.mem_filter, Finset.mem_range, Finset.mem_singleton]
      constructor
      · rintro ⟨_, h⟩
        exact h
      · rintro rfl
        exact ⟨hi, rfl⟩
    rw [hset, Finset.card_singleton]
    simp [hi]

theorem uf_attach (n : Nat) (E : Nat → Nat → Prop) (hE : ∀ a b, E a b → a < n ∧ b < n)
    (ρ : Nat → Nat) (uf : UnionFind)
    (hplen : uf.parent.length = n) (hslen : uf.size.length = n)
    (hchain : ∀ i, i < n → ∃ k, ChainLen uf.parent i (ρ i) k ∧ k + 1 ≤ uf.size.getD (ρ i) 0)
    (heqv : ∀ i j, i < n → j < n → (ρ i = ρ j ↔ Relation.EqvGen E i j))
    (hsize : ∀ i, i < n →
      uf.size.getD (ρ i) 0 = ((Finset.range n).filter (fun j => ρ j = ρ i)).card)
    (x y : Nat) (hx : x < n) (hy : y < n)
    (ra rb : Nat) (hne : ra ≠ rb)
    (hor : (ρ x = ra ∧ ρ y = rb) ∨ (ρ x = rb ∧ ρ y = ra)) :
    UFInv n (fun a b => E a b ∨ (a = x ∧ b = y))
      ⟨uf.parent.set ra rb, uf.size.set rb (uf.size.getD rb 0 + uf.size.getD ra 0)⟩ := by
  obtain ⟨za, hza, hzra⟩ : ∃ z, z < n ∧ ρ z = ra :=
    hor.elim (fun h => ⟨x, hx, h.1⟩) (fun h => ⟨y, hy, h.2⟩)
  obtain ⟨zb, hzb, hzrb⟩ : ∃ z, z < n ∧ ρ z = rb :=
    hor.elim (fun h => ⟨y, hy, h.2⟩) (fun h => ⟨x, hx, h.1⟩)
  obtain ⟨ka, hka, _⟩ := hchain za hza
  obtain ⟨kb, hkb, _⟩ := hchain zb hzb
  have hra_fix : uf.parent[ra]? = some ra := hzra ▸ chainLen_target_fix hka
  have hrb_fix : uf.parent[rb]? = some rb := hzrb ▸ chainLen_target_fix hkb
  have hra_lt : ra < n := hplen ▸ hzra ▸ chainLen_target_lt hka
  have hrb_lt : rb < n := hplen ▸ hzrb ▸ chainLen_target_lt hkb
  have hρra : ρ ra = ra := by
    obtain ⟨kr, hkr, _⟩ := hchain ra hra_lt
    exact chainLen_deterministic hkr (ChainLen.root hra_fix)
  have hρrb : ρ rb = rb := by
    obtain ⟨kr, hkr, _⟩ := hchain rb hrb_lt
    exact chainLen_deterministic hkr (ChainLen.root hrb_fix)
  have hsa : uf.size.getD ra 0 = ((Finset.range n).filter (fun j => ρ j = ra)).card := by
    have h := hsize ra hra_lt
    rw [hρra] at h
    exact h
  have hsb : uf.size.getD rb 0 = ((Finset.range n).filter (fun j => ρ j = rb)).card := by
    have h := hsize rb hrb_lt
    rw [hρrb] at h
    exact h
  have hsa_pos : 1 ≤ uf.size.getD ra 0 := by
    rw [hsa]
    refine Finset.card_pos.mpr ⟨ra, ?_⟩
    simp [Finset.mem_filter, Finset.mem_range, hra_lt, hρra]
  have hsb_pos : 1 ≤ uf.size.getD rb 0 := by
    rw [hsb]
    refine Finset.card_pos.mpr ⟨rb, ?_⟩
    simp [Finset.mem_filter, Finset.mem_range, hrb_lt, hρrb]
  refine ⟨fun i => if ρ i = ra then rb else ρ i, by simp [hplen], by simp [hslen], ?_, ?_, ?_⟩
  · -- chains with bounded length
    intro i hi
    obtain ⟨k, hk, hbound⟩ := hchain i hi
    by_cases hri : ρ i = ra
    · refine ⟨k + 1, ?_, ?_⟩
      · show ChainLen (uf.parent.set ra rb) i (if ρ i = ra then rb else ρ i) (k + 1)
        rw [if_pos hri]
        exact chainLen_set_root (hri ▸ hk) hrb_fix (fun he => hne he.symm)
      · show k + 1 + 1 ≤
          (uf.size.set rb (uf.size.getD rb 0 + uf.size.getD ra 0)).getD
            (if ρ i = ra then rb else ρ i) 0
        rw [if_pos hri, listGetD_set_self _ _ _ (hslen ▸ hrb_lt)]
        rw [hri] at hbound
        omega
    · refine ⟨k, ?_, ?_⟩
      · show ChainLen (uf.parent.set ra rb) i (if ρ i = ra then rb else ρ i) k
        rw [if_neg hri]
        exact chainLen_set_untouched hk hra_fix hri
      · show k + 1 ≤
          (uf.size.set rb (uf.size.getD rb 0 + uf.size.getD ra 0)).getD
            (if ρ i = ra then rb else ρ i) 0
        rw [if_neg hri]
        by_cases hrbi : ρ i = rb
        · rw [hrbi, listGetD_set_self _ _ _ (hslen ▸ hrb_lt)]
          rw [hrbi] at hbound
          omega
        · rw [listGetD_set_ne _ _ _ _ (fun he => hrbi he.symm)]
          exact hbound
  · -- equivalence closure
    intro i j hi hj
    constructor
    · intro hss
      replace hss : (if ρ i = ra then rb else ρ i) = (if ρ j = ra then rb else ρ j) := hss
      have hmono : ∀ a b, Relation.EqvGen E a b →
          Relation.EqvGen (fun a b => E a b ∨ (a = x ∧ b = y)) a b :=
        fun a b => Relation.EqvGen.mono (fun a b hab => Or.inl hab)
      have hxy : Relation.EqvGen (fun a b => E a b ∨ (a = x ∧ b = y)) x y :=
        Relation.EqvGen.rel x y (Or.inr ⟨rfl, rfl⟩)
      by_cases h1 : ρ i = ra <;> by_cases h2 : ρ j = ra
      · exact hmono i j ((heqv i j hi hj).mp (h1.trans h2.symm))
      · rw [if_pos h1, if_neg h2] at hss
        rcases hor with ⟨hxa, hyb⟩ | ⟨hxb, hya⟩
        · have hix : Relation.EqvGen E i x := (heqv i x hi hx).mp (h1.trans hxa.symm)
          have hyj : Relation.EqvGen E y j := (heqv y j hy hj).mp (hyb.trans hss)
          exact Relation.EqvGen.trans _ _ _ (hmono _ _ hix)
            (Relation.EqvGen.trans _ _ _ hxy (hmono _ _ hyj))
        · have hiy : Relation.EqvGen E i y := (heqv i y hi hy).mp (h1.trans hya.symm)
          have hxj : Relation.EqvGen E x j := (heqv x j hx hj).mp (hxb.trans hss)
          exact Relation.EqvGen.trans _ _ _ (hmono _ _ hiy)
            (Relation.EqvGen.trans _ _ _ (Relation.EqvGen.symm _ _ hxy) (hmono _ _ hxj))
      · rw [if_neg h1, if_pos h2] at hss
        rcases hor with ⟨hxa, hyb⟩ | ⟨hxb, hya⟩
        · have hiy : Relation.EqvGen E i y := (heqv i y hi hy).mp (hss.trans hyb.symm)
          have hxj : Relation.EqvGen E x j := (heqv x j hx hj).mp (hxa.trans h2.symm)
          exact Relation.EqvGen.trans _ _ _ (hmono _ _ hiy)
            (Relation.EqvGen.trans _ _ _ (Relation.EqvGen.symm _ _ hxy) (hmono _ _ hxj))
        · have hix : Relation.EqvGen E i x := (heqv i x hi hx).mp (hss.trans hxb.symm)
          have hyj : Relation.EqvGen E y j := (heqv y j hy hj).mp (hya.trans h2.symm)
          exact Relation.EqvGen.trans _ _ _ (hmono _ _ hix)
            (Relation.EqvGen.trans _ _ _ hxy (hmono _ _ hyj))
      · rw [if_neg h1, if_neg h2] at hss
        exact hmono i j ((heqv i j hi hj).mp hss)
    · intro h
      have hF : ∀ a b, (E a b ∨ (a = x ∧ b = y)) →
          a < n ∧ b < n ∧
            (if ρ a = ra then rb else ρ a) = (if ρ b = ra then rb else ρ b) := by
        intro a b hab
        rcases hab with hab | ⟨hax, hby⟩
        · obtain ⟨han, hbn⟩ := hE a b hab
          have hr : ρ a = ρ b := (heqv a b han hbn).mpr (Relation.EqvGen.rel a b hab)
          exact ⟨han, hbn, by rw [hr]⟩
        · subst hax
          subst hby
          refine ⟨hx, hy, ?_⟩
          rcases hor with ⟨hxa, hyb⟩ | ⟨hxb, hya⟩
          · rw [if_pos hxa, if_neg (by rw [hyb]; exact fun he => hne he.symm)]
            rw [hyb]
          · rw [if_neg (by rw [hxb]; exact fun he => hne he.symm), if_pos hya, hxb]
      rcases eqvGen_resp n _ _ hF i j h with he | ⟨_, _, hs⟩
      · rw [he]
      · exact hs
  · -- size counts the class
    intro i hi
    show (uf.size.set rb (uf.size.getD rb 0 + uf.size.getD ra 0)).getD
        (if ρ i = ra then rb else ρ i) 0 =
      ((Finset.range n).filter
        (fun j => (if ρ j = ra then rb else ρ j) = (if ρ i = ra then rb else ρ i))).card
    by_cases hcase : (if ρ i = ra then rb else ρ i) = rb
    · rw [hcase, listGetD_set_self _ _ _ (hslen ▸ hrb_lt)]
      have hfc : (Finset.range n).filter (fun j => (if ρ j = ra then rb else ρ j) = rb)
          = ((Finset.range n).filter (fun j => ρ j = ra)) ∪
            ((Finset.range n).filter (fun j => ρ j = rb)) := by
        rw [← Finset.filter_or]
        apply Finset.filter_congr
        intro j _
        by_cases hj : ρ j = ra
        · simp [hj]
        · simp [hj]
      rw [hfc, Finset.card_union_of_disjoint, ← hsa, ← hsb]
      · omega
      · rw [Finset.disjoint_left]
        intro a ha hb
        rw [Finset.mem_filter] at ha hb
        exact hne (ha.2.symm.trans hb.2)
    · have hira : ρ i ≠ ra := fun he => hcase (by rw [if_pos he])
      have hρ'i : (if ρ i = ra then rb else ρ i) = ρ i := if_neg hira
      have hirb : ρ i ≠ rb := fun he => hcase (hρ'i.trans he)
      rw [hρ'i, listGetD_set_ne _ _ _ _ (fun he => hirb he.symm), hsize i hi]
      apply congrArg Finset.card
      apply Finset.filter_congr
      intro j _
      constructor
      · intro hj
        rw [if_neg (fun he => hira (hj.symm.trans he))]
        exact hj
      · intro hj
        by_cases hjr : ρ j = ra
        · rw [if_pos hjr] at hj
          exact absurd hj.symm hirb
        · rw [if_neg hjr] at hj
          exact hj

theorem uf_size_le (n : Nat) (ρ : Nat → Nat) (uf : UnionFind)
    (hsize : ∀ i, i < n →
      uf.size.getD (ρ i) 0 = ((Finset.range n).filter (fun j => ρ j = ρ i)).card)
    (i : Nat) (hi : i < n) : uf.size.getD (ρ i) 0 ≤ n := by
  rw [hsize i hi]
  calc ((Finset.range n).filter (fun j => ρ j = ρ i)).card
      ≤ (Finset.range n).card := Finset.card_filter_le _ _
    _ = n := Finset.card_range n

theorem unite_ok (n : Nat) (E : Nat → Nat → Prop) (hE : ∀ a b, E a b → a < n ∧ b < n)
    (uf : UnionFind) (hinv : UFInv n E uf) (x y : Nat) (hx : x < n) (hy : y < n)
    (fuel : Nat) (hfuel : n ≤ fuel) :
    ∃ uf', UnionFind.unite fuel uf x y = some uf' ∧
      UFInv n (fun a b => E a b ∨ (a = x ∧ b = y)) uf' := by
  obtain ⟨ρ, hplen, hslen, hchain, heqv, hsizes⟩ := hinv
  obtain ⟨kx, hkx, hkxb⟩ := hchain x hx
  have hkxf : kx < fuel := by
    have := uf_size_le n ρ uf hsizes x hx
    omega
  obtain ⟨uf1, hfind1, hsz1, hlen1, hpres1⟩ := find_ok uf x (ρ x) kx hkx fuel hkxf
  obtain ⟨ky, hky, hkyb⟩ := hchain y hy
  obtain ⟨ky1, hky1le, hky1⟩ := hpres1 y (ρ y) ky hky
  have hkyf : ky1 < fuel := by
    have := uf_size_le n ρ uf hsizes y hy
    omega
  obtain ⟨uf2, hfind2, hsz2, hlen2, hpres2⟩ := find_ok uf1 y (ρ y) ky1 hky1 fuel hkyf
  have hpres : ∀ i s m, ChainLen uf.parent i s m →
      ∃ m', m' ≤ m ∧ ChainLen uf2.parent i s m' := by
    intro i s m hm
    obtain ⟨m1, h1, hc1⟩ := hpres1 i s m hm
    obtain ⟨m2, h2, hc2⟩ := hpres2 i s m1 hc1
    exact ⟨m2, Nat.le_trans h2 h1, hc2⟩
  have hsz12 : uf2.size = uf.size := by rw [hsz2, hsz1]
  have hlen12 : uf2.parent.length = n := by rw [hlen2, hlen1, hplen]
  have hslen2 : uf2.size.length = n := by rw [hsz12, hslen]
  have hchain2 : ∀ i, i < n →
      ∃ k, ChainLen uf2.parent i (ρ i) k ∧ k + 1 ≤ uf2.size.getD (ρ i) 0 := by
    intro i hi
    obtain ⟨k, hk, hb⟩ := hchain i hi
    obtain ⟨k2, hle, hk2⟩ := hpres i (ρ i) k hk
    rw [hsz12]
    exact ⟨k2, hk2, by omega⟩
  have hsizes2 : ∀ i, i < n →
      uf2.size.getD (ρ i) 0 = ((Finset.range n).filter (fun j => ρ j = ρ i)).card := by
    intro i hi
    rw [hsz12]
    exact hsizes i hi
  by_cases hxy : ρ x = ρ y
  · refine ⟨uf2, ?_, ?_⟩
    · simp only [UnionFind.unite, hfind1, hfind2, if_pos hxy]
    · refine ⟨ρ, hlen12, hslen2, hchain2, ?_, hsizes2⟩
      intro i j hi hj
      constructor
      · intro h
        exact Relation.EqvGen.mono (fun a b hab => Or.inl hab) ((heqv i j hi hj).mp h)
      · intro h
        have hF : ∀ a b, (E a b ∨ (a = x ∧ b = y)) → a < n ∧ b < n ∧ ρ a = ρ b := by
          intro a b hab
          rcases hab with hab | ⟨hax, hby⟩
          · obtain ⟨han, hbn⟩ := hE a b hab
            exact ⟨han, hbn, (heqv a b han hbn).mpr (Relation.EqvGen.rel a b hab)⟩
          · subst hax
            subst hby
            exact ⟨hx, hy, hxy⟩
        rcases eqvGen_resp n _ _ hF i j h with he | ⟨_, _, hs⟩
        · rw [he]
        · exact hs
  · have hrx_lt : ρ x < n := hlen12 ▸ chainLen_target_lt (hpres x (ρ x) kx hkx).choose_spec.2
    have hry_lt : ρ y < n := hlen12 ▸ chainLen_target_lt (hpres y (ρ y) ky hky).choose_spec.2
    have hsx : uf2.size[ρ x]? = some (uf2.size.getD (ρ x) 0) := by
      have hlt : ρ x < uf2.size.length := hslen2 ▸ hrx_lt
      rw [List.getElem?_eq_getElem hlt, List.getD_eq_getElem?_getD,
        List.getElem?_eq_getElem hlt]
      rfl
    have hsy : uf2.size[ρ y]? = some (uf2.size.getD (ρ y) 0) := by
      have hlt : ρ y < uf2.size.length := hslen2 ▸ hry_lt
      rw [List.getElem?_eq_getElem hlt, List.getD_eq_getElem?_getD,
        List.getElem?_eq_getElem hlt]
      rfl
    by_cases hcmp : uf2.size.getD (ρ x) 0 < uf2.size.getD (ρ y) 0
    · refine ⟨⟨uf2.parent.set (ρ x) (ρ y),
        uf2.size.set (ρ y) (uf2.size.getD (ρ y) 0 + uf2.size.getD (ρ x) 0)⟩, ?_, ?_⟩
      · simp only [UnionFind.unite, hfind1, hfind2, if_neg hxy, hsx, hsy, if_pos hcmp]
      · exact uf_attach n E hE ρ uf2 hlen12 hslen2 hchain2 heqv hsizes2 x y hx hy
          (ρ x) (ρ y) hxy (Or.inl ⟨rfl, rfl⟩)
    · refine ⟨⟨uf2.parent.set (ρ y) (ρ x),
        uf2.size.set (ρ x) (uf2.size.getD (ρ x) 0 + uf2.size.getD (ρ y) 0)⟩, ?_, ?_⟩
      · simp only [UnionFind.unite, hfind1, hfind2, if_neg hxy, hsx, hsy, if_neg hcmp]
      · exact uf_attach n E hE ρ uf2 hlen12 hslen2 hchain2 heqv hsizes2 x y hx hy
          (ρ y) (ρ x) (fun he => hxy he.symm) (Or.inr ⟨rfl, rfl⟩)

theorem runUnites_ok (n fuel : Nat) (hfuel : n ≤ fuel) :
    ∀ (ops : List (Nat × Nat)) (E : Nat → Nat → Prop) (uf : UnionFind),
      (∀ a b, E a b → a < n ∧ b < n) →
      (∀ pr ∈ ops, pr.1 < n ∧ pr.2 < n) →
      UFInv n E uf →
      ∃ uf', runUnites fuel ops uf = some uf' ∧
        UFInv n (fun a b => E a b ∨ (a, b) ∈ ops) uf' := by
  intro ops
  induction ops with
  | nil =>
    intro E uf hE hops hinv
    refine ⟨uf, rfl, UFInv_congr ?_ hinv⟩
    intro a b
    simp
  | cons pr rest ih =>
    obtain ⟨a, b⟩ := pr
    intro E uf hE hops hinv
    have hab := hops (a, b) (List.mem_cons_self _ _)
    obtain ⟨uf1, hu, hinv1⟩ := unite_ok n E hE uf hinv a b hab.1 hab.2 fuel hfuel
    have hE1 : ∀ c d, (E c d ∨ (c = a ∧ d = b)) → c < n ∧ d < n := by
      intro c d hcd
      rcases hcd with hcd | ⟨hc, hd⟩
      · exact hE c d hcd
      · subst hc
        subst hd
        exact hab
    obtain ⟨uf', hrun, hinv'⟩ := ih (fun c d => E c d ∨ (c = a ∧ d = b)) uf1 hE1
      (fun pr hpr => hops pr (List.mem_cons_of_mem _ hpr)) hinv1
    refine ⟨uf', ?_, ?_⟩
    · show runUnites fuel ((a, b) :: rest) uf = some uf'
      simp only [runUnites, hu]
      exact hrun
    · refine UFInv_congr ?_ hinv'
      intro c d
      simp only [List.mem_cons, Prod.mk.injEq]
      tauto

end UnionFindLemmas

/-! ## C7 -/

/-- C7: for every `n` and every sequence of `unite(a, b)` calls with arguments
below `n` applied to `UnionFind::new(n)` (fuel at least `n` suffices for every
`find` recursion), all calls complete without panicking, `same(x, y)` returns
`true` exactly when `(x, y)` lies in the reflexive-symmetric-transitive
closure of the united pairs, and `size(x)` returns the number of elements of
the equivalence class of `x`. -/
theorem C7_union_find_correct (n fuel : Nat) (ops : List (Nat × Nat)) (x y : Nat)
    (hops : ∀ pr ∈ ops, pr.1 < n ∧ pr.2 < n)
    (hx : x < n) (hy : y < n) (hfuel : n ≤ fuel) :
    ∃ uf', runUnites fuel ops (UnionFind.new n) = some uf' ∧
      (∃ ufa b, UnionFind.same fuel uf' x y = some (ufa, b) ∧
        (b = true ↔ Relation.EqvGen (fun a b => (a, b) ∈ ops) x y)) ∧
      (∃ ufb s, UnionFind.sizeQuery fuel uf' x = some (ufb, s) ∧
        s = Set.ncard { j | j < n ∧ Relation.EqvGen (fun a b => (a, b) ∈ ops) j x }) := by
  obtain ⟨uf', hrun, hinv0⟩ := runUnites_ok n fuel hfuel ops (fun _ _ => False)
    (UnionFind.new n) (fun a b h => h.elim) hops (UFInv_new n)
  have hinv : UFInv n (fun a b => (a, b) ∈ ops) uf' := UFInv_congr (by simp) hinv0
  obtain ⟨ρ, hplen, hslen, hchain, heqv, hsizes⟩ := hinv
  obtain ⟨kx, hkx, hkxb⟩ := hchain x hx
  have hkxf : kx < fuel := by
    have := uf_size_le n ρ uf' hsizes x hx
    omega
  obtain ⟨ufa1, hfx, hsza, hlena, hpresa⟩ := find_ok uf' x (ρ x) kx hkx fuel hkxf
  obtain ⟨ky, hky, hkyb⟩ := hchain y hy
  obtain ⟨ky1, hky1le, hky1⟩ := hpresa y (ρ y) ky hky
  have hkyf : ky1 < fuel := by
    have := uf_size_le n ρ uf' hsizes y hy
    omega
  obtain ⟨ufa2, hfy, _, _, _⟩ := find_ok ufa1 y (ρ y) ky1 hky1 fuel hkyf
  refine ⟨uf', hrun, ⟨ufa2, ρ x == ρ y, ?_, ?_⟩, ?_⟩
  · simp only [UnionFind.same, hfx, hfy]
  · rw [beq_iff_eq]
    exact heqv x y hx hy
  · have hrx_lt : ρ x < n := hplen ▸ chainLen_target_lt hkx
    have hgets : ufa1.size[ρ x]? = some (uf'.size.getD (ρ x) 0) := by
      rw [hsza]
      have hlt : ρ x < uf'.size.length := hslen ▸ hrx_lt
      rw [List.getElem?_eq_getElem hlt, List.getD_eq_getElem?_getD,
        List.getElem?_eq_getElem hlt]
      rfl
    refine ⟨ufa1, uf'.size.getD (ρ x) 0, ?_, ?_⟩
    · simp only [UnionFind.sizeQuery, hfx, hgets]
    · have hsetF : { j | j < n ∧ Relation.EqvGen (fun a b => (a, b) ∈ ops) j x } =
          ↑((Finset.range n).filter (fun j => ρ j = ρ x)) := by
        ext j
        simp only [Set.mem_setOf_eq, Finset.coe_filter, Finset.mem_range]
        constructor
        · rintro ⟨hj, he⟩
          exact ⟨hj, (heqv j x hj hx).mpr he⟩
        · rintro ⟨hj, he⟩
          exact ⟨hj, (heqv j x hj hx).mp he⟩
      rw [hsizes x hx, hsetF, Set.ncard_coe_Finset]

/-- C7 witness: on five elements with unites `(0,1)`, `(2,3)`, `(1,2)`, the
run completes, `same(0, 3)` returns `true` and `size(0)` returns `4`, and the
theorem's closure/cardinality characterization applies to this input. -/
theorem C7_union_find_correct_witness :
    ((runUnites 5 [(0, 1), (2, 3), (1, 2)] (UnionFind.new 5)).map
      (fun uf => (UnionFind.same 5 uf 0 3).map Prod.snd) = some (some true)) ∧
    ((runUnites 5 [(0, 1), (2, 3), (1, 2)] (UnionFind.new 5)).map
      (fun uf => (UnionFind.sizeQuery 5 uf 0).map Prod.snd) = some (some 4)) ∧
    (∃ uf', runUnites 5 [(0, 1), (2, 3), (1, 2)] (UnionFind.new 5) = some uf' ∧
      (∃ ufa b, UnionFind.same 5 uf' 0 3 = some (ufa, b) ∧
        (b = true ↔ Relation.EqvGen
          (fun a b => (a, b) ∈ [(0, 1), (2, 3), (1, 2)]) 0 3)) ∧
      (∃ ufb s, UnionFind.sizeQuery 5 uf' 0 = some (ufb, s) ∧
        s = Set.ncard { j | j < 5 ∧ Relation.EqvGen
          (fun a b => (a, b) ∈ [(0, 1), (2, 3), (1, 2)]) j 0 })) :=
  ⟨rfl, rfl,
    C7_union_find_correct 5 5 [(0, 1), (2, 3), (1, 2)] 0 3 (by decide) (by decide)
      (by decide) (Nat.le_refl 5)⟩

/-! ## Lemmas: rooted trees (C5) -/

section TreeDPLemmas

variable {n : Nat} {par depth : Nat → Nat}

theorem parIter_succ_right (par : Nat → Nat) :
    ∀ (k u : Nat), parIter par (k + 1) u = par (parIter par k u) := by
  intro k
  induction k with
  | zero => intro u; rfl
  | succ k ih =>
    intro u
    show parIter par (k + 1) (par u) = par (parIter par (k + 1) u)
    rw [ih (par u)]
    rfl

theorem depth_zero_iff (hd0 : depth 0 = 0)
    (hpar : ∀ v, v < n → 0 < v → par v < n ∧ depth v = depth (par v) + 1)
    (u : Nat) (hu : u < n) : depth u = 0 ↔ u = 0 := by
  constructor
  · intro h
    by_contra hne
    have := (hpar u hu (Nat.pos_of_ne_zero hne)).2
    omega
  · intro h
    rw [h, hd0]

theorem parIter_spec (hd0 : depth 0 = 0)
    (hpar : ∀ v, v < n → 0 < v → par v < n ∧ depth v = depth (par v) + 1) :
    ∀ (k u : Nat), u < n → k ≤ depth u →
      parIter par k u < n ∧ depth (parIter par k u) = depth u - k := by
  intro k
  induction k with
  | zero => intro u hu _; exact ⟨hu, by simp [parIter]⟩
  | succ k ih =>
    intro u hu hk
    have hu0 : u ≠ 0 := by
      intro h
      rw [h, hd0] at hk
      omega
    obtain ⟨hpn, hpd⟩ := hpar u hu (Nat.pos_of_ne_zero hu0)
    have hk2 : k ≤ depth (par u) := by omega
    obtain ⟨h1, h2⟩ := ih (par u) hpn hk2
    show parIter par k (par u) < n ∧ depth (parIter par k (par u)) = depth u - (k + 1)
    exact ⟨h1, by omega⟩

theorem desc_refl (v : Nat) : Desc par depth v v :=
  ⟨Nat.le_refl _, by simp [parIter]⟩

theorem desc_unique_depth {v w u : Nat} (h1 : Desc par depth v u)
    (h2 : Desc par depth w u) (hd : depth v = depth w) : v = w := by
  obtain ⟨hle1, hp1⟩ := h1
  obtain ⟨hle2, hp2⟩ := h2
  rw [← hp1, ← hp2, hd]

theorem parIter_depth_zero (hd0 : depth 0 = 0)
    (hpar : ∀ v, v < n → 0 < v → par v < n ∧ depth v = depth (par v) + 1) :
    ∀ (d u : Nat), u < n → depth u = d → parIter par d u = 0 := by
  intro d
  induction d with
  | zero =>
    intro u hu hdep
    exact (depth_zero_iff hd0 hpar u hu).mp hdep
  | succ d ih =>
    intro u hu hdep
    have hu0 : u ≠ 0 := by
      intro h
      rw [h, hd0] at hdep
      omega
    obtain ⟨hpn, hpd⟩ := hpar u hu (Nat.pos_of_ne_zero hu0)
    show parIter par d (par u) = 0
    exact ih (par u) hpn (by omega)

theorem desc_root (hd0 : depth 0 = 0)
    (hpar : ∀ v, v < n → 0 < v → par v < n ∧ depth v = depth (par v) + 1)
    (u : Nat) (hu : u < n) : Desc par depth 0 u := by
  refine ⟨by rw [hd0]; exact Nat.zero_le _, ?_⟩
  rw [hd0, Nat.sub_zero]
  exact parIter_depth_zero hd0 hpar (depth u) u hu rfl

theorem desc_step (hd0 : depth 0 = 0)
    (hpar : ∀ v, v < n → 0 < v → par v < n ∧ depth v = depth (par v) + 1)
    {v u : Nat} (hu : u < n) (hd : Desc par depth v u) (hne : u ≠ v) :
    ∃ w, w < n ∧ 0 < w ∧ par w = v ∧ depth w = depth v + 1 ∧ Desc par depth w u := by
  obtain ⟨hle, hp⟩ := hd
  have hlt : depth v < depth u := by
    rcases Nat.lt_or_ge (depth v) (depth u) with h | h
    · exact h
    · have : depth u = depth v := by omega
      rw [this] at hp
      simp [parIter] at hp
      exact absurd hp hne
  set d := depth u - depth v with hdd
  have hd1 : 1 ≤ d := by omega
  set w := parIter par (d - 1) u with hw
  obtain ⟨hwn, hwd⟩ := parIter_spec hd0 hpar (d - 1) u hu (by omega)
  have hparw : par w = v := by
    have h1 : parIter par (d - 1 + 1) u = par (parIter par (d - 1) u) :=
      parIter_succ_right par (d - 1) u
    have h2 : d - 1 + 1 = d := by omega
    rw [h2] at h1
    rw [hw, ← h1]
    exact hp
  have hdw : depth w = depth v + 1 := by
    rw [← hw] at hwd
    omega
  have hw0 : 0 < w := by
    rcases Nat.eq_zero_or_pos w with h | h
    · rw [h, hd0] at hdw
      omega
    · exact h
  refine ⟨w, hwn, hw0, hparw, hdw, ⟨by omega, ?_⟩⟩
  rw [hdw]
  have : depth u - (depth v + 1) = d - 1 := by omega
  rw [this]

theorem desc_of_child
    {v w u : Nat} (hparw : par w = v) (hdw : depth w = depth v + 1)
    (hd : Desc par depth w u) : Desc par depth v u := by
  obtain ⟨hle, hp⟩ := hd
  refine ⟨by omega, ?_⟩
  have harith : depth u - depth v = (depth u - depth w) + 1 := by omega
  rw [harith, parIter_succ_right, hp, hparw]

theorem depth_lt (hd0 : depth 0 = 0)
    (hpar : ∀ v, v < n → 0 < v → par v < n ∧ depth v = depth (par v) + 1)
    (v : Nat) (hv : v < n) : depth v < n := by
  have hinj : Set.InjOn (fun k => parIter par k v) ↑(Finset.range (depth v + 1)) := by
    intro k1 h1 k2 h2 he
    simp only [Finset.coe_range, Set.mem_Iio] at h1 h2
    have hd1 := (parIter_spec hd0 hpar k1 v hv (by omega)).2
    have hd2 := (parIter_spec hd0 hpar k2 v hv (by omega)).2
    simp only at he
    rw [he] at hd1
    omega
  have hmaps : ∀ k ∈ Finset.range (depth v + 1),
      (fun k => parIter par k v) k ∈ Finset.range n := by
    intro k hk
    simp only [Finset.mem_range] at hk ⊢
    exact (parIter_spec hd0 hpar k v hv (by omega)).1
  have := Finset.card_le_card_of_injOn _ hmaps hinj
  simp only [Finset.card_range] at this
  omega

theorem subtreeSize_le (v : Nat) : subtreeSize n par depth v ≤ n := by
  unfold subtreeSize
  calc ((Finset.range n).filter (fun u => Desc par depth v u)).card
      ≤ (Finset.range n).card := Finset.card_filter_le _ _
    _ = n := Finset.card_range n

theorem subtreeSize_pos (v : Nat) (hv : v < n) : 1 ≤ subtreeSize n par depth v := by
  unfold subtreeSize
  refine Finset.card_pos.mpr ⟨v, ?_⟩
  simp only [Finset.mem_filter, Finset.mem_range]
  exact ⟨hv, desc_refl v⟩

theorem subtreeSize_root (hd0 : depth 0 = 0)
    (hpar : ∀ v, v < n → 0 < v → par v < n ∧ depth v = depth (par v) + 1) :
    subtreeSize n par depth 0 = n := by
  unfold subtreeSize
  rw [Finset.filter_true_of_mem, Finset.card_range]
  intro u hu
  exact desc_root hd0 hpar u (Finset.mem_range.mp hu)

theorem card_filter_exists_mem (P : Nat → Nat → Prop) [∀ w u, Decidable (P w u)] :
    ∀ (l : List Nat), l.Nodup →
      (∀ w1 ∈ l, ∀ w2 ∈ l, w1 ≠ w2 → ∀ u, P w1 u → P w2 u → False) →
      ((Finset.range n).filter (fun u => ∃ w ∈ l, P w u)).card =
        (l.map (fun w => ((Finset.range n).filter (fun u => P w u)).card)).sum := by
  intro l
  induction l with
  | nil =>
    intro _ _
    simp
  | cons w l ih =>
    intro hnd hdisj
    obtain ⟨hwl, hndl⟩ := List.nodup_cons.mp hnd
    have hsplit : (Finset.range n).filter (fun u => ∃ w2 ∈ w :: l, P w2 u) =
        ((Finset.range n).filter (fun u => P w u)) ∪
          ((Finset.range n).filter (fun u => ∃ w2 ∈ l, P w2 u)) := by
      rw [← Finset.filter_or]
      apply Finset.filter_congr
      intro u _
      simp [List.mem_cons, or_and_right, exists_or]
    rw [hsplit, Finset.card_union_of_disjoint, List.map_cons, List.sum_cons]
    · rw [ih hndl (fun w1 h1 w2 h2 hne u => hdisj w1 (List.mem_cons_of_mem _ h1)
        w2 (List.mem_cons_of_mem _ h2) hne u)]
    · rw [Finset.disjoint_left]
      intro u hu1 hu2
      rw [Finset.mem_filter] at hu1 hu2
      obtain ⟨w2, hw2, hPw2⟩ := hu2.2
      exact hdisj w (List.mem_cons_self _ _) w2 (List.mem_cons_of_mem _ hw2)
        (fun he => hwl (he ▸ hw2)) u hu1.2 hPw2

theorem childrenL_nodup (v : Nat) : (childrenL n par v).Nodup :=
  List.Nodup.filter _ (List.nodup_range n)

theorem mem_childrenL {v w : Nat} :
    w ∈ childrenL n par v ↔ w < n ∧ 0 < w ∧ par w = v := by
  unfold childrenL
  rw [List.mem_filter, List.mem_range]
  simp

theorem subtreeSize_eq (hd0 : depth 0 = 0)
    (hpar : ∀ v, v < n → 0 < v → par v < n ∧ depth v = depth (par v) + 1)
    (v : Nat) (hv : v < n) :
    subtreeSize n par depth v =
      1 + ((childrenL n par v).map (subtreeSize n par depth)).sum := by
  have hsplit : (Finset.range n).filter (fun u => Desc par depth v u) =
      ((Finset.range n).filter (fun u => u = v)) ∪
        ((Finset.range n).filter
          (fun u => ∃ w ∈ childrenL n par v, Desc par depth w u)) := by
    rw [← Finset.filter_or]
    apply Finset.filter_congr
    intro u hu
    rw [Finset.mem_range] at hu
    constructor
    · intro hd
      by_cases hne : u = v
      · exact Or.inl hne
      · obtain ⟨w, hwn, hw0, hparw, _, hdw⟩ := desc_step hd0 hpar hu hd hne
        exact Or.inr ⟨w, mem_childrenL.mpr ⟨hwn, hw0, hparw⟩, hdw⟩
    · intro h
      rcases h with h | ⟨w, hw, hdw⟩
      · rw [h]
        exact desc_refl v
      · obtain ⟨hwn, hw0, hparw⟩ := mem_childrenL.mp hw
        exact desc_of_child hparw (hparw ▸ (hpar w hwn hw0).2) hdw
  show ((Finset.range n).filter (fun u => Desc par depth v u)).card = _
  rw [hsplit, Finset.card_union_of_disjoint]
  · have h1 : ((Finset.range n).filter (fun u => u = v)).card = 1 := by
      have : (Finset.range n).filter (fun u => u = v) = {v} := by
        ext a
        simp only [Finset.mem_filter, Finset.mem_range, Finset.mem_singleton]
        constructor
        · rintro ⟨_, h⟩
          exact h
        · rintro rfl
          exact ⟨hv, rfl⟩
      rw [this, Finset.card_singleton]
    rw [h1]
    congr 1
    have hdisj : ∀ w1 ∈ childrenL n par v, ∀ w2 ∈ childrenL n par v, w1 ≠ w2 →
        ∀ u, Desc par depth w1 u → Desc par depth w2 u → False := by
      intro w1 h1 w2 h2 hne u hd1 hd2
      obtain ⟨h1n, h10, h1p⟩ := mem_childrenL.mp h1
      obtain ⟨h2n, h20, h2p⟩ := mem_childrenL.mp h2
      have hdep1 := (hpar w1 h1n h10).2
      have hdep2 := (hpar w2 h2n h20).2
      exact hne (desc_unique_depth hd1 hd2 (by rw [hdep1, hdep2, h1p, h2p]))
    rw [card_filter_exists_mem _ _ (childrenL_nodup v) hdisj]
    apply congrArg List.sum
    apply List.map_congr_left
    intro w _
    rfl
  · rw [Finset.disjoint_left]
    intro u hu1 hu2
    rw [Finset.mem_filter] at hu1 hu2
    obtain ⟨w, hw, hdw⟩ := hu2.2
    obtain ⟨hwn, hw0, hparw⟩ := mem_childrenL.mp hw
    have hdep := (hpar w hwn hw0).2
    obtain ⟨hle, _⟩ := hdw
    rw [hu1.2] at hle
    rw [hparw] at hdep
    omega

theorem getDset_self {α : Type} (l : List α) (d : α) (i : Nat) (v : α)
    (h : i < l.length) : (l.set i v).getD i d = v := by
  rw [List.getD_eq_getElem?_getD, List.getElem?_set_self h]
  rfl

theorem getDset_ne {α : Type} (l : List α) (d : α) (i j : Nat) (v : α)
    (h : i ≠ j) : (l.set i v).getD j d = l.getD j d := by
  rw [List.getD_eq_getElem?_getD, List.getElem?_set_ne h, ← List.getD_eq_getElem?_getD]

theorem buildGraph_spec :
    ∀ (edges : List (Nat × Nat)) (g : List (List Nat)),
      (∀ e ∈ edges, e.1 < g.length ∧ e.2 < g.length) →
      ∃ g', buildGraph edges g = some g' ∧ g'.length = g.length ∧
        ∀ v, g'.getD v [] = g.getD v [] ++ adjContrib v edges := by
  intro edges
  induction edges with
  | nil =>
    intro g _
    refine ⟨g, rfl, rfl, ?_⟩
    intro v
    simp [adjContrib]
  | cons e rest ih =>
    obtain ⟨a, b⟩ := e
    intro g hbound
    have hab := hbound (a, b) (List.mem_cons_self _ _)
    have ha : a < g.length := hab.1
    have hb : b < g.length := hab.2
    set g1 := g.set a (g.getD a [] ++ [b]) with hg1
    have hg1len : g1.length = g.length := by simp [hg1]
    set g2 := g1.set b (g1.getD b [] ++ [a]) with hg2
    have hg2len : g2.length = g.length := by simp [hg2, hg1]
    have hrun : buildGraph ((a, b) :: rest) g = buildGraph rest g2 := by
      simp only [buildGraph,
        show vecPush g a b = some g1 from by rw [vecPush, if_pos ha],
        show vecPush g1 b a = some g2 from by
          rw [vecPush, if_pos (by rw [hg1len]; exact hb)]]
    obtain ⟨g', hg', hlen', hspec⟩ := ih g2 (by
      intro e he
      rw [hg2len]
      exact hbound e (List.mem_cons_of_mem _ he))
    refine ⟨g', by rw [hrun]; exact hg', by rw [hlen', hg2len], ?_⟩
    intro v
    rw [hspec v]
    have hcontrib : adjContrib v ((a, b) :: rest) =
        ((if a = v then [b] else []) ++ (if b = v then [a] else [])) ++
          adjContrib v rest := by
      unfold adjContrib
      rw [List.flatMap_cons]
    rw [hcontrib]
    have h1v : g1.getD v [] = g.getD v [] ++ (if a = v then [b] else []) := by
      by_cases hav : a = v
      · rw [if_pos hav, hg1, hav]
        exact getDset_self _ _ _ _ (hav ▸ ha)
      · rw [if_neg hav, hg1, getDset_ne _ _ _ _ _ hav]
        simp
    have h2v : g2.getD v [] = g1.getD v [] ++ (if b = v then [a] else []) := by
      by_cases hbv : b = v
      · rw [if_pos hbv, hg2, hbv]
        exact getDset_self _ _ _ _ (by rw [hg1len]; exact hbv ▸ hb)
      · rw [if_neg hbv, hg2, getDset_ne _ _ _ _ _ hbv]
        simp
    rw [h2v, h1v]
    simp [List.append_assoc]

theorem flatMap_perm_of_forall₂ {α β : Type} {l₁ l₂ : List α} {f g : α → List β}
    (h : List.Forall₂ (fun a b => List.Perm (f a) (g b)) l₁ l₂) :
    List.Perm (l₁.flatMap f) (l₂.flatMap g) := by
  induction h with
  | nil => exact List.Perm.refl []
  | cons hab _ ih =>
    simp only [List.flatMap_cons]
    exact List.Perm.append hab ih

theorem flatMap_append_split_perm {α β : Type} (A B : α → List β) :
    ∀ (l : List α),
      List.Perm (l.flatMap (fun w => A w ++ B w)) (l.flatMap A ++ l.flatMap B) := by
  intro l
  induction l with
  | nil => exact List.Perm.refl []
  | cons w l ih =>
    simp only [List.flatMap_cons]
    refine List.Perm.trans (List.Perm.append_left (A w ++ B w) ih) ?_
    have h1 : (A w ++ B w) ++ (l.flatMap A ++ l.flatMap B) =
        A w ++ (B w ++ l.flatMap A ++ l.flatMap B) := by simp [List.append_assoc]
    have h2 : (A w ++ l.flatMap A) ++ (B w ++ l.flatMap B) =
        A w ++ (l.flatMap A ++ B w ++ l.flatMap B) := by simp [List.append_assoc]
    rw [h1, h2]
    apply List.Perm.append_left
    exact List.Perm.append_right _ List.perm_append_comm

theorem flatMap_if_self_singleton (P : Nat → Prop) [DecidablePred P] :
    ∀ (l : List Nat),
      l.flatMap (fun w => if P w then [w] else []) = l.filter (fun w => decide (P w)) := by
  intro l
  induction l with
  | nil => rfl
  | cons w l ih =>
    simp only [List.flatMap_cons, List.filter_cons]
    by_cases hw : P w
    · simp [hw, ih]
    · simp [hw, ih]

theorem flatMap_if_eq_singleton (c : Nat → Nat) (v : Nat) :
    ∀ (l : List Nat), l.Nodup →
      l.flatMap (fun w => if w = v then [c w] else []) =
        if v ∈ l then [c v] else [] := by
  intro l
  induction l with
  | nil => simp
  | cons w l ih =>
    intro hnd
    obtain ⟨hwl, hndl⟩ := List.nodup_cons.mp hnd
    simp only [List.flatMap_cons]
    by_cases hw : w = v
    · subst hw
      rw [if_pos rfl, ih hndl, if_neg hwl, if_pos (List.mem_cons_self _ _)]
      simp
    · rw [if_neg hw, ih hndl]
      by_cases hv : v ∈ l
      · rw [if_pos hv, if_pos (List.mem_cons_of_mem _ hv)]
        simp
      · rw [if_neg hv, if_neg (by
          intro h
          rcases List.mem_cons.mp h with h | h
          · exact hw h.symm
          · exact hv h)]
        simp

theorem range_drop_one (n : Nat) :
    (List.range n).drop 1 = (List.range n).filter (fun w => decide (0 < w)) := by
  cases n with
  | zero => rfl
  | succ m =>
    rw [List.range_succ_eq_map]
    show List.map Nat.succ (List.range m) = _
    rw [List.filter_cons]
    simp only [decide_eq_true_eq]
    rw [if_neg (by omega)]
    rw [List.filter_eq_self.mpr]
    intro a ha
    rw [List.mem_map] at ha
    obtain ⟨b, _, hb⟩ := ha
    simp [← hb]

theorem nonroots_nodup (n : Nat) : ((List.range n).drop 1).Nodup := by
  rw [range_drop_one]
  exact List.Nodup.filter _ (List.nodup_range n)

theorem mem_nonroots {n w : Nat} : w ∈ (List.range n).drop 1 ↔ 0 < w ∧ w < n := by
  rw [range_drop_one, List.mem_filter, List.mem_range]
  simp
  tauto

theorem forall₂_mem_left {α β : Type} {R : α → β → Prop} :
    ∀ {l₁ : List α} {l₂ : List β}, List.Forall₂ R l₁ l₂ →
      ∀ a ∈ l₁, ∃ b ∈ l₂, R a b := by
  intro l₁ l₂ h
  induction h with
  | nil => intro a ha; cases ha
  | cons hab _ ih =>
    intro a ha
    rcases List.mem_cons.mp ha with ha | ha
    · subst ha
      exact ⟨_, List.mem_cons_self _ _, hab⟩
    · obtain ⟨b, hb, hRb⟩ := ih a ha
      exact ⟨b, List.mem_cons_of_mem _ hb, hRb⟩

theorem edges_endpoints_lt
    (hpar : ∀ v, v < n → 0 < v → par v < n ∧ depth v = depth (par v) + 1)
    (edges oriented : List (Nat × Nat))
    (hforall : List.Forall₂ (fun e f => f = e ∨ f = (e.2, e.1)) edges oriented)
    (hperm : List.Perm oriented (((List.range n).drop 1).map (fun w => (par w, w)))) :
    ∀ e ∈ edges, e.1 < n ∧ e.2 < n := by
  intro e he
  obtain ⟨f, hf, hR⟩ := forall₂_mem_left hforall e he
  have hfP : f ∈ ((List.range n).drop 1).map (fun w => (par w, w)) :=
    hperm.mem_iff.mp hf
  rw [List.mem_map] at hfP
  obtain ⟨w, hw, hfw⟩ := hfP
  obtain ⟨hw0, hwn⟩ := mem_nonroots.mp hw
  have hbounds : f.1 < n ∧ f.2 < n := by
    rw [← hfw]
    exact ⟨(hpar w hwn hw0).1, hwn⟩
  rcases hR with h | h
  · rw [← h]; exact hbounds
  · rw [show e = (f.2, f.1) from by rw [h]]
    exact ⟨hbounds.2, hbounds.1⟩

theorem adjContrib_tree
    (edges oriented : List (Nat × Nat))
    (hforall : List.Forall₂ (fun e f => f = e ∨ f = (e.2, e.1)) edges oriented)
    (hperm : List.Perm oriented (((List.range n).drop 1).map (fun w => (par w, w))))
    (v : Nat) :
    List.Perm (adjContrib v edges)
      ((if 0 < v ∧ v < n then [par v] else []) ++ childrenL n par v) := by
  have hcf : ∀ (l : List (Nat × Nat)), adjContrib v l =
      l.flatMap (fun e => (if e.1 = v then [e.2] else []) ++ (if e.2 = v then [e.1] else [])) :=
    fun l => rfl
  have hstep1 : List.Perm (adjContrib v edges) (adjContrib v oriented) := by
    rw [hcf, hcf]
    apply flatMap_perm_of_forall₂
    refine hforall.imp ?_
    intro e f h
    rcases h with h | h
    · rw [h]
    · rw [h]
      exact List.perm_append_comm
  have hstep2 : List.Perm (adjContrib v oriented)
      (adjContrib v (((List.range n).drop 1).map (fun w => (par w, w)))) := by
    rw [hcf, hcf]
    exact hperm.flatMap_right _
  have hstep3 : adjContrib v (((List.range n).drop 1).map (fun w => (par w, w))) =
      ((List.range n).drop 1).flatMap
        (fun w => (if par w = v then [w] else []) ++ (if w = v then [par w] else [])) := by
    rw [hcf]
    rw [List.flatMap_map]
  have hstep4 := flatMap_append_split_perm
    (fun w => if par w = v then [w] else []) (fun w => if w = v then [par w] else [])
    ((List.range n).drop 1)
  have hA : ((List.range n).drop 1).flatMap (fun w => if par w = v then [w] else []) =
      childrenL n par v := by
    rw [flatMap_if_self_singleton (fun w => par w = v)]
    rw [range_drop_one, List.filter_filter]
    unfold childrenL
    apply List.filter_congr
    intro w _
    by_cases h1 : 0 < w <;> by_cases h2 : par w = v <;> simp [h1, h2]
  have hB : ((List.range n).drop 1).flatMap (fun w => if w = v then [par w] else []) =
      if 0 < v ∧ v < n then [par v] else [] := by
    rw [flatMap_if_eq_singleton par v _ (nonroots_nodup n)]
    by_cases hv : 0 < v ∧ v < n
    · rw [if_pos (mem_nonroots.mpr hv), if_pos hv]
    · rw [if_neg (fun h => hv (mem_nonroots.mp h)), if_neg hv]
  refine hstep1.trans (hstep2.trans ?_)
  rw [hstep3]
  refine hstep4.trans ?_
  rw [hA, hB]
  exact List.perm_append_comm

theorem no_parent_in_children
    (hpar : ∀ v, v < n → 0 < v → par v < n ∧ depth v = depth (par v) + 1)
    (v : Nat) (hv : v < n) (hv0 : 0 < v) : par v ∉ childrenL n par v := by
  intro hmem
  obtain ⟨hpn, hp0, hpp⟩ := mem_childrenL.mp hmem
  have h1 := (hpar v hv hv0).2
  have h2 := (hpar (par v) hpn hp0).2
  rw [hpp] at h2
  omega

theorem adjFilter_perm
    (hpar : ∀ v, v < n → 0 < v → par v < n ∧ depth v = depth (par v) + 1)
    (edges oriented : List (Nat × Nat))
    (hforall : List.Forall₂ (fun e f => f = e ∨ f = (e.2, e.1)) edges oriented)
    (hperm : List.Perm oriented (((List.range n).drop 1).map (fun w => (par w, w))))
    (v p : Nat) (hv : v < n)
    (hp : (v = 0 ∧ p = n) ∨ (0 < v ∧ p = par v)) :
    List.Perm ((adjContrib v edges).filter (fun w => w != p)) (childrenL n par v) := by
  have hbase := adjContrib_tree edges oriented hforall hperm v
  refine (hbase.filter _).trans ?_
  rw [List.filter_append]
  have hckeep : (childrenL n par v).filter (fun w => w != p) = childrenL n par v := by
    rw [List.filter_eq_self]
    intro w hw
    obtain ⟨hwn, hw0, hwp⟩ := mem_childrenL.mp hw
    rcases hp with ⟨hv0, hpn⟩ | ⟨hv0, hpv⟩
    · subst hpn
      simp only [bne_iff_ne, ne_eq]
      omega
    · subst hpv
      simp only [bne_iff_ne, ne_eq]
      intro he
      exact no_parent_in_children hpar v hv hv0 (he ▸ hw)
  rcases hp with ⟨hv0, hpn⟩ | ⟨hv0, hpv⟩
  · subst hv0
    rw [if_neg (by simp), hckeep]
    exact List.Perm.refl _
  · rw [if_pos ⟨hv0, hv⟩, hckeep]
    subst hpv
    simp

theorem adj_mem_facts
    (hpar : ∀ v, v < n → 0 < v → par v < n ∧ depth v = depth (par v) + 1)
    (edges oriented : List (Nat × Nat))
    (hforall : List.Forall₂ (fun e f => f = e ∨ f = (e.2, e.1)) edges oriented)
    (hperm : List.Perm oriented (((List.range n).drop 1).map (fun w => (par w, w))))
    (v : Nat) (hv : v < n) :
    ∀ w ∈ adjContrib v edges, (0 < v ∧ w = par v) ∨ (0 < w ∧ w < n ∧ par w = v) := by
  intro w hw
  have hbase := adjContrib_tree edges oriented hforall hperm v
  have hwmem := hbase.mem_iff.mp hw
  rw [List.mem_append] at hwmem
  rcases hwmem with h | h
  · by_cases hc : 0 < v ∧ v < n
    · rw [if_pos hc] at h
      rcases List.mem_singleton.mp h with rfl
      exact Or.inl ⟨hc.1, rfl⟩
    · rw [if_neg hc] at h
      cases h
  · obtain ⟨hwn, hw0, hwp⟩ := mem_childrenL.mp h
    exact Or.inr ⟨hw0, hwn, hwp⟩

theorem children_desc_disjoint
    (hpar : ∀ v, v < n → 0 < v → par v < n ∧ depth v = depth (par v) + 1)
    {v w1 w2 u : Nat}
    (h1 : 0 < w1) (h1n : w1 < n) (h1p : par w1 = v)
    (h2 : 0 < w2) (h2n : w2 < n) (h2p : par w2 = v)
    (hd1 : Desc par depth w1 u) (hd2 : Desc par depth w2 u) : w1 = w2 := by
  have hdep1 := (hpar w1 h1n h1).2
  have hdep2 := (hpar w2 h2n h2).2
  exact desc_unique_depth hd1 hd2 (by rw [hdep1, hdep2, h1p, h2p])

theorem dfs1List_ok (hd0 : depth 0 = 0)
    (hpar : ∀ v, v < n → 0 < v → par v < n ∧ depth v = depth (par v) + 1)
    (v : Nat)
    (step : Nat → List Nat → Option (Nat × List Nat))
    (hstep : ∀ w down1, 0 < w → w < n → par w = v → down1.length = n →
      ∃ down', step w down1 = some (subtreeSize n par depth w, down') ∧
        down'.length = n ∧
        (∀ u, u < n → Desc par depth w u → down'.getD u 0 = subtreeSize n par depth u) ∧
        (∀ u, ¬(u < n ∧ Desc par depth w u) → down'.getD u 0 = down1.getD u 0))
    (p : Nat) :
    ∀ (l : List Nat) (acc : Nat) (down : List Nat),
      (∀ w ∈ l, w = p ∨ (0 < w ∧ w < n ∧ par w = v)) →
      (l.filter (fun w => w != p)).Nodup →
      down.length = n →
      ∃ down', dfs1List step (fun a b => a + b) p l acc down =
          some (acc + ((l.filter (fun w => w != p)).map (subtreeSize n par depth)).sum,
            down') ∧
        down'.length = n ∧
        (∀ u, u < n → (∃ w ∈ l, w ≠ p ∧ Desc par depth w u) →
          down'.getD u 0 = subtreeSize n par depth u) ∧
        (∀ u, ¬(∃ w ∈ l, w ≠ p ∧ u < n ∧ Desc par depth w u) →
          down'.getD u 0 = down.getD u 0) := by
  intro l
  induction l with
  | nil =>
    intro acc down _ _ hlen
    refine ⟨down, by simp [dfs1List], hlen, ?_, ?_⟩
    · intro u _ h
      obtain ⟨w, hw, _⟩ := h
      cases hw
    · intro u _
      rfl
  | cons w l ih =>
    intro acc down hl hnd hlen
    have hfc : (w :: l).filter (fun x => x != p) =
        if w = p then l.filter (fun x => x != p)
        else w :: l.filter (fun x => x != p) := by
      rw [List.filter_cons]
      by_cases hwp : w = p
      · simp [hwp]
      · simp [hwp]
    by_cases hwp : w = p
    · rw [hfc, if_pos hwp] at hnd ⊢
      obtain ⟨down', hrun, hlen', hupd', hpres'⟩ :=
        ih acc down (fun x hx => hl x (List.mem_cons_of_mem _ hx)) hnd hlen
      refine ⟨down', ?_, hlen', ?_, ?_⟩
      · rw [show dfs1List step (fun a b => a + b) p (w :: l) acc down =
          dfs1List step (fun a b => a + b) p l acc down from by
            simp [dfs1List, hwp]]
        exact hrun
      · intro u hun hex
        obtain ⟨w2, hw2, hw2p, hw2d⟩ := hex
        rcases List.mem_cons.mp hw2 with h | h
        · exact absurd (h ▸ hwp) hw2p
        · exact hupd' u hun ⟨w2, h, hw2p, hw2d⟩
      · intro u hno
        refine hpres' u ?_
        intro hex
        obtain ⟨w2, hw2, hw2p, hw2d⟩ := hex
        exact hno ⟨w2, List.mem_cons_of_mem _ hw2, hw2p, hw2d⟩
    · obtain ⟨hw0, hwn, hwpar⟩ := (hl w (List.mem_cons_self _ _)).resolve_left hwp
      obtain ⟨down1, hstepeq, hlen1, hupd1, hpres1⟩ := hstep w down hw0 hwn hwpar hlen
      rw [hfc, if_neg hwp] at hnd ⊢
      obtain ⟨hwnotin, hndl⟩ := List.nodup_cons.mp hnd
      obtain ⟨down', hrun, hlen', hupd', hpres'⟩ :=
        ih (acc + subtreeSize n par depth w) down1
          (fun x hx => hl x (List.mem_cons_of_mem _ hx)) hndl hlen1
      refine ⟨down', ?_, hlen', ?_, ?_⟩
      · rw [show dfs1List step (fun a b => a + b) p (w :: l) acc down =
          dfs1List step (fun a b => a + b) p l
            (acc + subtreeSize n par depth w) down1 from by
            simp [dfs1List, hwp, hstepeq]]
        rw [hrun, List.map_cons, List.sum_cons]
        congr 2
        omega
      · intro u hun hex
        obtain ⟨w2, hw2, hw2p, hw2d⟩ := hex
        rcases List.mem_cons.mp hw2 with h | h
        · subst h
          have hnolater : ¬(∃ x ∈ l, x ≠ p ∧ u < n ∧ Desc par depth x u) := by
            rintro ⟨x, hx, hxp, _, hxd⟩
            obtain ⟨hx0, hxn, hxpar⟩ := (hl x (List.mem_cons_of_mem _ hx)).resolve_left hxp
            have hxw : x = w2 :=
              children_desc_disjoint hpar hx0 hxn hxpar hw0 hwn hwpar hxd hw2d
            subst hxw
            exact hwnotin (List.mem_filter.mpr ⟨hx, by simp [hxp]⟩)
          rw [hpres' u hnolater]
          exact hupd1 u hun hw2d
        · exact hupd' u hun ⟨w2, h, hw2p, hw2d⟩
      · intro u hno
        have h1 : down'.getD u 0 = down1.getD u 0 := by
          refine hpres' u ?_
          rintro ⟨x, hx, hxp, hxu⟩
          exact hno ⟨x, List.mem_cons_of_mem _ hx, hxp, hxu⟩
        rw [h1]
        refine hpres1 u ?_
        rintro ⟨hun, hd⟩
        exact hno ⟨w, List.mem_cons_self _ _, hwp, hun, hd⟩

theorem dfs1_ok (hd0 : depth 0 = 0)
    (hpar : ∀ v, v < n → 0 < v → par v < n ∧ depth v = depth (par v) + 1)
    (g : List (List Nat)) (edges oriented : List (Nat × Nat))
    (hforall : List.Forall₂ (fun e f => f = e ∨ f = (e.2, e.1)) edges oriented)
    (hperm : List.Perm oriented (((List.range n).drop 1).map (fun w => (par w, w))))
    (hglen : g.length = n)
    (hgadj : ∀ v, v < n → g.getD v [] = adjContrib v edges) :
    ∀ (fuel v p : Nat) (down : List Nat), v < n → n - depth v ≤ fuel →
      ((v = 0 ∧ p = n) ∨ (0 < v ∧ p = par v)) → down.length = n →
      ∃ down', (sizeTreeDP n g).dfs1 fuel v p down =
          some (subtreeSize n par depth v, down') ∧
        down'.length = n ∧
        (∀ u, u < n → Desc par depth v u → down'.getD u 0 = subtreeSize n par depth u) ∧
        (∀ u, ¬(u < n ∧ Desc par depth v u) → down'.getD u 0 = down.getD u 0) := by
  intro fuel
  induction fuel with
  | zero =>
    intro v p down hv hfuel _ _
    exfalso
    have := depth_lt hd0 hpar v hv
    omega
  | succ fuel ih =>
    intro v p down hv hfuel hp hlen
    have hvlt : v < g.length := hglen ▸ hv
    have hvg : g[v]? = some (g.getD v []) := by
      rw [List.getElem?_eq_getElem hvlt, List.getD_eq_getElem]
    have hstep : ∀ w down1, 0 < w → w < n → par w = v → down1.length = n →
        ∃ down', (fun t2 down1 => (sizeTreeDP n g).dfs1 fuel t2 v down1) w down1 =
            some (subtreeSize n par depth w, down') ∧
          down'.length = n ∧
          (∀ u, u < n → Desc par depth w u → down'.getD u 0 = subtreeSize n par depth u) ∧
          (∀ u, ¬(u < n ∧ Desc par depth w u) → down'.getD u 0 = down1.getD u 0) := by
      intro w down1 hw0 hwn hwpar hlen1
      have hdw : depth w = depth v + 1 := by
        have := (hpar w hwn hw0).2
        rw [hwpar] at this
        exact this
      exact ih w v down1 hwn (by omega) (Or.inr ⟨hw0, hwpar.symm⟩) hlen1
    have hl : ∀ w ∈ g.getD v [], w = p ∨ (0 < w ∧ w < n ∧ par w = v) := by
      intro w hw
      rw [hgadj v hv] at hw
      rcases adj_mem_facts hpar edges oriented hforall hperm v hv w hw with
        ⟨hv0, hwp⟩ | h
      · rcases hp with ⟨hz, _⟩ | ⟨_, hpv⟩
        · omega
        · exact Or.inl (hwp.trans hpv.symm)
      · exact Or.inr h
    have hndperm := adjFilter_perm hpar edges oriented hforall hperm v p hv hp
    have hnd : ((g.getD v []).filter (fun w => w != p)).Nodup := by
      rw [hgadj v hv]
      exact (List.Perm.nodup_iff hndperm).mpr (childrenL_nodup v)
    obtain ⟨down1, hlist, hlen1, hupd1, hpres1⟩ :=
      dfs1List_ok hd0 hpar v _ hstep p (g.getD v []) 0 down hl hnd hlen
    have hsum : 0 + (((g.getD v []).filter (fun w => w != p)).map
        (subtreeSize n par depth)).sum + 1 = subtreeSize n par depth v := by
      have hmapperm : List.Perm
          (((g.getD v []).filter (fun w => w != p)).map (subtreeSize n par depth))
          ((childrenL n par v).map (subtreeSize n par depth)) := by
        apply List.Perm.map
        rw [hgadj v hv]
        exact hndperm
      rw [hmapperm.sum_eq]
      have := subtreeSize_eq hd0 hpar v hv
      omega
    refine ⟨down1.set v (subtreeSize n par depth v), ?_, by simp [hlen1], ?_, ?_⟩
    · have hgr : (sizeTreeDP n g).graph = g := rfl
      have hmg : (sizeTreeDP n g).merge = fun a b => a + b := rfl
      have har : (sizeTreeDP n g).add_root = fun a => a + 1 := rfl
      have hid : (sizeTreeDP n g).identity = 0 := rfl
      simp only [AllDirectionTreeDP.dfs1, hgr, hmg, har, hid, hvg, hlist]
      rw [hsum]
    · intro u hun hdu
      by_cases huv : u = v
      · subst huv
        rw [getDset_self _ _ _ _ (by rw [hlen1]; exact hglen ▸ hvlt)]
      · rw [getDset_ne _ _ _ _ _ (fun he => huv he.symm)]
        obtain ⟨w, hwn, hw0, hwpar, hdw, hwdu⟩ := desc_step hd0 hpar hun hdu huv
        refine hupd1 u hun ⟨w, ?_, ?_, hwdu⟩
        · rw [hgadj v hv]
          have hmem : w ∈ childrenL n par v := mem_childrenL.mpr ⟨hwn, hw0, hwpar⟩
          exact (adjContrib_tree edges oriented hforall hperm v).mem_iff.mpr
            (List.mem_append.mpr (Or.inr hmem))
        · rcases hp with ⟨_, hpn⟩ | ⟨hv0, hpv⟩
          · omega
          · intro he
            exact no_parent_in_children hpar v hv hv0
              ((he.trans hpv) ▸ mem_childrenL.mpr ⟨hwn, hw0, hwpar⟩)
    · intro u hno
      have huv : u ≠ v := by
        intro he
        exact hno ⟨by rw [he]; exact hv, by rw [he]; exact desc_refl v⟩
      rw [getDset_ne _ _ _ _ _ (fun he => huv he.symm)]
      refine hpres1 u ?_
      rintro ⟨w, hwmem, hwp, hun, hwdu⟩
      rw [hgadj v hv] at hwmem
      rcases adj_mem_facts hpar edges oriented hforall hperm v hv w hwmem with
        ⟨hv0, hwpv⟩ | ⟨hw0, hwn, hwpar⟩
      · rcases hp with ⟨hz, _⟩ | ⟨_, hpv⟩
        · omega
        · exact hwp (hwpv.trans hpv.symm)
      · have hdw : depth w = depth v + 1 := by
          have h := (hpar w hwn hw0).2
          rw [hwpar] at h
          exact h
        exact hno ⟨hun, desc_of_child hwpar hdw hwdu⟩

theorem natFoldl_sum : ∀ (l : List Nat) (x : Nat),
    l.foldl (fun a b => a + b) x = x + l.sum := by
  intro l
  induction l with
  | nil => intro x; simp
  | cons a l ih =>
    intro x
    simp only [List.foldl_cons, List.sum_cons]
    rw [ih (x + a)]
    omega

theorem natFoldr_sum : ∀ (l : List Nat),
    l.foldr (fun a b => a + b) 0 = l.sum := by
  intro l
  induction l with
  | nil => rfl
  | cons a l ih =>
    simp only [List.foldr_cons, List.sum_cons, ih]

theorem treeVals_ok (down : List Nat) (p : Nat) (fp : Nat) :
    ∀ l : List Nat, (∀ w ∈ l, w = p ∨ w < down.length) →
      treeVals down p fp l =
        some (l.map (fun w => if w = p then fp else down.getD w 0)) := by
  intro l
  induction l with
  | nil => intro _; rfl
  | cons w l ih =>
    intro hl
    have htail := ih (fun x hx => hl x (List.mem_cons_of_mem _ hx))
    by_cases hwp : w = p
    · simp only [treeVals, if_pos hwp, htail, List.map_cons]
    · have hwlt : w < down.length := (hl w (List.mem_cons_self _ _)).resolve_left hwp
      have hget : down[w]? = some (down.getD w 0) := by
        rw [List.getElem?_eq_getElem hwlt, List.getD_eq_getElem]
      simp only [treeVals, if_neg hwp, hget, htail, List.map_cons]

theorem dfs2Go_ok (hd0 : depth 0 = 0)
    (hpar : ∀ v, v < n → 0 < v → par v < n ∧ depth v = depth (par v) + 1)
    (v : Nat)
    (step : Nat → Nat → List Nat → Option (List Nat))
    (hstep : ∀ w next ansx, 0 < w → w < n → par w = v →
      next = n - subtreeSize n par depth w → ansx.length = n →
      ∃ ans', step w next ansx = some ans' ∧ ans'.length = n ∧
        (∀ u, u < n → Desc par depth w u → ans'.getD u 0 = n) ∧
        (∀ u, ¬(u < n ∧ Desc par depth w u) → ans'.getD u 0 = ansx.getD u 0))
    (p : Nat) (fp : Nat) :
    ∀ (l : List Nat) (pre : Nat) (ans : List Nat),
      (∀ w ∈ l, w = p ∨ (0 < w ∧ w < n ∧ par w = v)) →
      (l.filter (fun w => w != p)).Nodup →
      pre + (l.map (fun w => if w = p then fp else subtreeSize n par depth w)).sum
        = n - 1 →
      ans.length = n →
      ∃ ans', dfs2Go step (fun a b => a + b) (fun a => a + 1) 0 p l
          (l.map (fun w => if w = p then fp else subtreeSize n par depth w)) pre ans
          = some ans' ∧
        ans'.length = n ∧
        (∀ u, u < n → (∃ w ∈ l, w ≠ p ∧ Desc par depth w u) → ans'.getD u 0 = n) ∧
        (∀ u, ¬(∃ w ∈ l, w ≠ p ∧ u < n ∧ Desc par depth w u) →
          ans'.getD u 0 = ans.getD u 0) := by
  intro l
  induction l with
  | nil =>
    intro pre ans _ _ _ hlen
    refine ⟨ans, by simp [dfs2Go], hlen, ?_, ?_⟩
    · intro u _ h
      obtain ⟨w, hw, _⟩ := h
      cases hw
    · intro u _
      rfl
  | cons w l ih =>
    intro pre ans hl hnd hsum hlen
    have hfc : (w :: l).filter (fun x => x != p) =
        if w = p then l.filter (fun x => x != p)
        else w :: l.filter (fun x => x != p) := by
      rw [List.filter_cons]
      by_cases hwp : w = p
      · simp [hwp]
      · simp [hwp]
    by_cases hwp : w = p
    · rw [hfc, if_pos hwp] at hnd
      have hsum2 : (pre + (if w = p then fp else subtreeSize n par depth w)) +
          (l.map (fun x => if x = p then fp else subtreeSize n par depth x)).sum
          = n - 1 := by
        rw [List.map_cons, List.sum_cons] at hsum
        omega
      obtain ⟨ans', hrun, hlen', hupd', hpres'⟩ :=
        ih (pre + (if w = p then fp else subtreeSize n par depth w)) ans
          (fun x hx => hl x (List.mem_cons_of_mem _ hx)) hnd hsum2 hlen
      refine ⟨ans', ?_, hlen', ?_, ?_⟩
      · rw [List.map_cons,
          show dfs2Go step (fun a b => a + b) (fun a => a + 1) 0 p (w :: l)
            ((if w = p then fp else subtreeSize n par depth w) ::
              l.map (fun x => if x = p then fp else subtreeSize n par depth x)) pre ans
            = dfs2Go step (fun a b => a + b) (fun a => a + 1) 0 p l
              (l.map (fun x => if x = p then fp else subtreeSize n par depth x))
              (pre + (if w = p then fp else subtreeSize n par depth w)) ans from by
            simp [dfs2Go, hwp]]
        exact hrun
      · intro u hun hex
        obtain ⟨w2, hw2, hw2p, hw2d⟩ := hex
        rcases List.mem_cons.mp hw2 with h | h
        · exact absurd (h ▸ hwp) hw2p
        · exact hupd' u hun ⟨w2, h, hw2p, hw2d⟩
      · intro u hno
        refine hpres' u ?_
        rintro ⟨x, hx, hxp, hxu⟩
        exact hno ⟨x, List.mem_cons_of_mem _ hx, hxp, hxu⟩
    · obtain ⟨hw0, hwn, hwpar⟩ := (hl w (List.mem_cons_self _ _)).resolve_left hwp
      rw [hfc, if_neg hwp] at hnd
      obtain ⟨hwnotin, hndl⟩ := List.nodup_cons.mp hnd
      have hsum' : pre + subtreeSize n par depth w +
          (l.map (fun x => if x = p then fp else subtreeSize n par depth x)).sum
          = n - 1 := by
        rw [List.map_cons, List.sum_cons, if_neg hwp] at hsum
        omega
      have hfr : (l.map (fun x => if x = p then fp
          else subtreeSize n par depth x)).foldr (fun a b => a + b) 0 =
          (l.map (fun x => if x = p then fp else subtreeSize n par depth x)).sum :=
        natFoldr_sum _
      have hnexteq : pre + (l.map (fun x => if x = p then fp
          else subtreeSize n par depth x)).foldr (fun a b => a + b) 0 + 1
          = n - subtreeSize n par depth w := by
        rw [hfr]
        omega
      obtain ⟨ans1, hstepeq, hlen1, hupd1, hpres1⟩ :=
        hstep w (pre + (l.map (fun x => if x = p then fp
          else subtreeSize n par depth x)).foldr (fun a b => a + b) 0 + 1) ans
          hw0 hwn hwpar hnexteq hlen
      obtain ⟨ans', hrun, hlen', hupd', hpres'⟩ :=
        ih (pre + subtreeSize n par depth w) ans1
          (fun x hx => hl x (List.mem_cons_of_mem _ hx)) hndl hsum' hlen1
      refine ⟨ans', ?_, hlen', ?_, ?_⟩
      · rw [List.map_cons,
          show dfs2Go step (fun a b => a + b) (fun a => a + 1) 0 p (w :: l)
            ((if w = p then fp else subtreeSize n par depth w) ::
              l.map (fun x => if x = p then fp else subtreeSize n par depth x)) pre ans
            = dfs2Go step (fun a b => a + b) (fun a => a + 1) 0 p l
              (l.map (fun x => if x = p then fp else subtreeSize n par depth x))
              (pre + subtreeSize n par depth w) ans1 from by
            simp [dfs2Go, hwp, hstepeq]]
        exact hrun
      · intro u hun hex
        obtain ⟨w2, hw2, hw2p, hw2d⟩ := hex
        rcases List.mem_cons.mp hw2 with h | h
        · subst h
          have hnolater : ¬(∃ x ∈ l, x ≠ p ∧ u < n ∧ Desc par depth x u) := by
            rintro ⟨x, hx, hxp, _, hxd⟩
            obtain ⟨hx0, hxn, hxpar⟩ :=
              (hl x (List.mem_cons_of_mem _ hx)).resolve_left hxp
            have hxw : x = w2 :=
              children_desc_disjoint hpar hx0 hxn hxpar hw0 hwn hwpar hxd hw2d
            subst hxw
            exact hwnotin (List.mem_filter.mpr ⟨hx, by simp [hxp]⟩)
          rw [hpres' u hnolater]
          exact hupd1 u hun hw2d
        · exact hupd' u hun ⟨w2, h, hw2p, hw2d⟩
      · intro u hno
        have h1 : ans'.getD u 0 = ans1.getD u 0 := by
          refine hpres' u ?_
          rintro ⟨x, hx, hxp, hxu⟩
          exact hno ⟨x, List.mem_cons_of_mem _ hx, hxp, hxu⟩
        rw [h1]
        refine hpres1 u ?_
        rintro ⟨hun, hd⟩
        exact hno ⟨w, List.mem_cons_self _ _, hwp, hun, hd⟩

theorem dfs2_ok (hd0 : depth 0 = 0)
    (hpar : ∀ v, v < n → 0 < v → par v < n ∧ depth v = depth (par v) + 1)
    (g : List (List Nat)) (edges oriented : List (Nat × Nat))
    (hforall : List.Forall₂ (fun e f => f = e ∨ f = (e.2, e.1)) edges oriented)
    (hperm : List.Perm oriented (((List.range n).drop 1).map (fun w => (par w, w))))
    (hglen : g.length = n)
    (hgadj : ∀ v, v < n → g.getD v [] = adjContrib v edges)
    (hn : 1 ≤ n) :
    ∀ (fuel v p fp : Nat) (down ans : List Nat), v < n → n - depth v ≤ fuel →
      ((v = 0 ∧ p = n ∧ fp = 0) ∨
        (0 < v ∧ p = par v ∧ fp = n - subtreeSize n par depth v)) →
      down.length = n →
      (∀ u, u < n → down.getD u 0 = subtreeSize n par depth u) →
      ans.length = n →
      ∃ ans', (sizeTreeDP n g).dfs2 fuel v p fp down ans = some ans' ∧
        ans'.length = n ∧
        (∀ u, u < n → Desc par depth v u → ans'.getD u 0 = n) ∧
        (∀ u, ¬(u < n ∧ Desc par depth v u) → ans'.getD u 0 = ans.getD u 0) := by
  intro fuel
  induction fuel with
  | zero =>
    intro v p fp down ans hv hfuel _ _ _ _
    exfalso
    have := depth_lt hd0 hpar v hv
    omega
  | succ fuel ih =>
    intro v p fp down ans hv hfuel hp hdlen hdown halen
    have hvlt : v < g.length := hglen ▸ hv
    have hvg : g[v]? = some (g.getD v []) := by
      rw [List.getElem?_eq_getElem hvlt, List.getD_eq_getElem]
    have hlmem : ∀ w ∈ g.getD v [], w = p ∨ w < down.length := by
      intro w hw
      rw [hgadj v hv] at hw
      rcases adj_mem_facts hpar edges oriented hforall hperm v hv w hw with
        ⟨hv0, hwpv⟩ | ⟨_, hwn, _⟩
      · rcases hp with ⟨hz, _, _⟩ | ⟨_, hpv, _⟩
        · omega
        · exact Or.inl (hwpv.trans hpv.symm)
      · exact Or.inr (by omega)
    have htv := treeVals_ok down p fp (g.getD v []) hlmem
    have hmapeq : (g.getD v []).map (fun w => if w = p then fp else down.getD w 0) =
        (g.getD v []).map
          (fun w => if w = p then fp else subtreeSize n par depth w) := by
      apply List.map_congr_left
      intro w hw
      by_cases hwp : w = p
      · rw [if_pos hwp, if_pos hwp]
      · rw [if_neg hwp, if_neg hwp]
        rw [hgadj v hv] at hw
        rcases adj_mem_facts hpar edges oriented hforall hperm v hv w hw with
          ⟨hv0, hwpv⟩ | ⟨_, hwn, _⟩
        · exfalso
          rcases hp with ⟨hz, _, _⟩ | ⟨_, hpv, _⟩
          · omega
          · exact hwp (hwpv.trans hpv.symm)
        · exact hdown w hwn
    have hl2 : ∀ w ∈ g.getD v [], w = p ∨ (0 < w ∧ w < n ∧ par w = v) := by
      intro w hw
      rw [hgadj v hv] at hw
      rcases adj_mem_facts hpar edges oriented hforall hperm v hv w hw with
        ⟨hv0, hwpv⟩ | h
      · rcases hp with ⟨hz, _, _⟩ | ⟨_, hpv, _⟩
        · omega
        · exact Or.inl (hwpv.trans hpv.symm)
      · exact Or.inr h
    have hp1 : (v = 0 ∧ p = n) ∨ (0 < v ∧ p = par v) := by
      rcases hp with ⟨h1, h2, _⟩ | ⟨h1, h2, _⟩
      · exact Or.inl ⟨h1, h2⟩
      · exact Or.inr ⟨h1, h2⟩
    have hndperm := adjFilter_perm hpar edges oriented hforall hperm v p hv hp1
    have hnd : ((g.getD v []).filter (fun w => w != p)).Nodup := by
      rw [hgadj v hv]
      exact (List.Perm.nodup_iff hndperm).mpr (childrenL_nodup v)
    have hchsum : ((childrenL n par v).map
        (fun w => if w = p then fp else subtreeSize n par depth w)).sum =
        ((childrenL n par v).map (subtreeSize n par depth)).sum := by
      apply congrArg List.sum
      apply List.map_congr_left
      intro w hw
      obtain ⟨hwn, hw0, hwpar⟩ := mem_childrenL.mp hw
      rw [if_neg ?_]
      rcases hp1 with ⟨_, hpn⟩ | ⟨hv0, hpv⟩
      · omega
      · intro he
        exact no_parent_in_children hpar v hv hv0
          ((he.trans hpv) ▸ hw)
    have hstot : ((g.getD v []).map (fun w => if w = p then fp
        else subtreeSize n par depth w)).sum = n - 1 := by
      have hpm : List.Perm
          ((g.getD v []).map (fun w => if w = p then fp
            else subtreeSize n par depth w))
          ((((if 0 < v ∧ v < n then [par v] else []) ++ childrenL n par v)).map
            (fun w => if w = p then fp else subtreeSize n par depth w)) := by
        apply List.Perm.map
        rw [hgadj v hv]
        exact adjContrib_tree edges oriented hforall hperm v
      rw [hpm.sum_eq, List.map_append, List.sum_append, hchsum]
      have hSeq := subtreeSize_eq hd0 hpar v hv
      rcases hp with ⟨hv0, hpn, hfp⟩ | ⟨hv0, hpv, hfp⟩
      · subst hv0
        rw [if_neg (by simp)]
        simp only [List.map_nil, List.sum_nil]
        have hroot := subtreeSize_root hd0 hpar
        omega
      · rw [if_pos ⟨hv0, hv⟩]
        have hfpar : ((([par v]).map (fun w => if w = p then fp
            else subtreeSize n par depth w))).sum = fp := by
          simp only [List.map_cons, List.map_nil, List.sum_cons, List.sum_nil]
          rw [if_pos hpv.symm]
          omega
        rw [hfpar]
        have hle := @subtreeSize_le n par depth v
        omega
    have hans1v : ((g.getD v []).map (fun w => if w = p then fp
        else subtreeSize n par depth w)).foldl (fun a b => a + b) 0 + 1 = n := by
      rw [natFoldl_sum, hstot]
      omega
    have hstep : ∀ w next ansx, 0 < w → w < n → par w = v →
        next = n - subtreeSize n par depth w → ansx.length = n →
        ∃ ans', (fun t2 next2 ansx2 =>
            (sizeTreeDP n g).dfs2 fuel t2 v next2 down ansx2) w next ansx = some ans' ∧
          ans'.length = n ∧
          (∀ u, u < n → Desc par depth w u → ans'.getD u 0 = n) ∧
          (∀ u, ¬(u < n ∧ Desc par depth w u) → ans'.getD u 0 = ansx.getD u 0) := by
      intro w next ansx hw0 hwn hwpar hnext hlenx
      have hdw : depth w = depth v + 1 := by
        have h := (hpar w hwn hw0).2
        rw [hwpar] at h
        exact h
      exact ih w v next down ansx hwn (by omega)
        (Or.inr ⟨hw0, hwpar.symm, hnext⟩) hdlen hdown hlenx
    obtain ⟨ans', hgo, hlen', hupd', hpres'⟩ :=
      dfs2Go_ok hd0 hpar v _ hstep p fp (g.getD v []) 0 (ans.set v n) hl2 hnd
        (by rw [Nat.zero_add]; exact hstot) (by simp [halen])
    refine ⟨ans', ?_, hlen', ?_, ?_⟩
    · have hgr : (sizeTreeDP n g).graph = g := rfl
      have hmg : (sizeTreeDP n g).merge = fun a b => a + b := rfl
      have har : (sizeTreeDP n g).add_root = fun a => a + 1 := rfl
      have hid : (sizeTreeDP n g).identity = 0 := rfl
      have hset : ans.set v (((g.getD v []).map (fun w => if w = p then fp
          else subtreeSize n par depth w)).foldl (fun a b => a + b) 0 + 1)
          = ans.set v n := by rw [hans1v]
      simp only [AllDirectionTreeDP.dfs2, hgr, hmg, har, hid, hvg, htv, hmapeq, hset]
      exact hgo
    · intro u hun hdu
      by_cases huv : u = v
      · subst huv
        have hno : ¬(∃ w ∈ g.getD u [], w ≠ p ∧ u < n ∧ Desc par depth w u) := by
          rintro ⟨w, hwmem, hwp2, _, hdwu⟩
          obtain ⟨hw0, hwn, hwpar⟩ := (hl2 w hwmem).resolve_left hwp2
          have hdw : depth w = depth u + 1 := by
            have h := (hpar w hwn hw0).2
            rw [hwpar] at h
            exact h
          have := hdwu.1
          omega
        rw [hpres' u hno, getDset_self _ _ _ _ (by omega)]
      · obtain ⟨w, hwn, hw0, hwpar, hdw, hwdu⟩ := desc_step hd0 hpar hun hdu huv
        refine hupd' u hun ⟨w, ?_, ?_, hwdu⟩
        · rw [hgadj v hv]
          have hmem : w ∈ childrenL n par v := mem_childrenL.mpr ⟨hwn, hw0, hwpar⟩
          exact (adjContrib_tree edges oriented hforall hperm v).mem_iff.mpr
            (List.mem_append.mpr (Or.inr hmem))
        · rcases hp1 with ⟨_, hpn⟩ | ⟨hv0, hpv⟩
          · omega
          · intro he
            exact no_parent_in_children hpar v hv hv0
              ((he.trans hpv) ▸ mem_childrenL.mpr ⟨hwn, hw0, hwpar⟩)
    · intro u hno
      have huv : u ≠ v := by
        intro he
        exact hno ⟨by rw [he]; exact hv, by rw [he]; exact desc_refl v⟩
      have h1 : ans'.getD u 0 = (ans.set v n).getD u 0 := by
        refine hpres' u ?_
        rintro ⟨w, hwmem, hwp2, hun, hwdu⟩
        obtain ⟨hw0, hwn, hwpar⟩ := (hl2 w hwmem).resolve_left hwp2
        have hdw : depth w = depth v + 1 := by
          have h := (hpar w hwn hw0).2
          rw [hwpar] at h
          exact h
        exact hno ⟨hun, desc_of_child hwpar hdw hwdu⟩
      rw [h1, getDset_ne _ _ _ _ _ (fun he => huv he.symm)]

end TreeDPLemmas

/-! ## C5 -/

/-- C5: for every `n ≥ 1` and every edge list forming a tree on the nodes
`0..n` (witnessed by a parent/depth assignment rooted at `0` whose
parent-child edges are, up to order and per-edge orientation, exactly the
given edges), `AllDirectionTreeDP::new(n, edges, 0, merge = +,
add_root = (· + 1)).solve()` (with fuel at least `n` for the tree walks)
returns the vector whose entry for every node is `n`. -/
theorem C5_rerooting_subtree_size (n fuel : Nat) (edges : List (Nat × Nat))
    (par depth : Nat → Nat) (oriented : List (Nat × Nat))
    (hn : 1 ≤ n) (hd0 : depth 0 = 0)
    (hpar : ∀ v, v < n → 0 < v → par v < n ∧ depth v = depth (par v) + 1)
    (hforall : List.Forall₂ (fun e f => f = e ∨ f = (e.2, e.1)) edges oriented)
    (hperm : List.Perm oriented (((List.range n).drop 1).map (fun w => (par w, w))))
    (hfuel : n ≤ fuel) :
    ∃ dp, AllDirectionTreeDP.new n edges (0 : Nat) (fun a b => a + b) (fun a => a + 1)
        = some dp ∧
      dp.solve fuel = some (List.replicate n n) := by
  have hbounds : ∀ e ∈ edges, e.1 < (List.replicate n ([] : List Nat)).length ∧
      e.2 < (List.replicate n ([] : List Nat)).length := by
    intro e he
    have h := edges_endpoints_lt hpar edges oriented hforall hperm e he
    simp only [List.length_replicate]
    exact h
  obtain ⟨g, hg, hglen0, hgadj0⟩ := buildGraph_spec edges (List.replicate n []) hbounds
  have hglen : g.length = n := by rw [hglen0]; simp
  have hgadj : ∀ v, v < n → g.getD v [] = adjContrib v edges := by
    intro v hv
    rw [hgadj0 v]
    have hrep : (List.replicate n ([] : List Nat)).getD v [] = [] := by
      rw [List.getD_eq_getElem?_getD, List.getElem?_replicate]
      by_cases h : v < n <;> simp [h]
    rw [hrep]
    simp
  have hnew : AllDirectionTreeDP.new n edges (0 : Nat) (fun a b => a + b)
      (fun a => a + 1) = some (sizeTreeDP n g) := by
    unfold AllDirectionTreeDP.new sizeTreeDP
    rw [hg]
  refine ⟨sizeTreeDP n g, hnew, ?_⟩
  have hv0 : (0 : Nat) < n := hn
  obtain ⟨down, hdfs1, hdlen, hdupd, _⟩ :=
    dfs1_ok hd0 hpar g edges oriented hforall hperm hglen hgadj fuel 0 n
      (List.replicate n 0) hv0 (by rw [hd0]; omega) (Or.inl ⟨rfl, rfl⟩) (by simp)
  have hdown : ∀ u, u < n → down.getD u 0 = subtreeSize n par depth u :=
    fun u hu => hdupd u hu (desc_root hd0 hpar u hu)
  obtain ⟨ansf, hdfs2, halenf, hansupd, _⟩ :=
    dfs2_ok hd0 hpar g edges oriented hforall hperm hglen hgadj hn fuel 0 n 0 down
      (List.replicate n 0) hv0 (by rw [hd0]; omega) (Or.inl ⟨rfl, rfl, rfl⟩)
      hdlen hdown (by simp)
  have hanseq : ansf = List.replicate n n := by
    apply List.ext_getElem
    · rw [halenf, List.length_replicate]
    · intro i h1 h2
      have hin : i < n := by rw [halenf] at h1; exact h1
      have hval := hansupd i hin (desc_root hd0 hpar i hin)
      rw [List.getD_eq_getElem?_getD, List.getElem?_eq_getElem h1] at hval
      simp only [Option.getD_some] at hval
      rw [List.getElem_replicate]
      exact hval
  have hnn : (sizeTreeDP n g).n = n := rfl
  have hid : (sizeTreeDP n g).identity = (0 : Nat) := rfl
  show AllDirectionTreeDP.solve (sizeTreeDP n g) fuel = some (List.replicate n n)
  simp only [AllDirectionTreeDP.solve, hnn, hid, hdfs1, hdfs2, hanseq]

/-- C5 witness: the star-plus-path tree on five nodes with edges
`(0,1), (0,2), (1,3), (1,4)` (the source's own test case); `solve` returns
`[5, 5, 5, 5, 5]`, and the theorem applies with the evident parent/depth
assignment rooted at `0`. -/
theorem C5_rerooting_subtree_size_witness :
    ((AllDirectionTreeDP.new 5 [(0, 1), (0, 2), (1, 3), (1, 4)] (0 : Nat)
        (fun a b => a + b) (fun a => a + 1)).map (fun dp => dp.solve 5)
      = some (some [5, 5, 5, 5, 5])) ∧
    (∃ dp, AllDirectionTreeDP.new 5 [(0, 1), (0, 2), (1, 3), (1, 4)] (0 : Nat)
        (fun a b => a + b) (fun a => a + 1) = some dp ∧
      dp.solve 5 = some (List.replicate 5 5)) :=
  ⟨rfl,
    C5_rerooting_subtree_size 5 5 [(0, 1), (0, 2), (1, 3), (1, 4)]
      (fun v => match v with | 3 => 1 | 4 => 1 | _ => 0)
      (fun v => match v with | 0 => 0 | 1 => 1 | 2 => 1 | _ => 2)
      [(0, 1), (0, 2), (1, 3), (1, 4)]
      (by decide) rfl (by decide)
      (List.Forall₂.cons (Or.inl rfl) (List.Forall₂.cons (Or.inl rfl)
        (List.Forall₂.cons (Or.inl rfl) (List.Forall₂.cons (Or.inl rfl)
          List.Forall₂.nil))))
      (by decide) (by decide)⟩

end RM
